import Mathlib

/-
Verification of the parallel group builder in src/common/group_data.h
(class ParallelGroupBuilder).

The C++ class is a four-phase builder turning an unordered stream of
(key, value) records produced by several threads into a CSR-style pair of
arrays: an offset array rptr delimiting one contiguous run per key, and a
flat data array holding the values.  The class is generic over the value
type, the index type and a boolean template parameter is_row_major
selecting the partitioned (row-major) or shared (general) mode.

Shallow embedding conventions:
  - std::vector is modelled as List; vector::resize(n, fill) is resizeFill.
  - size_t / SizeType are modelled as Nat.  All subtractions appearing in
    the source are modelled with truncated Nat subtraction; the theorems
    below only use them under hypotheses that rule out C++ underflow
    (except for the one subtraction the source itself clamps with
    std::min, which truncated subtraction models exactly).
  - data_.resize default-constructs elements, modelled by an Inhabited
    instance.
  - out-of-range vector indexing (undefined behaviour in C++) is modelled
    with getD; every theorem's hypotheses keep the accesses in range.
  - the template parameter is_row_major is passed explicitly (rm) to each
    member function.
-/

namespace GroupData

/-- Model of std::vector::resize(n, fill): truncate to n elements if the
vector is longer, otherwise extend it with copies of fill. -/
def resizeFill {α : Type} (v : List α) (n : Nat) (x : α) : List α :=
  if n ≤ v.length then v.take n else v ++ List.replicate (n - v.length) x

/-- State of a ParallelGroupBuilder: the caller-owned offset array rptr_
and data array data_, the per-thread buffers thread_rptr_, and the
base_row_offset_ / thread_displacement_ scalars.  thread_displacement_ is
uninitialized in the C++ object until InitBudget runs; we store 0, and no
operation reads it before InitBudget writes it. -/
structure Builder (α : Type) where
  rptr : List Nat
  data : List α
  thread_rptr : List (List Nat)
  base_row_offset : Nat
  thread_displacement : Nat

/-- The constructor: bind the builder to the caller's arrays, with empty
thread-local state. -/
def mkBuilder {α : Type} (rptr0 : List Nat) (data0 : List α) (base : Nat) :
    Builder α :=
  ⟨rptr0, data0, [], base, 0⟩

/-- Helper for InitBudget: the C++ loop resizing thread buffer i to
thread_size for i < nthread - 1, and the final statement resizing buffer
nthread - 1 to last_size.  The argument i is the index of the first
buffer of the remaining list. -/
def resizeEach (nthread thread_size last_size : Nat) :
    Nat → List (List Nat) → List (List Nat)
  | _, [] => []
  | i, v :: rest =>
      (if i + 1 = nthread then resizeFill v last_size 0
       else resizeFill v thread_size 0) ::
        resizeEach nthread thread_size last_size (i + 1) rest

/-- Step 1, InitBudget(max_key, nthread): allocate the per-thread
counting buffers.  Mirrors the source: in row-major (partitioned) mode
full_size is max_key and the displacement is full_size / nthread; in
shared mode full_size is max_key - min(base_row_offset, max_key) and the
displacement is 0. -/
def InitBudget {α : Type} (rm : Bool) (bld : Builder α)
    (max_key nthread : Nat) : Builder α :=
  let tr0 := resizeFill bld.thread_rptr nthread []
  let full_size := if rm then max_key
                   else max_key - min bld.base_row_offset max_key
  let disp := if rm then full_size / nthread else 0
  let thread_size := if rm then disp else full_size
  let last_size := if rm then full_size - (nthread - 1) * disp else full_size
  { bld with
      thread_rptr := resizeEach nthread thread_size last_size 0 tr0,
      thread_displacement := disp }

/-- The key-to-local-index translation shared by AddBudget and Push:
key - base_row_offset - threadid * thread_displacement in row-major mode,
key - base_row_offset in shared mode. -/
def offsetKey (rm : Bool) (base disp key threadid : Nat) : Nat :=
  if rm then key - base - threadid * disp else key - base

/-- Step 2, AddBudget(key, threadid, nelem): grow the thread's buffer on
demand (zero filled) and add nelem to the cell of the translated key. -/
def AddBudget {α : Type} (rm : Bool) (bld : Builder α)
    (key threadid nelem : Nat) : Builder α :=
  let tr := bld.thread_rptr.getD threadid []
  let j := offsetKey rm bld.base_row_offset bld.thread_displacement key threadid
  let tr2 := if tr.length < j + 1 then resizeFill tr (j + 1) 0 else tr
  { bld with
      thread_rptr :=
        bld.thread_rptr.set threadid (tr2.set j (tr2.getD j 0 + nelem)) }

/-- Row-major InitStorage inner loop over one thread's buffer: each cell's
count is recorded, the cell is rewritten to count + rptr_fill_value, the
running count advances, and (guarded by offset_idx < rptr.size) the rptr
entry at offset_idx is incremented by the running count.  Returns the
rewritten cells, the updated rptr, the running count and offset_idx. -/
def rmScanRow (fillv : Nat) :
    List Nat → List Nat → Nat → Nat → List Nat × List Nat × Nat × Nat
  | [], r, count, idx => ([], r, count, idx)
  | c :: cs, r, count, idx =>
      let count2 := count + c
      let ri := if idx < r.length
                then (r.set idx (r.getD idx 0 + count2), idx + 1)
                else (r, idx)
      let out := rmScanRow fillv cs ri.1 count2 ri.2
      ((count + fillv) :: out.1, out.2.1, out.2.2.1, out.2.2.2)

/-- Row-major InitStorage outer loop over the thread buffers. -/
def rmScanAll (fillv : Nat) :
    List (List Nat) → List Nat → Nat → Nat →
      List (List Nat) × List Nat × Nat × Nat
  | [], r, count, idx => ([], r, count, idx)
  | tr :: rest, r, count, idx =>
      let row := rmScanRow fillv tr r count idx
      let out := rmScanAll fillv rest row.2.1 row.2.2.1 row.2.2.2
      (row.1 :: out.1, out.2.1, out.2.2.1, out.2.2.2)

/-- Shared-mode InitStorage sizing loop: for each thread, if
rptr.size <= buffer.size + base then resize rptr to
buffer.size + base + 1, filling with rptr_fill_value. -/
def sharedResizeLoop (fillv b : Nat) : List Nat → List (List Nat) → List Nat
  | r, [] => r
  | r, tr :: rest =>
      sharedResizeLoop fillv b
        (if r.length ≤ tr.length + b
         then resizeFill r (tr.length + b + 1) fillv else r) rest

/-- Shared-mode InitStorage inner loop over threads for one key i: if the
key row is assigned to the thread (i < buffer.size + base), record the
cell's count, rewrite the cell to count + rptr.back(), and advance the
running count.  The rptr is only read (for back()), never written, inside
this loop. -/
def sharedThreadFold (r : List Nat) (b i : Nat) :
    List (List Nat) → Nat → List (List Nat) × Nat
  | [], count => ([], count)
  | tr :: rest, count =>
      if i < tr.length + b then
        let tc := tr.getD (i - b) 0
        let out := sharedThreadFold r b i rest (count + tc)
        (tr.set (i - b) (count + r.getLastD 0) :: out.1, out.2)
      else
        let out := sharedThreadFold r b i rest count
        (tr :: out.1, out.2)

/-- Shared-mode InitStorage outer loop over the keys i (the list of loop
indices is passed explicitly); after the threads are folded for key i,
rptr[i+1] is incremented by the accumulated count. -/
def sharedMainLoop (b : Nat) :
    List Nat → List Nat × List (List Nat) × Nat →
      List Nat × List (List Nat) × Nat
  | [], st => st
  | i :: is, st =>
      let p := sharedThreadFold st.1 b i st.2.1 st.2.2
      sharedMainLoop b is
        (st.1.set (i + 1) (st.1.getD (i + 1) 0 + p.2), p.1, p.2)

/-- Step 3, InitStorage(): the single-threaded merge.  Mirrors the two
branches of the source, including rptr_fill_value = rptr.empty() ? 0 :
rptr.back() (which is getLastD 0), the unconditional resize in row-major
mode, the conditional per-thread resizes in shared mode, and the final
data_.resize(rptr_.back()). -/
def InitStorage {α : Type} [Inhabited α] (rm : Bool) (bld : Builder α) :
    Builder α :=
  if rm then
    let expected_rows := (bld.thread_rptr.map List.length).sum
    let fillv := bld.rptr.getLastD 0
    let r0 := resizeFill bld.rptr (expected_rows + bld.base_row_offset + 1) fillv
    let out := rmScanAll fillv bld.thread_rptr r0 0 (bld.base_row_offset + 1)
    { bld with
        rptr := out.2.1,
        thread_rptr := out.1,
        data := resizeFill bld.data (out.2.1.getLastD 0) default }
  else
    let fillv := bld.rptr.getLastD 0
    let r0 := sharedResizeLoop fillv bld.base_row_offset bld.rptr bld.thread_rptr
    let st := sharedMainLoop bld.base_row_offset
      (List.range' bld.base_row_offset (r0.length - 1 - bld.base_row_offset))
      (r0, bld.thread_rptr, 0)
    { bld with
        rptr := st.1,
        thread_rptr := st.2.1,
        data := resizeFill bld.data (st.1.getLastD 0) default }

/-- Step 4, Push(key, value, threadid): write the value into the data
array at the position held by the thread's cursor cell for the key, then
advance that cell by one. -/
def Push {α : Type} (rm : Bool) (bld : Builder α) (key : Nat) (value : α)
    (threadid : Nat) : Builder α :=
  let j := offsetKey rm bld.base_row_offset bld.thread_displacement key threadid
  let tr := bld.thread_rptr.getD threadid []
  let rp := tr.getD j 0
  { bld with
      data := bld.data.set rp value,
      thread_rptr := bld.thread_rptr.set threadid (tr.set j (rp + 1)) }

/-! Protocol drivers.  The budget phase and the push phase run in
parallel in C++, but each thread only ever touches its own buffer (and,
in the push phase, data slots reserved for it alone), so the end state is
that of a sequential thread-by-thread execution; we take that execution
as the model.  buds gives each thread's AddBudget calls as (key, nelem)
pairs in call order, recs gives each thread's Push calls as (key, value)
pairs in call order. -/

/-- Budget phase for a single thread. -/
def applyBudgetList {α : Type} (rm : Bool) (t : Nat) (bld : Builder α)
    (bs : List (Nat × Nat)) : Builder α :=
  bs.foldl (fun acc p => AddBudget rm acc p.1 t p.2) bld

/-- Budget phase: every thread applies its list of AddBudget calls. -/
def applyBudgets {α : Type} (rm : Bool) (bld : Builder α)
    (buds : List (List (Nat × Nat))) : Builder α :=
  (List.range buds.length).foldl
    (fun acc t => applyBudgetList rm t acc (buds.getD t [])) bld

/-- Push phase for a single thread. -/
def applyPushList {α : Type} (rm : Bool) (t : Nat) (bld : Builder α)
    (rs : List (Nat × α)) : Builder α :=
  rs.foldl (fun acc p => Push rm acc p.1 p.2 t) bld

/-- Push phase: every thread applies its list of Push calls. -/
def applyPushes {α : Type} (rm : Bool) (bld : Builder α)
    (recs : List (List (Nat × α))) : Builder α :=
  (List.range recs.length).foldl
    (fun acc t => applyPushList rm t acc (recs.getD t [])) bld

/-- The full four-phase protocol: construct, InitBudget, AddBudget calls,
InitStorage, Push calls. -/
def runProtocol {α : Type} [Inhabited α] (rm : Bool) (base : Nat)
    (rptr0 : List Nat) (data0 : List α) (max_key nthread : Nat)
    (buds : List (List (Nat × Nat))) (recs : List (List (Nat × α))) :
    Builder α :=
  applyPushes rm
    (InitStorage rm
      (applyBudgets rm (InitBudget rm (mkBuilder rptr0 data0 base) max_key nthread) buds))
    recs

/-! Specification-side quantities.  These are the closed forms the
characterization lemmas below relate to the operational definitions. -/

/-- The full_size value computed by InitBudget: max_key in row-major
mode, max_key - min(base, max_key) in shared mode. -/
def fullSize (rm : Bool) (base n : Nat) : Nat :=
  if rm then n else n - min base n

/-- The thread displacement computed by InitBudget. -/
def dispOf (rm : Bool) (base n T : Nat) : Nat :=
  if rm then fullSize rm base n / T else 0

/-- The size InitBudget gives thread t's counting buffer. -/
def slotSize (rm : Bool) (base n T t : Nat) : Nat :=
  if rm then
    (if t + 1 = T then fullSize rm base n - (T - 1) * dispOf rm base n T
     else dispOf rm base n T)
  else fullSize rm base n

/-- Number of records in rs whose key is k. -/
def cntKey {α : Type} (rs : List (Nat × α)) (k : Nat) : Nat :=
  (rs.filter (fun p => p.1 = k)).length

/-- The values of the records in rs whose key is k, in list order. -/
def valsKey {α : Type} (rs : List (Nat × α)) (k : Nat) : List α :=
  (rs.filter (fun p => p.1 = k)).map Prod.snd

/-- Total budget the (key, nelem) list bs assigns to key k. -/
def budSum (bs : List (Nat × Nat)) (k : Nat) : Nat :=
  ((bs.filter (fun p => p.1 = k)).map Prod.snd).sum

/-- Shared-mode merge: total contribution of all buffers to key i (a
buffer is skipped when the key row is not assigned to it). -/
def rowContrib (ts : List (List Nat)) (b i : Nat) : Nat :=
  (ts.map (fun tr => if i < tr.length + b then tr.getD (i - b) 0 else 0)).sum

/-- Shared-mode merge: contribution of the threads before t to key i. -/
def takeContrib (ts : List (List Nat)) (b i t : Nat) : Nat :=
  rowContrib (ts.take t) b i

/-- Shared-mode merge: sum of rowContrib over the m keys b+d, ...,
b+d+m-1. -/
def cumFrom (ts : List (List Nat)) (b : Nat) : Nat → Nat → Nat
  | _, 0 => 0
  | d, m + 1 => rowContrib ts b (b + d) + cumFrom ts b (d + 1) m

/-- Length the shared-mode sizing loop leaves the offset array at. -/
def sharedR (len0 b : Nat) (ts : List (List Nat)) : Nat :=
  ts.foldl (fun a tr => max a (tr.length + b + 1)) len0

/-- Longest buffer length among the thread buffers. -/
def maxLen (ts : List (List Nat)) : Nat :=
  ts.foldl (fun a tr => max a tr.length) 0

/-- Zero-pad every thread buffer to the longest buffer length. -/
def padTo (ts : List (List Nat)) : List (List Nat) :=
  ts.map (fun tr => tr ++ List.replicate (maxLen ts - tr.length) 0)

/-- Row-major merge: sum of the first p cells in thread-major cell
order. -/
def flatCum (ts : List (List Nat)) (p : Nat) : Nat :=
  ((ts.flatten.take p)).sum

/-- Row-major merge: start of thread t's cell block in cell order. -/
def threadStart (ts : List (List Nat)) (t : Nat) : Nat :=
  ((ts.take t).map List.sum).sum

/-- Row-major merge: sum of the cells before cell (t, j) in thread-major
cell order. -/
def cellPre (ts : List (List Nat)) (t j : Nat) : Nat :=
  threadStart ts t + ((ts.getD t []).take j).sum

/-- Join of a mapped family of lists. -/
def catMap {β γ : Type} (l : List β) (f : β → List γ) : List γ :=
  (l.map f).flatten

/-- Replay of one thread's push phase on its own cursor buffer and the
data array, with the record keys already translated to thread-local
indices.  Also returns the list of data positions written, in call
order. -/
def pushLocRun {α : Type} : List α → List Nat → List (Nat × α) →
    List α × List Nat × List Nat
  | d, tr, [] => (d, tr, [])
  | d, tr, (j, v) :: rest =>
      let rp := tr.getD j 0
      let out := pushLocRun (d.set rp v) (tr.set j (rp + 1)) rest
      (out.1, out.2.1, rp :: out.2.2)

/-- One AddBudget update on a single buffer: grow on demand, then add
nelem to cell j. -/
def bump (tr : List Nat) (j ne : Nat) : List Nat :=
  let tr2 := if tr.length < j + 1 then resizeFill tr (j + 1) 0 else tr
  tr2.set j (tr2.getD j 0 + ne)

/-- A thread's whole budget phase replayed on its own buffer. -/
def budFold (rm : Bool) (base disp t : Nat) :
    List Nat → List (Nat × Nat) → List Nat
  | tr, [] => tr
  | tr, (k, ne) :: rest =>
      budFold rm base disp t (bump tr (offsetKey rm base disp k t) ne) rest

/-- A thread's records with keys translated to its thread-local
indices. -/
def recsLoc {α : Type} (rm : Bool) (base disp t : Nat)
    (rs : List (Nat × α)) : List (Nat × α) :=
  rs.map (fun p => (offsetKey rm base disp p.1 t, p.2))

/-- Data positions written by the whole push phase, threads in order,
each thread's pushes in call order, starting from builder state bld. -/
def pushTrace {α : Type} (rm : Bool) (bld : Builder α)
    (recs : List (List (Nat × α))) : List Nat :=
  catMap (List.range recs.length) (fun t =>
    (pushLocRun ([] : List α) (bld.thread_rptr.getD t [])
      (recsLoc rm bld.base_row_offset bld.thread_displacement t
        (recs.getD t []))).2.2)

/-- The contiguous slice of l of length m starting at position a. -/
def extract {α : Type} (l : List α) (a m : Nat) : List α :=
  (l.drop a).take m

/-- The multiset of the n consecutive naturals starting at a. -/
def intervalM (a n : Nat) : Multiset Nat :=
  (List.range' a n : List Nat)

/-- The cursor (after InitStorage) or budget count (before InitStorage)
stored in thread t's cell j. -/
def cellVal {α : Type} (bld : Builder α) (t j : Nat) : Nat :=
  (bld.thread_rptr.getD t []).getD j 0

/-- Number of values the first t threads push for key k. -/
def sumCnt {α : Type} (recs : List (List (Nat × α))) (t k : Nat) : Nat :=
  ((List.range t).map (fun u => cntKey (recs.getD u []) k)).sum

/-- Number of values all T threads push for the m keys b, ..., b+m-1. -/
def cumCnt {α : Type} (recs : List (List (Nat × α))) (T b m : Nat) : Nat :=
  ((List.range m).map (fun j => sumCnt recs T (b + j))).sum

/-- Thread t's push records with keys translated to its thread-local
indices, taken from the builder's own base offset and displacement. -/
def locRecs {α : Type} (rm : Bool) (bld : Builder α)
    (recs : List (List (Nat × α))) (t : Nat) : List (Nat × α) :=
  recsLoc rm bld.base_row_offset bld.thread_displacement t (recs.getD t [])

/-- A list of naturals is non-decreasing at every adjacent pair. -/
def NonDecr (l : List Nat) : Prop :=
  ∀ i, i + 1 < l.length → l.getD i 0 ≤ l.getD (i + 1) 0

/-! Basic list lemmas used throughout.  We work with List.getD for element
access (modelling C++ operator[] under in-range hypotheses) and prove the
small facts we need by hand. -/

theorem gd_nil {α : Type} (i : Nat) (d : α) : ([] : List α).getD i d = d := by
  cases i <;> rfl

theorem gd_cons_zero {α : Type} (x : α) (l : List α) (d : α) :
    (x :: l).getD 0 d = x := rfl

theorem gd_cons_succ {α : Type} (x : α) (l : List α) (i : Nat) (d : α) :
    (x :: l).getD (i + 1) d = l.getD i d := rfl

theorem gd_oob {α : Type} {l : List α} {i : Nat} (h : l.length ≤ i) (d : α) :
    l.getD i d = d := by
  induction l generalizing i with
  | nil => exact gd_nil i d
  | cons x xs ih =>
      cases i with
      | zero => simp at h
      | succ n =>
          rw [gd_cons_succ]
          exact ih (Nat.le_of_succ_le_succ h)

theorem gd_append_left {α : Type} {l l2 : List α} {i : Nat}
    (h : i < l.length) (d : α) : (l ++ l2).getD i d = l.getD i d := by
  induction l generalizing i with
  | nil => simp at h
  | cons x xs ih =>
      cases i with
      | zero => rfl
      | succ n =>
          rw [List.cons_append, gd_cons_succ, gd_cons_succ]
          exact ih (Nat.lt_of_succ_lt_succ h)

theorem gd_append_right {α : Type} {l l2 : List α} {i : Nat}
    (h : l.length ≤ i) (d : α) :
    (l ++ l2).getD i d = l2.getD (i - l.length) d := by
  induction l generalizing i with
  | nil => simp
  | cons x xs ih =>
      cases i with
      | zero => simp at h
      | succ n =>
          rw [List.cons_append, gd_cons_succ, ih (Nat.le_of_succ_le_succ h)]
          simp [Nat.succ_sub_succ]

theorem gd_replicate {α : Type} {n i : Nat} {x : α} (h : i < n) (d : α) :
    (List.replicate n x).getD i d = x := by
  induction n generalizing i with
  | zero => omega
  | succ m ih =>
      cases i with
      | zero => rfl
      | succ j =>
          rw [List.replicate_succ, gd_cons_succ]
          exact ih (Nat.lt_of_succ_lt_succ h)

theorem gd_take {α : Type} {l : List α} {n i : Nat} (h : i < n) (d : α) :
    (l.take n).getD i d = l.getD i d := by
  induction l generalizing n i with
  | nil => simp
  | cons x xs ih =>
      cases n with
      | zero => omega
      | succ m =>
          cases i with
          | zero => rfl
          | succ j =>
              rw [List.take_succ_cons, gd_cons_succ, gd_cons_succ]
              exact ih (Nat.lt_of_succ_lt_succ h)

theorem set_oob {α : Type} {l : List α} {i : Nat} (h : l.length ≤ i) (a : α) :
    l.set i a = l := by
  induction l generalizing i with
  | nil => rfl
  | cons x xs ih =>
      cases i with
      | zero => simp at h
      | succ n => simp [List.set, ih (Nat.le_of_succ_le_succ h)]

theorem gd_set_eq {α : Type} {l : List α} {i : Nat} (h : i < l.length)
    (a : α) (d : α) : (l.set i a).getD i d = a := by
  induction l generalizing i with
  | nil => simp at h
  | cons x xs ih =>
      cases i with
      | zero => rfl
      | succ n =>
          simp only [List.set, gd_cons_succ]
          exact ih (Nat.lt_of_succ_lt_succ h)

theorem gd_set_ne {α : Type} {l : List α} {i j : Nat} (h : i ≠ j)
    (a : α) (d : α) : (l.set i a).getD j d = l.getD j d := by
  induction l generalizing i j with
  | nil => rfl
  | cons x xs ih =>
      cases i with
      | zero =>
          cases j with
          | zero => omega
          | succ m => rfl
      | succ n =>
          cases j with
          | zero => rfl
          | succ m =>
              simp only [List.set, gd_cons_succ]
              exact ih (by omega)

theorem gd_irrel {α : Type} {l : List α} {i : Nat} (h : i < l.length)
    (d d2 : α) : l.getD i d = l.getD i d2 := by
  induction l generalizing i with
  | nil => simp at h
  | cons x xs ih =>
      cases i with
      | zero => rfl
      | succ n =>
          rw [gd_cons_succ, gd_cons_succ]
          exact ih (Nat.lt_of_succ_lt_succ h)

theorem getLastD_eq_gd {α : Type} (l : List α) (d : α) :
    l.getLastD d = l.getD (l.length - 1) d := by
  induction l generalizing d with
  | nil => rfl
  | cons x xs ih =>
      rw [List.getLastD_cons, ih]
      cases xs with
      | nil => rfl
      | cons y ys =>
          have hlt : (y :: ys).length - 1 < (y :: ys).length := by
            simp
          rw [gd_irrel hlt x d]
          have : (x :: y :: ys).length - 1 = ((y :: ys).length - 1) + 1 := by
            simp
          rw [this, gd_cons_succ]

theorem ext_gd {α : Type} (d : α) : ∀ (l1 l2 : List α),
    l1.length = l2.length → (∀ i, i < l1.length → l1.getD i d = l2.getD i d) →
    l1 = l2 := by
  intro l1
  induction l1 with
  | nil =>
      intro l2 hlen _
      cases l2 with
      | nil => rfl
      | cons y ys => simp at hlen
  | cons x xs ih =>
      intro l2 hlen hpt
      cases l2 with
      | nil => simp at hlen
      | cons y ys =>
          have h0 := hpt 0 (by simp)
          simp only [gd_cons_zero] at h0
          subst h0
          have : xs = ys := by
            apply ih ys (by simpa using hlen)
            intro i hi
            have := hpt (i + 1) (by simpa using Nat.succ_lt_succ hi)
            simpa [gd_cons_succ] using this
          rw [this]

theorem length_resizeFill {α : Type} (v : List α) (n : Nat) (x : α) :
    (resizeFill v n x).length = n := by
  unfold resizeFill
  by_cases h : n ≤ v.length
  · rw [if_pos h, List.length_take]
    omega
  · rw [if_neg h, List.length_append, List.length_replicate]
    omega

theorem resizeFill_eq_append {α : Type} {v : List α} {n : Nat} (x : α)
    (h : v.length ≤ n) :
    resizeFill v n x = v ++ List.replicate (n - v.length) x := by
  unfold resizeFill
  by_cases he : n ≤ v.length
  · have : n = v.length := Nat.le_antisymm he h
    subst this
    simp
  · rw [if_neg he]

theorem gd_resizeFill {α : Type} (v : List α) (n i : Nat) (x d : α) :
    (resizeFill v n x).getD i d =
      if i < n then (if i < v.length then v.getD i d else x) else d := by
  unfold resizeFill
  by_cases h : n ≤ v.length
  · rw [if_pos h]
    by_cases hi : i < n
    · rw [gd_take hi, if_pos hi, if_pos (Nat.lt_of_lt_of_le hi h)]
    · rw [if_neg hi, gd_oob (by rw [List.length_take]; omega)]
  · push_neg at h
    rw [if_neg (by omega)]
    by_cases hi : i < v.length
    · rw [gd_append_left hi, if_pos hi, if_pos (by omega)]
    · push_neg at hi
      rw [gd_append_right hi]
      by_cases hn : i < n
      · rw [if_pos hn, if_neg (by omega), gd_replicate (by omega)]
      · rw [if_neg hn,
          gd_oob (by rw [List.length_replicate]; omega)]

/-! Characterization of InitBudget. -/

theorem resizeEach_length (nthread ts ls : Nat) :
    ∀ (i : Nat) (l : List (List Nat)),
      (resizeEach nthread ts ls i l).length = l.length := by
  intro i l
  induction l generalizing i with
  | nil => rfl
  | cons v rest ih => simp [resizeEach, ih]

theorem resizeEach_gd (nthread ts ls : Nat) :
    ∀ (i t : Nat) (l : List (List Nat)), t < l.length →
      (resizeEach nthread ts ls i l).getD t [] =
        (if i + t + 1 = nthread then resizeFill (l.getD t []) ls 0
         else resizeFill (l.getD t []) ts 0) := by
  intro i t l
  induction l generalizing i t with
  | nil => intro h; simp at h
  | cons v rest ih =>
      intro ht
      cases t with
      | zero => simp [resizeEach]
      | succ m =>
          have := ih (i + 1) m (by simpa using Nat.lt_of_succ_lt_succ ht)
          simp only [resizeEach, gd_cons_succ]
          rw [this]
          have harith : i + 1 + m + 1 = i + (m + 1) + 1 := by omega
          rw [harith]

theorem InitBudget_scalars {α : Type} (rm : Bool) (bld : Builder α)
    (n T : Nat) :
    (InitBudget rm bld n T).rptr = bld.rptr ∧
    (InitBudget rm bld n T).data = bld.data ∧
    (InitBudget rm bld n T).base_row_offset = bld.base_row_offset ∧
    (InitBudget rm bld n T).thread_displacement =
      dispOf rm bld.base_row_offset n T := by
  cases rm <;> exact ⟨rfl, rfl, rfl, rfl⟩

theorem InitBudget_buffers {α : Type} (rm : Bool) (bld : Builder α)
    (n T : Nat) (h : bld.thread_rptr = []) :
    (InitBudget rm bld n T).thread_rptr.length = T ∧
    ∀ t, t < T → (InitBudget rm bld n T).thread_rptr.getD t [] =
      List.replicate (slotSize rm bld.base_row_offset n T t) 0 := by
  unfold InitBudget
  simp only [h]
  have htr0 : resizeFill ([] : List (List Nat)) T [] = List.replicate T [] := by
    rw [resizeFill_eq_append _ (by simp)]
    simp
  rw [htr0]
  constructor
  · rw [resizeEach_length, List.length_replicate]
  · intro t ht
    rw [resizeEach_gd _ _ _ 0 t _ (by simpa using ht)]
    have hrep : (List.replicate T ([] : List Nat)).getD t [] = [] := by
      rw [gd_replicate (by simpa using ht)]
    rw [hrep]
    have hfill : ∀ m : Nat, resizeFill ([] : List Nat) m 0 = List.replicate m 0 := by
      intro m
      rw [resizeFill_eq_append _ (by simp)]
      simp
    rw [hfill, hfill]
    cases rm with
    | false =>
        by_cases he : 0 + t + 1 = T
        · rw [if_pos he]
          simp [slotSize, fullSize]
        · rw [if_neg he]
          simp [slotSize, fullSize]
    | true =>
        by_cases he : t + 1 = T
        · rw [if_pos (by omega)]
          simp [slotSize, fullSize, dispOf, he]
        · rw [if_neg (by omega)]
          simp [slotSize, fullSize, dispOf, he]

/-- Claim C9: in shared mode, for thread_count >= 1 and base_offset >=
max_key, InitBudget allocates one counting buffer per thread and each
buffer is empty: the key-range size max_key - min(base_offset, max_key)
clamps to 0 instead of underflowing. -/
theorem C9_shared_clamped_empty {α : Type} (rptr0 : List Nat)
    (data0 : List α) (base n T t : Nat) (hT : 1 ≤ T) (hbn : n ≤ base)
    (ht : t < T) :
    (InitBudget false (mkBuilder rptr0 data0 base) n T).thread_rptr.length = T ∧
    (InitBudget false (mkBuilder rptr0 data0 base) n T).thread_rptr.getD t [] = [] := by
  have h := InitBudget_buffers false (mkBuilder rptr0 data0 base) n T rfl
  refine ⟨h.1, ?_⟩
  rw [h.2 t ht]
  have : slotSize false (mkBuilder rptr0 data0 base).base_row_offset n T t = 0 := by
    unfold slotSize fullSize mkBuilder
    simp only [Bool.false_eq_true, if_false]
    omega
  rw [this]
  rfl

/-- Witness for C9 at base = 3, max_key = 2, two threads. -/
theorem C9_witness :
    1 ≤ 2 ∧ 2 ≤ 3 ∧ 0 < 2 ∧
    ((InitBudget false (mkBuilder [] ([] : List Nat) 3) 2 2).thread_rptr.length = 2 ∧
     (InitBudget false (mkBuilder [] ([] : List Nat) 3) 2 2).thread_rptr.getD 0 [] = []) :=
  ⟨by decide, by decide, by decide,
    C9_shared_clamped_empty [] ([] : List Nat) 3 2 2 0 (by decide) (by decide)
      (by decide)⟩

/-- Claim C7: in the concrete two-thread partitioned run with base 0 and
max_key 4 where thread 0 budgets and pushes two values to key 0 and
thread 1 budgets and pushes one value to key 3, thread 0's buffer covers
keys 0 and 1 (displacement 2, buffer length 2) and thread 1's buffer
covers keys 2 and 3, and the final offset array is [0, 2, 2, 2, 3]. -/
theorem C7_concrete_partitioned_run :
    (InitBudget true (mkBuilder [] ([] : List Nat) 0) 4 2).thread_displacement = 2 ∧
    (InitBudget true (mkBuilder [] ([] : List Nat) 0) 4 2).thread_rptr = [[0, 0], [0, 0]] ∧
    (runProtocol true 0 [] ([] : List Nat) 4 2 [[(0, 2)], [(3, 1)]]
      [[(0, 10), (0, 11)], [(3, 12)]]).rptr = [0, 2, 2, 2, 3] := by
  refine ⟨rfl, rfl, ?_⟩
  decide

/-- Counterexample to claim C6: with base_offset = 2, max_key = 4 and two
threads, partitioned InitBudget sets the displacement to 4 / 2 = 2,
not (4 - 2) / 2 = 1 as the claim states. -/
theorem C6_counterexample :
    (InitBudget true (mkBuilder [] ([] : List Nat) 2) 4 2).thread_displacement = 2 ∧
    (4 - 2) / 2 = 1 ∧ (2 : Nat) ≠ 1 := by
  refine ⟨rfl, by decide, by decide⟩

/-- Claim C6 as amended: partitioned InitBudget sets the displacement to
max_key / thread_count (base_offset is not subtracted), pre-sizes each of
the first thread_count - 1 buffers to exactly that displacement and the
last buffer to max_key - (thread_count - 1) * displacement, all
zero-initialized, so the slices together cover exactly max_key keys. -/
theorem C6_amended_partitioned_sizes {α : Type} (rptr0 : List Nat)
    (data0 : List α) (base n T : Nat) (hT : 1 ≤ T) :
    (InitBudget true (mkBuilder rptr0 data0 base) n T).thread_displacement = n / T ∧
    (InitBudget true (mkBuilder rptr0 data0 base) n T).thread_rptr.length = T ∧
    (∀ t, t < T → (InitBudget true (mkBuilder rptr0 data0 base) n T).thread_rptr.getD t [] =
      List.replicate (if t + 1 = T then n - (T - 1) * (n / T) else n / T) 0) ∧
    (T - 1) * (n / T) + (n - (T - 1) * (n / T)) = n := by
  have hs := InitBudget_scalars true (mkBuilder rptr0 data0 base) n T
  have hb := InitBudget_buffers true (mkBuilder rptr0 data0 base) n T rfl
  refine ⟨?_, hb.1, ?_, ?_⟩
  · rw [hs.2.2.2]
    rfl
  · intro t ht
    rw [hb.2 t ht]
    unfold slotSize dispOf fullSize
    simp only [if_true]
  · have h1 : n / T * T ≤ n := Nat.div_mul_le_self n T
    have h2 : (T - 1) * (n / T) ≤ n := by
      calc (T - 1) * (n / T) ≤ T * (n / T) :=
            Nat.mul_le_mul_right _ (Nat.sub_le T 1)
        _ = n / T * T := Nat.mul_comm T (n / T)
        _ ≤ n := h1
    omega

/-- Witness for C6 as amended, at base = 2, max_key = 5, two threads. -/
theorem C6_amended_witness :
    1 ≤ 2 ∧
    ((InitBudget true (mkBuilder [] ([] : List Nat) 2) 5 2).thread_displacement = 5 / 2 ∧
     (InitBudget true (mkBuilder [] ([] : List Nat) 2) 5 2).thread_rptr.length = 2 ∧
     (∀ t, t < 2 → (InitBudget true (mkBuilder [] ([] : List Nat) 2) 5 2).thread_rptr.getD t [] =
       List.replicate (if t + 1 = 2 then 5 - (2 - 1) * (5 / 2) else 5 / 2) 0) ∧
     (2 - 1) * (5 / 2) + (5 - (2 - 1) * (5 / 2)) = 5) :=
  ⟨by decide, C6_amended_partitioned_sizes [] ([] : List Nat) 2 5 2 (by decide)⟩

/-- Counterexample to claim C5: a partitioned build with base_offset = 1
and max_key = 2 (one thread, no budget calls) leaves the offset array at
length 4 = max_key + base_offset + 1, not max_key + 1 = 3. -/
theorem C5_counterexample :
    (runProtocol true 1 [0, 0] ([] : List Nat) 2 1 [[]] []).rptr.length = 4 ∧
    (4 : Nat) ≠ 2 + 1 := by
  refine ⟨rfl, by decide⟩

/-- Counterexample to claim C2: partitioned mode, keys 0 and 1 split at
m = 1, one thread.  The one-shot build produces offset array [0, 1, 2]
while the two-call incremental build produces [0, 1, 2, 2]. -/
theorem C2_counterexample :
    (runProtocol true 0 [] ([] : List Nat) 2 1 [[(0, 1), (1, 1)]]
      [[(0, 10), (1, 20)]]).rptr = [0, 1, 2] ∧
    (runProtocol true 1
      (runProtocol true 0 [] ([] : List Nat) 1 1 [[(0, 1)]] [[(0, 10)]]).rptr
      (runProtocol true 0 [] ([] : List Nat) 1 1 [[(0, 1)]] [[(0, 10)]]).data
      2 1 [[(1, 1)]] [[(1, 20)]]).rptr = [0, 1, 2, 2] ∧
    ([0, 1, 2] : List Nat) ≠ [0, 1, 2, 2] := by
  refine ⟨by decide, by decide, by decide⟩

/-! Characterization of the budget phase. -/

theorem bump_gd (tr : List Nat) (j ne j' : Nat) :
    (bump tr j ne).getD j' 0 =
      tr.getD j' 0 + (if j' = j then ne else 0) := by
  unfold bump
  by_cases hg : tr.length < j + 1
  · rw [if_pos hg]
    by_cases he : j' = j
    · subst he
      rw [gd_set_eq (by rw [length_resizeFill]; omega), if_pos rfl,
        gd_resizeFill]
      have hoob : tr.getD j' 0 = 0 := gd_oob (by omega) 0
      rw [hoob, if_pos (by omega), if_neg (by omega)]
    · rw [gd_set_ne (fun h => he h.symm), if_neg he, gd_resizeFill]
      by_cases hj : j' < tr.length
      · rw [if_pos (by omega), if_pos hj]
        omega
      · push_neg at hj
        rw [gd_oob hj 0]
        by_cases hj2 : j' < j + 1
        · rw [if_pos hj2, if_neg (by omega)]
        · rw [if_neg hj2]
  · rw [if_neg hg]
    push_neg at hg
    by_cases he : j' = j
    · subst he
      rw [gd_set_eq (by omega), if_pos rfl]
    · rw [gd_set_ne (fun h => he h.symm), if_neg he]
      omega

theorem bump_length (tr : List Nat) (j ne : Nat) :
    (bump tr j ne).length = max tr.length (j + 1) := by
  unfold bump
  by_cases hg : tr.length < j + 1
  · rw [if_pos hg, List.length_set, length_resizeFill]
    omega
  · rw [if_neg hg, List.length_set]
    omega

theorem budFold_gd (rm : Bool) (base disp t : Nat) :
    ∀ (bs : List (Nat × Nat)) (tr : List Nat) (j' : Nat),
      (budFold rm base disp t tr bs).getD j' 0 =
        tr.getD j' 0 + budSum (recsLoc rm base disp t bs) j' := by
  intro bs
  induction bs with
  | nil =>
      intro tr j'
      simp [budFold, budSum, recsLoc]
  | cons p rest ih =>
      intro tr j'
      obtain ⟨k, ne⟩ := p
      show (budFold rm base disp t (bump tr (offsetKey rm base disp k t) ne) rest).getD j' 0 = _
      rw [ih, bump_gd]
      have : budSum (recsLoc rm base disp t ((k, ne) :: rest)) j' =
          (if j' = offsetKey rm base disp k t then ne else 0) +
            budSum (recsLoc rm base disp t rest) j' := by
        unfold budSum recsLoc
        by_cases he : offsetKey rm base disp k t = j'
        · rw [List.map_cons, List.filter_cons_of_pos (by simpa using he),
            if_pos he.symm]
          simp
        · rw [List.map_cons,
            List.filter_cons_of_neg (by simpa using he),
            if_neg (fun h => he h.symm)]
          simp
      rw [this]
      omega

theorem budFold_length (rm : Bool) (base disp t : Nat) :
    ∀ (bs : List (Nat × Nat)) (tr : List Nat),
      (∀ p ∈ bs, offsetKey rm base disp p.1 t < tr.length) →
      (budFold rm base disp t tr bs).length = tr.length := by
  intro bs
  induction bs with
  | nil => intro tr _; rfl
  | cons p rest ih =>
      intro tr hb
      obtain ⟨k, ne⟩ := p
      show (budFold rm base disp t (bump tr (offsetKey rm base disp k t) ne) rest).length = _
      have hk : offsetKey rm base disp k t < tr.length := hb (k, ne) (by simp)
      have hlen : (bump tr (offsetKey rm base disp k t) ne).length = tr.length := by
        rw [bump_length]
        omega
      rw [ih _ (by intro q hq; rw [hlen]; exact hb q (by simp [hq]))]
      exact hlen

theorem AddBudget_eq {α : Type} (rm : Bool) (bld : Builder α)
    (k t ne : Nat) :
    AddBudget rm bld k t ne = { bld with
      thread_rptr := bld.thread_rptr.set t
        (bump (bld.thread_rptr.getD t [])
          (offsetKey rm bld.base_row_offset bld.thread_displacement k t) ne) } :=
  rfl

theorem set_getD_self {α : Type} (l : List α) (t : Nat) (d : α)
    (h : t < l.length) : l.set t (l.getD t d) = l := by
  apply ext_gd d
  · rw [List.length_set]
  · intro i hi
    by_cases he : t = i
    · subst he
      rw [gd_set_eq (by simpa [List.length_set] using hi)]
    · rw [gd_set_ne he]

theorem applyBudgetList_eq {α : Type} (rm : Bool) (t : Nat) :
    ∀ (bs : List (Nat × Nat)) (bld : Builder α),
      applyBudgetList rm t bld bs = { bld with
        thread_rptr := bld.thread_rptr.set t
          (budFold rm bld.base_row_offset bld.thread_displacement t
            (bld.thread_rptr.getD t []) bs) } := by
  intro bs
  induction bs with
  | nil =>
      intro bld
      have hbf : budFold rm bld.base_row_offset bld.thread_displacement t
          (bld.thread_rptr.getD t []) [] = bld.thread_rptr.getD t [] := rfl
      show bld = _
      rw [hbf]
      by_cases ht : t < bld.thread_rptr.length
      · rw [set_getD_self _ _ _ ht]
      · rw [set_oob (by omega)]
  | cons p rest ih =>
      intro bld
      obtain ⟨k, ne⟩ := p
      have hstep : applyBudgetList rm t bld ((k, ne) :: rest) =
          applyBudgetList rm t (AddBudget rm bld k t ne) rest := rfl
      rw [hstep, ih, AddBudget_eq]
      congr 1
      by_cases ht : t < bld.thread_rptr.length
      · rw [gd_set_eq (by simpa using ht), List.set_set]
        rfl
      · have hset : ∀ v : List Nat, bld.thread_rptr.set t v = bld.thread_rptr :=
          fun v => set_oob (by omega) v
        simp only [hset]


theorem applyBudgets_aux {α : Type} (rm : Bool)
    (buds : List (List (Nat × Nat))) :
    ∀ (idxs : List Nat) (bld : Builder α), idxs.Nodup →
      (∀ j ∈ idxs, j < bld.thread_rptr.length) →
      (idxs.foldl (fun acc t => applyBudgetList rm t acc (buds.getD t [])) bld).rptr = bld.rptr ∧
      (idxs.foldl (fun acc t => applyBudgetList rm t acc (buds.getD t [])) bld).data = bld.data ∧
      (idxs.foldl (fun acc t => applyBudgetList rm t acc (buds.getD t [])) bld).base_row_offset = bld.base_row_offset ∧
      (idxs.foldl (fun acc t => applyBudgetList rm t acc (buds.getD t [])) bld).thread_displacement = bld.thread_displacement ∧
      (idxs.foldl (fun acc t => applyBudgetList rm t acc (buds.getD t [])) bld).thread_rptr.length = bld.thread_rptr.length ∧
      ∀ t, (idxs.foldl (fun acc t => applyBudgetList rm t acc (buds.getD t [])) bld).thread_rptr.getD t [] =
        (if t ∈ idxs then
          budFold rm bld.base_row_offset bld.thread_displacement t
            (bld.thread_rptr.getD t []) (buds.getD t [])
         else bld.thread_rptr.getD t []) := by
  intro idxs
  induction idxs with
  | nil =>
      intro bld _ _
      refine ⟨rfl, rfl, rfl, rfl, rfl, ?_⟩
      intro t
      simp
  | cons i rest ih =>
      intro bld hnd hrange
      have hndr : rest.Nodup := (List.nodup_cons.mp hnd).2
      have hni : i ∉ rest := (List.nodup_cons.mp hnd).1
      have hilt : i < bld.thread_rptr.length := hrange i (by simp)
      have hstep := applyBudgetList_eq rm i (buds.getD i []) bld
      set bld1 := applyBudgetList rm i bld (buds.getD i []) with hbld1
      have hfold : (i :: rest).foldl (fun acc t => applyBudgetList rm t acc (buds.getD t [])) bld =
          rest.foldl (fun acc t => applyBudgetList rm t acc (buds.getD t [])) bld1 := rfl
      have hb1r : bld1.rptr = bld.rptr := by rw [hstep]
      have hb1d : bld1.data = bld.data := by rw [hstep]
      have hb1b : bld1.base_row_offset = bld.base_row_offset := by rw [hstep]
      have hb1t : bld1.thread_displacement = bld.thread_displacement := by rw [hstep]
      have hb1len : bld1.thread_rptr.length = bld.thread_rptr.length := by
        rw [hstep]
        exact List.length_set _ _ _
      have h1 := ih bld1 hndr (by
        intro j hj
        rw [hb1len]
        exact hrange j (by simp [hj]))
      rw [hfold]
      refine ⟨by rw [h1.1, hb1r], by rw [h1.2.1, hb1d], by rw [h1.2.2.1, hb1b],
        by rw [h1.2.2.2.1, hb1t], by rw [h1.2.2.2.2.1, hb1len], ?_⟩
      intro t
      rw [h1.2.2.2.2.2 t, hb1b, hb1t]
      by_cases htr : t ∈ rest
      · rw [if_pos htr, if_pos (by simp [htr])]
        have hne : t ≠ i := fun h => hni (h ▸ htr)
        have : bld1.thread_rptr.getD t [] = bld.thread_rptr.getD t [] := by
          rw [hstep]
          exact gd_set_ne (fun h => hne h.symm) _ _
        rw [this]
      · rw [if_neg htr]
        by_cases hti : t = i
        · subst hti
          rw [if_pos (by simp), hstep]
          exact gd_set_eq (by simpa using hilt) _ _
        · rw [if_neg (by simp [hti, htr]), hstep]
          exact gd_set_ne (fun h => hti h.symm) _ _

/-! Characterization of shared-mode InitStorage. -/

theorem sharedR_cons (len0 b : Nat) (tr : List Nat) (rest : List (List Nat)) :
    sharedR len0 b (tr :: rest) = sharedR (max len0 (tr.length + b + 1)) b rest :=
  rfl

theorem sharedR_ge_init (b : Nat) :
    ∀ (ts : List (List Nat)) (a : Nat), a ≤ sharedR a b ts := by
  intro ts
  induction ts with
  | nil => intro a; exact Nat.le_refl a
  | cons tr rest ih =>
      intro a
      rw [sharedR_cons]
      exact Nat.le_trans (Nat.le_max_left _ _) (ih _)

theorem sharedR_ge_mem (b : Nat) :
    ∀ (ts : List (List Nat)) (a t : Nat), t < ts.length →
      (ts.getD t []).length + b + 1 ≤ sharedR a b ts := by
  intro ts
  induction ts with
  | nil => intro a t h; simp at h
  | cons tr rest ih =>
      intro a t ht
      rw [sharedR_cons]
      cases t with
      | zero =>
          exact Nat.le_trans (Nat.le_max_right _ _) (sharedR_ge_init b rest _)
      | succ t' =>
          exact ih _ t' (by simpa using Nat.lt_of_succ_lt_succ ht)

theorem sharedResizeLoop_eq (fillv b : Nat) :
    ∀ (ts : List (List Nat)) (r : List Nat),
      sharedResizeLoop fillv b r ts =
        r ++ List.replicate (sharedR r.length b ts - r.length) fillv := by
  intro ts
  induction ts with
  | nil =>
      intro r
      show r = _
      simp [sharedR]
  | cons tr rest ih =>
      intro r
      show sharedResizeLoop fillv b
        (if r.length ≤ tr.length + b then resizeFill r (tr.length + b + 1) fillv else r) rest = _
      rw [sharedR_cons]
      by_cases hc : r.length ≤ tr.length + b
      · rw [if_pos hc, ih, resizeFill_eq_append _ (by omega)]
        have hlen : (r ++ List.replicate (tr.length + b + 1 - r.length) fillv).length =
            tr.length + b + 1 := by
          rw [List.length_append, List.length_replicate]
          omega
        rw [hlen, List.append_assoc, ← List.replicate_add]
        have hmax : max r.length (tr.length + b + 1) = tr.length + b + 1 := by omega
        rw [hmax]
        have hge : tr.length + b + 1 ≤ sharedR (tr.length + b + 1) b rest :=
          sharedR_ge_init b rest _
        congr 2
        omega
      · rw [if_neg hc, ih]
        have hmax : max r.length (tr.length + b + 1) = r.length := by omega
        rw [hmax]

theorem rowContrib_cons (tr : List Nat) (rest : List (List Nat)) (b i : Nat) :
    rowContrib (tr :: rest) b i =
      (if i < tr.length + b then tr.getD (i - b) 0 else 0) + rowContrib rest b i := by
  unfold rowContrib
  rw [List.map_cons, List.sum_cons]

theorem takeContrib_zero (ts : List (List Nat)) (b i : Nat) :
    takeContrib ts b i 0 = 0 := by
  unfold takeContrib rowContrib
  simp

theorem takeContrib_cons_succ (tr : List Nat) (rest : List (List Nat))
    (b i t : Nat) :
    takeContrib (tr :: rest) b i (t + 1) =
      (if i < tr.length + b then tr.getD (i - b) 0 else 0) +
        takeContrib rest b i t := by
  unfold takeContrib
  rw [List.take_succ_cons, rowContrib_cons]

theorem sharedThreadFold_cons_pos (r : List Nat) (b i : Nat) (tr : List Nat)
    (rest : List (List Nat)) (count : Nat) (hg : i < tr.length + b) :
    sharedThreadFold r b i (tr :: rest) count =
      (tr.set (i - b) (count + r.getLastD 0) ::
        (sharedThreadFold r b i rest (count + tr.getD (i - b) 0)).1,
       (sharedThreadFold r b i rest (count + tr.getD (i - b) 0)).2) := by
  conv_lhs => rw [sharedThreadFold]
  rw [if_pos hg]

theorem sharedThreadFold_cons_neg (r : List Nat) (b i : Nat) (tr : List Nat)
    (rest : List (List Nat)) (count : Nat) (hg : ¬ i < tr.length + b) :
    sharedThreadFold r b i (tr :: rest) count =
      (tr :: (sharedThreadFold r b i rest count).1,
       (sharedThreadFold r b i rest count).2) := by
  conv_lhs => rw [sharedThreadFold]
  rw [if_neg hg]

theorem sharedThreadFold_spec (r : List Nat) (b i : Nat) (hbi : b ≤ i) :
    ∀ (ts : List (List Nat)) (count : Nat),
      (sharedThreadFold r b i ts count).2 = count + rowContrib ts b i ∧
      (sharedThreadFold r b i ts count).1.length = ts.length ∧
      (∀ t, ((sharedThreadFold r b i ts count).1.getD t []).length =
        (ts.getD t []).length) ∧
      (∀ t j, ((sharedThreadFold r b i ts count).1.getD t []).getD j 0 =
        if j = i - b ∧ i < (ts.getD t []).length + b ∧ t < ts.length then
          count + takeContrib ts b i t + r.getLastD 0
        else (ts.getD t []).getD j 0) := by
  intro ts
  induction ts with
  | nil =>
      intro count
      refine ⟨by simp [sharedThreadFold, rowContrib], rfl, fun t => rfl, ?_⟩
      intro t j
      rw [if_neg (by simp)]
      rfl
  | cons tr rest ih =>
      intro count
      by_cases hg : i < tr.length + b
      · have hstep := sharedThreadFold_cons_pos r b i tr rest count hg
        have h1 := ih (count + tr.getD (i - b) 0)
        rw [hstep]
        refine ⟨?_, ?_, ?_, ?_⟩
        · show (sharedThreadFold r b i rest (count + tr.getD (i - b) 0)).2 = _
          rw [h1.1, rowContrib_cons, if_pos hg]
          omega
        · rw [List.length_cons, List.length_cons, h1.2.1]
        · intro t
          cases t with
          | zero =>
              show (tr.set (i - b) (count + r.getLastD 0)).length = tr.length
              exact List.length_set _ _ _
          | succ t' =>
              rw [gd_cons_succ, gd_cons_succ]
              exact h1.2.2.1 t'
        · intro t j
          cases t with
          | zero =>
              show (tr.set (i - b) (count + r.getLastD 0)).getD j 0 = _
              have hib : i - b < tr.length := by omega
              by_cases hj : j = i - b
              · subst hj
                rw [gd_set_eq hib,
                  if_pos ⟨rfl, by simpa using hg, by simp⟩,
                  takeContrib_zero]
                show count + r.getLastD 0 = count + 0 + r.getLastD 0
                omega
              · rw [gd_set_ne (fun h => hj h.symm),
                  if_neg (fun hc => hj hc.1)]
                rfl
          | succ t' =>
              rw [gd_cons_succ]
              rw [h1.2.2.2 t' j]
              by_cases hc : j = i - b ∧ i < (rest.getD t' []).length + b ∧
                  t' < rest.length
              · rw [if_pos hc,
                  if_pos ⟨hc.1, by simpa [gd_cons_succ] using hc.2.1,
                    by simpa using Nat.succ_lt_succ hc.2.2⟩,
                  takeContrib_cons_succ, if_pos hg]
                omega
              · rw [if_neg hc, if_neg (by
                  intro hc2
                  exact hc ⟨hc2.1, by simpa [gd_cons_succ] using hc2.2.1,
                    by simpa using Nat.lt_of_succ_lt_succ hc2.2.2⟩)]
                rfl
      · have hstep := sharedThreadFold_cons_neg r b i tr rest count hg
        have h1 := ih count
        rw [hstep]
        refine ⟨?_, ?_, ?_, ?_⟩
        · show (sharedThreadFold r b i rest count).2 = _
          rw [h1.1, rowContrib_cons, if_neg hg]
          omega
        · rw [List.length_cons, List.length_cons, h1.2.1]
        · intro t
          cases t with
          | zero => rfl
          | succ t' =>
              rw [gd_cons_succ, gd_cons_succ]
              exact h1.2.2.1 t'
        · intro t j
          cases t with
          | zero =>
              show tr.getD j 0 = _
              rw [if_neg (fun hc => hg hc.2.1)]
              rfl
          | succ t' =>
              rw [gd_cons_succ]
              rw [h1.2.2.2 t' j]
              by_cases hc : j = i - b ∧ i < (rest.getD t' []).length + b ∧
                  t' < rest.length
              · rw [if_pos hc,
                  if_pos ⟨hc.1, by simpa [gd_cons_succ] using hc.2.1,
                    by simpa using Nat.succ_lt_succ hc.2.2⟩,
                  takeContrib_cons_succ, if_neg hg]
                omega
              · rw [if_neg hc, if_neg (by
                  intro hc2
                  exact hc ⟨hc2.1, by simpa [gd_cons_succ] using hc2.2.1,
                    by simpa using Nat.lt_of_succ_lt_succ hc2.2.2⟩)]
                rfl

theorem cumFrom_zero (ts : List (List Nat)) (b d : Nat) :
    cumFrom ts b d 0 = 0 := rfl

theorem cumFrom_succ_front (ts : List (List Nat)) (b d m : Nat) :
    cumFrom ts b d (m + 1) =
      rowContrib ts b (b + d) + cumFrom ts b (d + 1) m := rfl

theorem cumFrom_succ_back (ts : List (List Nat)) (b : Nat) :
    ∀ (m d : Nat), cumFrom ts b d (m + 1) =
      cumFrom ts b d m + rowContrib ts b (b + d + m) := by
  intro m
  induction m with
  | zero =>
      intro d
      simp [cumFrom_succ_front, cumFrom_zero]
  | succ m' ih =>
      intro d
      rw [cumFrom_succ_front, ih (d + 1), cumFrom_succ_front]
      have : b + (d + 1) + m' = b + d + (m' + 1) := by omega
      rw [this]
      omega

theorem rowContrib_congr :
    ∀ (ts1 ts2 : List (List Nat)) (b i : Nat),
      ts1.length = ts2.length →
      (∀ t, t < ts1.length → (ts1.getD t []).length = (ts2.getD t []).length) →
      (∀ t, t < ts1.length →
        (ts1.getD t []).getD (i - b) 0 = (ts2.getD t []).getD (i - b) 0) →
      rowContrib ts1 b i = rowContrib ts2 b i := by
  intro ts1
  induction ts1 with
  | nil =>
      intro ts2 b i hlen _ _
      cases ts2 with
      | nil => rfl
      | cons u us => simp at hlen
  | cons tr rest ih =>
      intro ts2 b i hlen hl hc
      cases ts2 with
      | nil => simp at hlen
      | cons u us =>
          rw [rowContrib_cons, rowContrib_cons]
          have h0l : tr.length = u.length := hl 0 (by simp)
          have h0c : tr.getD (i - b) 0 = u.getD (i - b) 0 := hc 0 (by simp)
          rw [h0l, h0c,
            ih us b i (by simpa using hlen)
              (fun t ht => hl (t + 1) (by simpa using Nat.succ_lt_succ ht))
              (fun t ht => hc (t + 1) (by simpa using Nat.succ_lt_succ ht))]

theorem takeContrib_congr (ts1 ts2 : List (List Nat)) (b i t : Nat)
    (hlen : ts1.length = ts2.length)
    (hl : ∀ s, s < ts1.length → (ts1.getD s []).length = (ts2.getD s []).length)
    (hc : ∀ s, s < ts1.length →
      (ts1.getD s []).getD (i - b) 0 = (ts2.getD s []).getD (i - b) 0) :
    takeContrib ts1 b i t = takeContrib ts2 b i t := by
  unfold takeContrib
  apply rowContrib_congr
  · rw [List.length_take, List.length_take, hlen]
  · intro s hs
    rw [List.length_take] at hs
    have hs1 : s < t := lt_of_lt_of_le hs (Nat.min_le_left _ _)
    have hs2 : s < ts1.length := lt_of_lt_of_le hs (Nat.min_le_right _ _)
    rw [gd_take hs1, gd_take hs1]
    exact hl s hs2
  · intro s hs
    rw [List.length_take] at hs
    have hs1 : s < t := lt_of_lt_of_le hs (Nat.min_le_left _ _)
    have hs2 : s < ts1.length := lt_of_lt_of_le hs (Nat.min_le_right _ _)
    rw [gd_take hs1, gd_take hs1]
    exact hc s hs2

theorem cumFrom_congr (ts1 ts2 : List (List Nat)) (b : Nat) :
    ∀ (m d' : Nat),
      (∀ e, e < m → rowContrib ts1 b (b + d' + e) = rowContrib ts2 b (b + d' + e)) →
      cumFrom ts1 b d' m = cumFrom ts2 b d' m := by
  intro m
  induction m with
  | zero => intro d' _; rfl
  | succ m' ih =>
      intro d' h
      rw [cumFrom_succ_front, cumFrom_succ_front]
      have h0 : rowContrib ts1 b (b + d') = rowContrib ts2 b (b + d') := by
        have := h 0 (by omega)
        simpa using this
      rw [h0, ih (d' + 1) (by
        intro e he
        have := h (e + 1) (by omega)
        have harith : b + d' + (e + 1) = b + (d' + 1) + e := by omega
        rwa [harith] at this)]

theorem sharedMainLoop_cons (b i : Nat) (is : List Nat)
    (st : List Nat × List (List Nat) × Nat) :
    sharedMainLoop b (i :: is) st =
      sharedMainLoop b is
        (st.1.set (i + 1)
          (st.1.getD (i + 1) 0 + (sharedThreadFold st.1 b i st.2.1 st.2.2).2),
         (sharedThreadFold st.1 b i st.2.1 st.2.2).1,
         (sharedThreadFold st.1 b i st.2.1 st.2.2).2) := by
  conv_lhs => rw [sharedMainLoop]

theorem sharedMainLoop_cons2 (b i : Nat) (is : List Nat) (r : List Nat)
    (ts : List (List Nat)) (count : Nat) :
    sharedMainLoop b (i :: is) (r, ts, count) =
      sharedMainLoop b is
        (r.set (i + 1) (r.getD (i + 1) 0 + (sharedThreadFold r b i ts count).2),
         (sharedThreadFold r b i ts count).1,
         (sharedThreadFold r b i ts count).2) :=
  sharedMainLoop_cons b i is (r, ts, count)

theorem sharedMainLoop_spec (b fillv : Nat) :
    ∀ (m d : Nat) (r : List Nat) (ts : List (List Nat)) (count : Nat),
      b + d + m + 1 ≤ r.length →
      (1 ≤ m → r.getD (r.length - 1) 0 = fillv) →
      (sharedMainLoop b (List.range' (b + d) m) (r, ts, count)).2.2 =
          count + cumFrom ts b d m ∧
      (sharedMainLoop b (List.range' (b + d) m) (r, ts, count)).1.length = r.length ∧
      (∀ idx, (sharedMainLoop b (List.range' (b + d) m) (r, ts, count)).1.getD idx 0 =
        r.getD idx 0 +
          (if b + d < idx ∧ idx ≤ b + d + m then
            count + cumFrom ts b d (idx - (b + d)) else 0)) ∧
      (sharedMainLoop b (List.range' (b + d) m) (r, ts, count)).2.1.length = ts.length ∧
      (∀ t, ((sharedMainLoop b (List.range' (b + d) m) (r, ts, count)).2.1.getD t []).length =
        (ts.getD t []).length) ∧
      (∀ t j, ((sharedMainLoop b (List.range' (b + d) m) (r, ts, count)).2.1.getD t []).getD j 0 =
        if d ≤ j ∧ j < d + m ∧ j < (ts.getD t []).length ∧ t < ts.length then
          count + cumFrom ts b d (j - d) + takeContrib ts b (b + j) t + fillv
        else (ts.getD t []).getD j 0) := by
  intro m
  induction m with
  | zero =>
      intro d r ts count hR hlast
      have hr : List.range' (b + d) 0 = [] := rfl
      rw [hr]
      refine ⟨by simp [sharedMainLoop, cumFrom_zero], rfl, ?_, rfl, fun t => rfl, ?_⟩
      · intro idx
        show r.getD idx 0 = _
        rw [if_neg (by omega)]
        omega
      · intro t j
        show (ts.getD t []).getD j 0 = _
        rw [if_neg (by omega)]
  | succ m' ih =>
      intro d r ts count hR hlast
      have hrange : List.range' (b + d) (m' + 1) =
          (b + d) :: List.range' (b + d + 1) m' := List.range'_succ _ _ _
      rw [hrange, sharedMainLoop_cons2]
      obtain ⟨hTc, hTl, hTll, hTcell⟩ :=
        sharedThreadFold_spec r b (b + d) (by omega) ts count
      have hr1len : (r.set (b + d + 1)
          (r.getD (b + d + 1) 0 + (sharedThreadFold r b (b + d) ts count).2)).length
          = r.length := List.length_set _ _ _
      have hlastv : r.getLastD 0 = fillv := by
        rw [getLastD_eq_gd]
        exact hlast (by omega)
      obtain ⟨ih1, ih2, ih3, ih4, ih5, ih6⟩ :=
        ih (d + 1)
          (r.set (b + d + 1)
            (r.getD (b + d + 1) 0 + (sharedThreadFold r b (b + d) ts count).2))
          (sharedThreadFold r b (b + d) ts count).1
          (sharedThreadFold r b (b + d) ts count).2
          (by rw [hr1len]; omega)
          (by
            intro hm'
            rw [hr1len, gd_set_ne (by omega)]
            exact hlast (by omega))
      have harith : b + (d + 1) = b + d + 1 := by omega
      rw [harith] at ih1 ih2 ih3 ih4 ih5 ih6
      have hcellne : ∀ t j, j ≠ d →
          (((sharedThreadFold r b (b + d) ts count).1.getD t []).getD j 0) =
            (ts.getD t []).getD j 0 := by
        intro t j hj
        rw [hTcell t j, if_neg (by
          intro hc
          obtain ⟨hc1, _, _⟩ := hc
          omega)]
      have hrowC : ∀ i', i' - b ≠ d →
          rowContrib (sharedThreadFold r b (b + d) ts count).1 b i' =
            rowContrib ts b i' := by
        intro i' hi'
        exact rowContrib_congr _ ts b i' hTl
          (fun t ht => hTll t) (fun t ht => hcellne t (i' - b) hi')
      have htakeC : ∀ i' t, i' - b ≠ d →
          takeContrib (sharedThreadFold r b (b + d) ts count).1 b i' t =
            takeContrib ts b i' t := by
        intro i' t hi'
        exact takeContrib_congr _ ts b i' t hTl
          (fun s hs => hTll s) (fun s hs => hcellne s (i' - b) hi')
      have hcumCg : ∀ mm, mm ≤ m' →
          cumFrom (sharedThreadFold r b (b + d) ts count).1 b (d + 1) mm =
            cumFrom ts b (d + 1) mm := by
        intro mm hmm
        exact cumFrom_congr _ ts b mm (d + 1)
          (fun e he => hrowC (b + (d + 1) + e) (by omega))
      refine ⟨?_, ?_, ?_, ?_, ?_, ?_⟩
      · rw [ih1, hcumCg m' (Nat.le_refl m'), hTc, cumFrom_succ_front]
        omega
      · rw [ih2, hr1len]
      · intro idx
        rw [ih3 idx]
        by_cases hx : b + d < idx ∧ idx ≤ b + d + (m' + 1)
        · by_cases hx1 : idx = b + d + 1
          · subst hx1
            rw [gd_set_eq (by omega), if_neg (by omega), if_pos (by omega)]
            have h1 : b + d + 1 - (b + d) = 1 := by omega
            rw [h1, cumFrom_succ_back, cumFrom_zero, hTc]
            have h2 : b + d + 0 = b + d := by omega
            rw [h2]
            omega
          · rw [gd_set_ne (by omega), if_pos (by omega), if_pos (by omega),
              hcumCg (idx - (b + d + 1)) (by omega), hTc]
            have h1 : idx - (b + d) = (idx - (b + d + 1)) + 1 := by omega
            rw [h1, cumFrom_succ_front]
            omega
        · rw [gd_set_ne (by omega), if_neg (by omega), if_neg (by omega)]
      · rw [ih4, hTl]
      · intro t
        rw [ih5 t, hTll t]
      · intro t j
        have h6 := ih6 t j
        rw [hTll t, hTl] at h6
        rw [h6]
        by_cases hcond : d ≤ j ∧ j < d + (m' + 1) ∧
            j < (ts.getD t []).length ∧ t < ts.length
        · by_cases hjd : j = d
          · subst hjd
            rw [if_neg (by omega), if_pos hcond, hTcell t j,
              if_pos ⟨by omega, by omega, hcond.2.2.2⟩, hlastv]
            have hjj : j - j = 0 := by omega
            rw [hjj, cumFrom_zero]
            omega
          · rw [if_pos (by exact ⟨by omega, by omega, hcond.2.2.1, hcond.2.2.2⟩),
              if_pos hcond, hcumCg (j - (d + 1)) (by omega),
              htakeC (b + j) t (by omega), hTc]
            have h1 : j - d = (j - (d + 1)) + 1 := by omega
            rw [h1, cumFrom_succ_front]
            omega
        · rw [if_neg (by
            intro hc
            exact hcond ⟨by omega, by omega, hc.2.2.1, hc.2.2.2⟩),
            if_neg hcond]
          by_cases hjd : j = d
          · subst hjd
            rw [hTcell t j, if_neg (by
              intro hc
              obtain ⟨hc1, hc2, hc3⟩ := hc
              exact hcond ⟨by omega, by omega, by omega, hc3⟩)]
          · exact hcellne t j hjd

theorem InitStorage_false_eq {α : Type} [Inhabited α] (bld : Builder α) :
    InitStorage false bld =
      { bld with
          rptr := (sharedMainLoop bld.base_row_offset
            (List.range' bld.base_row_offset
              ((sharedResizeLoop (bld.rptr.getLastD 0) bld.base_row_offset
                  bld.rptr bld.thread_rptr).length - 1 - bld.base_row_offset))
            (sharedResizeLoop (bld.rptr.getLastD 0) bld.base_row_offset
                bld.rptr bld.thread_rptr,
             bld.thread_rptr, 0)).1,
          thread_rptr := (sharedMainLoop bld.base_row_offset
            (List.range' bld.base_row_offset
              ((sharedResizeLoop (bld.rptr.getLastD 0) bld.base_row_offset
                  bld.rptr bld.thread_rptr).length - 1 - bld.base_row_offset))
            (sharedResizeLoop (bld.rptr.getLastD 0) bld.base_row_offset
                bld.rptr bld.thread_rptr,
             bld.thread_rptr, 0)).2.1,
          data := resizeFill bld.data
            ((sharedMainLoop bld.base_row_offset
              (List.range' bld.base_row_offset
                ((sharedResizeLoop (bld.rptr.getLastD 0) bld.base_row_offset
                    bld.rptr bld.thread_rptr).length - 1 - bld.base_row_offset))
              (sharedResizeLoop (bld.rptr.getLastD 0) bld.base_row_offset
                  bld.rptr bld.thread_rptr,
               bld.thread_rptr, 0)).1.getLastD 0) default } := rfl

theorem InitStorage_shared_char {α : Type} [Inhabited α] (bld : Builder α)
    (hts : 1 ≤ bld.thread_rptr.length)
    (hshape : bld.rptr.length ≤ bld.base_row_offset + 1) :
    (InitStorage false bld).rptr.length =
      sharedR bld.rptr.length bld.base_row_offset bld.thread_rptr ∧
    (∀ idx, idx < bld.base_row_offset → idx < bld.rptr.length →
      (InitStorage false bld).rptr.getD idx 0 = bld.rptr.getD idx 0) ∧
    (∀ idx, idx < bld.base_row_offset → bld.rptr.length ≤ idx →
      (InitStorage false bld).rptr.getD idx 0 = bld.rptr.getLastD 0) ∧
    (∀ idx, bld.base_row_offset ≤ idx →
      idx < sharedR bld.rptr.length bld.base_row_offset bld.thread_rptr →
      (InitStorage false bld).rptr.getD idx 0 =
        bld.rptr.getLastD 0 +
          cumFrom bld.thread_rptr bld.base_row_offset 0
            (idx - bld.base_row_offset)) ∧
    (InitStorage false bld).thread_rptr.length = bld.thread_rptr.length ∧
    (∀ t, ((InitStorage false bld).thread_rptr.getD t []).length =
      (bld.thread_rptr.getD t []).length) ∧
    (∀ t j, ((InitStorage false bld).thread_rptr.getD t []).getD j 0 =
      if j < (bld.thread_rptr.getD t []).length ∧ t < bld.thread_rptr.length then
        bld.rptr.getLastD 0 +
          cumFrom bld.thread_rptr bld.base_row_offset 0 j +
          takeContrib bld.thread_rptr bld.base_row_offset
            (bld.base_row_offset + j) t
      else (bld.thread_rptr.getD t []).getD j 0) ∧
    (InitStorage false bld).data =
      resizeFill bld.data ((InitStorage false bld).rptr.getLastD 0) default ∧
    (InitStorage false bld).rptr.getLastD 0 =
      bld.rptr.getLastD 0 +
        cumFrom bld.thread_rptr bld.base_row_offset 0
          (sharedR bld.rptr.length bld.base_row_offset bld.thread_rptr - 1 -
            bld.base_row_offset) ∧
    (InitStorage false bld).base_row_offset = bld.base_row_offset ∧
    (InitStorage false bld).thread_displacement = bld.thread_displacement := by
  have hRge : bld.rptr.length ≤
      sharedR bld.rptr.length bld.base_row_offset bld.thread_rptr :=
    sharedR_ge_init _ _ _
  have hRgb : (bld.thread_rptr.getD 0 []).length + bld.base_row_offset + 1 ≤
      sharedR bld.rptr.length bld.base_row_offset bld.thread_rptr :=
    sharedR_ge_mem _ _ _ 0 hts
  have hr0 := sharedResizeLoop_eq (bld.rptr.getLastD 0) bld.base_row_offset
    bld.thread_rptr bld.rptr
  have hr0len : (sharedResizeLoop (bld.rptr.getLastD 0) bld.base_row_offset
      bld.rptr bld.thread_rptr).length =
      sharedR bld.rptr.length bld.base_row_offset bld.thread_rptr := by
    rw [hr0, List.length_append, List.length_replicate]
    omega
  have hr0gd : ∀ idx,
      (sharedResizeLoop (bld.rptr.getLastD 0) bld.base_row_offset
        bld.rptr bld.thread_rptr).getD idx 0 =
      if idx < bld.rptr.length then bld.rptr.getD idx 0
      else if idx < sharedR bld.rptr.length bld.base_row_offset bld.thread_rptr
      then bld.rptr.getLastD 0 else 0 := by
    intro idx
    rw [hr0]
    by_cases hi : idx < bld.rptr.length
    · rw [gd_append_left hi, if_pos hi]
    · push_neg at hi
      rw [gd_append_right hi, if_neg (by omega)]
      by_cases hi2 : idx < sharedR bld.rptr.length bld.base_row_offset bld.thread_rptr
      · rw [if_pos hi2, gd_replicate (by omega)]
      · rw [if_neg hi2, gd_oob (by rw [List.length_replicate]; omega)]
  have hlastr0 : (sharedResizeLoop (bld.rptr.getLastD 0) bld.base_row_offset
      bld.rptr bld.thread_rptr).getD
      ((sharedResizeLoop (bld.rptr.getLastD 0) bld.base_row_offset
        bld.rptr bld.thread_rptr).length - 1) 0 = bld.rptr.getLastD 0 := by
    rw [hr0len, hr0gd]
    by_cases hlt : sharedR bld.rptr.length bld.base_row_offset bld.thread_rptr - 1 <
        bld.rptr.length
    · rw [if_pos hlt]
      have hlen1 : bld.rptr.length =
          sharedR bld.rptr.length bld.base_row_offset bld.thread_rptr := by
        omega
      rw [getLastD_eq_gd]
      have : sharedR bld.rptr.length bld.base_row_offset bld.thread_rptr - 1 =
          bld.rptr.length - 1 := by omega
      rw [this]
    · rw [if_neg hlt, if_pos (by omega)]
  obtain ⟨hm1, hm2, hm3, hm4, hm5, hm6⟩ :=
    sharedMainLoop_spec bld.base_row_offset (bld.rptr.getLastD 0)
      ((sharedResizeLoop (bld.rptr.getLastD 0) bld.base_row_offset
        bld.rptr bld.thread_rptr).length - 1 - bld.base_row_offset) 0
      (sharedResizeLoop (bld.rptr.getLastD 0) bld.base_row_offset
        bld.rptr bld.thread_rptr)
      bld.thread_rptr 0
      (by rw [hr0len]; omega)
      (fun _ => hlastr0)
  rw [Nat.add_zero] at hm1 hm2 hm3 hm4 hm5 hm6
  have hfr : (InitStorage false bld).rptr =
      (sharedMainLoop bld.base_row_offset
        (List.range' bld.base_row_offset
          ((sharedResizeLoop (bld.rptr.getLastD 0) bld.base_row_offset
              bld.rptr bld.thread_rptr).length - 1 - bld.base_row_offset))
        (sharedResizeLoop (bld.rptr.getLastD 0) bld.base_row_offset
            bld.rptr bld.thread_rptr,
         bld.thread_rptr, 0)).1 := rfl
  have hft : (InitStorage false bld).thread_rptr =
      (sharedMainLoop bld.base_row_offset
        (List.range' bld.base_row_offset
          ((sharedResizeLoop (bld.rptr.getLastD 0) bld.base_row_offset
              bld.rptr bld.thread_rptr).length - 1 - bld.base_row_offset))
        (sharedResizeLoop (bld.rptr.getLastD 0) bld.base_row_offset
            bld.rptr bld.thread_rptr,
         bld.thread_rptr, 0)).2.1 := rfl
  have hRm : bld.base_row_offset +
      ((sharedResizeLoop (bld.rptr.getLastD 0) bld.base_row_offset
        bld.rptr bld.thread_rptr).length - 1 - bld.base_row_offset) =
      sharedR bld.rptr.length bld.base_row_offset bld.thread_rptr - 1 := by
    rw [hr0len]
    omega
  have hrfinal : ∀ idx, bld.base_row_offset ≤ idx →
      idx < sharedR bld.rptr.length bld.base_row_offset bld.thread_rptr →
      (InitStorage false bld).rptr.getD idx 0 =
        bld.rptr.getLastD 0 +
          cumFrom bld.thread_rptr bld.base_row_offset 0
            (idx - bld.base_row_offset) := by
    intro idx hbi hiR
    rw [hfr, hm3 idx, hr0gd idx]
    by_cases hib : idx = bld.base_row_offset
    · rw [if_neg (show ¬(bld.base_row_offset < idx ∧ idx ≤ bld.base_row_offset +
          ((sharedResizeLoop (bld.rptr.getLastD 0) bld.base_row_offset bld.rptr
            bld.thread_rptr).length - 1 - bld.base_row_offset)) by omega)]
      have hz : idx - bld.base_row_offset = 0 := by omega
      rw [hz, cumFrom_zero]
      by_cases hi0 : idx < bld.rptr.length
      · rw [if_pos hi0, getLastD_eq_gd]
        have h2 : bld.rptr.length - 1 = idx := by omega
        rw [h2]
      · rw [if_neg hi0,
          if_pos (show idx <
            sharedR bld.rptr.length bld.base_row_offset bld.thread_rptr by omega)]
    · rw [if_neg (show ¬ idx < bld.rptr.length by omega),
        if_pos (show idx <
          sharedR bld.rptr.length bld.base_row_offset bld.thread_rptr by omega),
        if_pos (show bld.base_row_offset < idx ∧ idx ≤ bld.base_row_offset +
          ((sharedResizeLoop (bld.rptr.getLastD 0) bld.base_row_offset bld.rptr
            bld.thread_rptr).length - 1 - bld.base_row_offset) by
          refine ⟨by omega, ?_⟩
          rw [hr0len]
          omega)]
      omega
  refine ⟨?_, ?_, ?_, hrfinal, ?_, ?_, ?_, ?_, ?_, rfl, rfl⟩
  · rw [hfr, hm2, hr0len]
  · intro idx hib hilen
    rw [hfr, hm3 idx, hr0gd idx, if_pos hilen, if_neg (by omega)]
    omega
  · intro idx hib hilen
    rw [hfr, hm3 idx, hr0gd idx, if_neg (by omega), if_pos (by omega),
      if_neg (by omega)]
    omega
  · rw [hft, hm4]
  · intro t
    rw [hft, hm5 t]
  · intro t j
    rw [hft, hm6 t j]
    by_cases hc : j < (bld.thread_rptr.getD t []).length ∧
        t < bld.thread_rptr.length
    · have hjm : j < (sharedResizeLoop (bld.rptr.getLastD 0) bld.base_row_offset
          bld.rptr bld.thread_rptr).length - 1 - bld.base_row_offset := by
        have := sharedR_ge_mem bld.base_row_offset bld.thread_rptr
          bld.rptr.length t hc.2
        rw [hr0len]
        omega
      rw [if_pos ⟨by omega, by omega, hc.1, hc.2⟩, if_pos hc]
      have hj0 : j - 0 = j := by omega
      rw [hj0]
      omega
    · rw [if_neg (by
        intro h2
        exact hc ⟨h2.2.2.1, h2.2.2.2⟩), if_neg hc]
  · rw [InitStorage_false_eq]
  · rw [getLastD_eq_gd, hfr, hm2]
    rw [← hfr]
    have hlast := hrfinal
      (sharedR bld.rptr.length bld.base_row_offset bld.thread_rptr - 1)
      (by omega) (by omega)
    rw [hr0len, hlast]

/-! Characterization of row-major InitStorage. -/

theorem rmScanRow_cons (fillv c : Nat) (cs : List Nat) (r : List Nat)
    (count idx : Nat) (hg : idx < r.length) :
    rmScanRow fillv (c :: cs) r count idx =
      ((count + fillv) ::
        (rmScanRow fillv cs (r.set idx (r.getD idx 0 + (count + c)))
          (count + c) (idx + 1)).1,
       (rmScanRow fillv cs (r.set idx (r.getD idx 0 + (count + c)))
          (count + c) (idx + 1)).2.1,
       (rmScanRow fillv cs (r.set idx (r.getD idx 0 + (count + c)))
          (count + c) (idx + 1)).2.2.1,
       (rmScanRow fillv cs (r.set idx (r.getD idx 0 + (count + c)))
          (count + c) (idx + 1)).2.2.2) := by
  conv_lhs => rw [rmScanRow]
  rw [if_pos hg]

theorem rmScanRow_spec (fillv : Nat) :
    ∀ (cells : List Nat) (r : List Nat) (count idx : Nat),
      idx + cells.length ≤ r.length →
      (rmScanRow fillv cells r count idx).2.2.1 = count + cells.sum ∧
      (rmScanRow fillv cells r count idx).2.2.2 = idx + cells.length ∧
      (rmScanRow fillv cells r count idx).1.length = cells.length ∧
      (∀ p, (rmScanRow fillv cells r count idx).1.getD p 0 =
        if p < cells.length then count + (cells.take p).sum + fillv else 0) ∧
      (rmScanRow fillv cells r count idx).2.1.length = r.length ∧
      (∀ q, (rmScanRow fillv cells r count idx).2.1.getD q 0 =
        r.getD q 0 + (if idx ≤ q ∧ q < idx + cells.length then
          count + (cells.take (q - idx + 1)).sum else 0)) := by
  intro cells
  induction cells with
  | nil =>
      intro r count idx hbound
      refine ⟨by simp [rmScanRow], by simp [rmScanRow], rfl, ?_, rfl, ?_⟩
      · intro p
        rw [if_neg (by simp)]
        rfl
      · intro q
        rw [if_neg (by simp only [List.length_nil]; omega)]
        show r.getD q 0 = r.getD q 0 + 0
        omega
  | cons c cs ih =>
      intro r count idx hbound
      have hg : idx < r.length := by
        simp only [List.length_cons] at hbound
        omega
      rw [rmScanRow_cons fillv c cs r count idx hg]
      have hlen1 : (r.set idx (r.getD idx 0 + (count + c))).length = r.length :=
        List.length_set _ _ _
      obtain ⟨ih1, ih2, ih3, ih4, ih5, ih6⟩ :=
        ih (r.set idx (r.getD idx 0 + (count + c))) (count + c) (idx + 1)
          (by rw [hlen1]; simp only [List.length_cons] at hbound; omega)
      refine ⟨?_, ?_, ?_, ?_, ?_, ?_⟩
      · show (rmScanRow fillv cs _ _ _).2.2.1 = _
        rw [ih1, List.sum_cons]
        omega
      · show (rmScanRow fillv cs _ _ _).2.2.2 = _
        rw [ih2, List.length_cons]
        omega
      · show ((count + fillv) :: (rmScanRow fillv cs _ _ _).1).length = _
        rw [List.length_cons, ih3, List.length_cons]
      · intro p
        cases p with
        | zero =>
            show count + fillv = _
            rw [if_pos (by simp), List.take_zero, List.sum_nil]
            omega
        | succ p' =>
            show ((rmScanRow fillv cs _ _ _).1).getD p' 0 = _
            rw [ih4 p']
            by_cases hp : p' < cs.length
            · rw [if_pos hp, if_pos (by simp; omega), List.take_succ_cons,
                List.sum_cons]
              omega
            · rw [if_neg hp, if_neg (by simp; omega)]
      · show (rmScanRow fillv cs _ _ _).2.1.length = _
        rw [ih5, hlen1]
      · intro q
        show (rmScanRow fillv cs _ _ _).2.1.getD q 0 = _
        rw [ih6 q]
        by_cases hq : idx ≤ q ∧ q < idx + (c :: cs).length
        · by_cases hq1 : q = idx
          · subst hq1
            rw [gd_set_eq hg, if_neg (by omega), if_pos hq]
            have h1 : q - q + 1 = 1 := by omega
            rw [h1]
            show r.getD q 0 + (count + c) + 0 = _
            have h2 : ((c :: cs).take 1).sum = c := by
              simp
            rw [h2]
            omega
          · rw [gd_set_ne (by omega), if_pos (by
              simp only [List.length_cons] at hq
              exact ⟨by omega, by omega⟩), if_pos hq]
            have h1 : q - idx + 1 = (q - (idx + 1) + 1) + 1 := by omega
            rw [h1, List.take_succ_cons, List.sum_cons]
            omega
        · rw [gd_set_ne (by
              intro he
              subst he
              simp only [List.length_cons] at hq
              omega),
            if_neg (by
              simp only [List.length_cons] at hq
              omega),
            if_neg hq]

theorem threadStart_zero (ts : List (List Nat)) : threadStart ts 0 = 0 := rfl

theorem threadStart_cons_succ (ts0 : List Nat) (rest : List (List Nat))
    (t : Nat) :
    threadStart (ts0 :: rest) (t + 1) = ts0.sum + threadStart rest t := by
  unfold threadStart
  rw [List.take_succ_cons, List.map_cons, List.sum_cons]

theorem flatCum_zero (ts : List (List Nat)) : flatCum ts 0 = 0 := by
  unfold flatCum
  rw [List.take_zero, List.sum_nil]

theorem flatCum_cons_le (ts0 : List Nat) (rest : List (List Nat)) (p : Nat)
    (h : p ≤ ts0.length) :
    flatCum (ts0 :: rest) p = (ts0.take p).sum := by
  unfold flatCum
  rw [List.flatten_cons, List.take_append_of_le_length h]

theorem flatCum_cons_ge (ts0 : List Nat) (rest : List (List Nat)) (p : Nat)
    (h : ts0.length ≤ p) :
    flatCum (ts0 :: rest) p = ts0.sum + flatCum rest (p - ts0.length) := by
  unfold flatCum
  rw [List.flatten_cons, List.take_append_eq_append_take, List.sum_append,
    List.take_of_length_le h]

theorem rmScanAll_cons (fillv : Nat) (ts0 : List Nat) (rest : List (List Nat))
    (r : List Nat) (count idx : Nat) :
    rmScanAll fillv (ts0 :: rest) r count idx =
      ((rmScanRow fillv ts0 r count idx).1 ::
        (rmScanAll fillv rest (rmScanRow fillv ts0 r count idx).2.1
          (rmScanRow fillv ts0 r count idx).2.2.1
          (rmScanRow fillv ts0 r count idx).2.2.2).1,
       (rmScanAll fillv rest (rmScanRow fillv ts0 r count idx).2.1
          (rmScanRow fillv ts0 r count idx).2.2.1
          (rmScanRow fillv ts0 r count idx).2.2.2).2.1,
       (rmScanAll fillv rest (rmScanRow fillv ts0 r count idx).2.1
          (rmScanRow fillv ts0 r count idx).2.2.1
          (rmScanRow fillv ts0 r count idx).2.2.2).2.2.1,
       (rmScanAll fillv rest (rmScanRow fillv ts0 r count idx).2.1
          (rmScanRow fillv ts0 r count idx).2.2.1
          (rmScanRow fillv ts0 r count idx).2.2.2).2.2.2) := by
  conv_lhs => rw [rmScanAll]

theorem rmScanAll_spec (fillv : Nat) :
    ∀ (tss : List (List Nat)) (r : List Nat) (count idx : Nat),
      idx + tss.flatten.length ≤ r.length →
      (rmScanAll fillv tss r count idx).2.2.1 = count + tss.flatten.sum ∧
      (rmScanAll fillv tss r count idx).2.2.2 = idx + tss.flatten.length ∧
      (rmScanAll fillv tss r count idx).1.length = tss.length ∧
      (∀ t, ((rmScanAll fillv tss r count idx).1.getD t []).length =
        (tss.getD t []).length) ∧
      (∀ t p, ((rmScanAll fillv tss r count idx).1.getD t []).getD p 0 =
        if p < (tss.getD t []).length ∧ t < tss.length then
          count + cellPre tss t p + fillv else 0) ∧
      (rmScanAll fillv tss r count idx).2.1.length = r.length ∧
      (∀ q, (rmScanAll fillv tss r count idx).2.1.getD q 0 =
        r.getD q 0 + (if idx ≤ q ∧ q < idx + tss.flatten.length then
          count + flatCum tss (q - idx + 1) else 0)) := by
  intro tss
  induction tss with
  | nil =>
      intro r count idx hbound
      refine ⟨by simp [rmScanAll], by simp [rmScanAll], rfl, fun t => rfl,
        ?_, rfl, ?_⟩
      · intro t p
        rw [if_neg (by simp)]
        rfl
      · intro q
        rw [if_neg (by simp only [List.flatten_nil, List.length_nil]; omega)]
        show r.getD q 0 = r.getD q 0 + 0
        omega
  | cons ts0 rest ih =>
      intro r count idx hbound
      have hflen : (ts0 :: rest).flatten.length =
          ts0.length + rest.flatten.length := by
        rw [List.flatten_cons, List.length_append]
      obtain ⟨hr1, hr2, hr3, hr4, hr5, hr6⟩ :=
        rmScanRow_spec fillv ts0 r count idx (by omega)
      rw [rmScanAll_cons, hr1, hr2]
      obtain ⟨ih1, ih2, ih3, ih4, ih5, ih6, ih7⟩ :=
        ih (rmScanRow fillv ts0 r count idx).2.1
          (count + ts0.sum) (idx + ts0.length)
          (by rw [hr5]; omega)
      refine ⟨?_, ?_, ?_, ?_, ?_, ?_, ?_⟩
      · show (rmScanAll fillv rest _ _ _).2.2.1 = _
        rw [ih1, List.flatten_cons, List.sum_append]
        omega
      · show (rmScanAll fillv rest _ _ _).2.2.2 = _
        rw [ih2, hflen]
        omega
      · show ((rmScanRow fillv ts0 r count idx).1 ::
          (rmScanAll fillv rest _ _ _).1).length = _
        rw [List.length_cons, ih3, List.length_cons]
      · intro t
        cases t with
        | zero =>
            show ((rmScanRow fillv ts0 r count idx).1).length = _
            rw [hr3]
            rfl
        | succ t' =>
            rw [gd_cons_succ, gd_cons_succ]
            exact ih4 t'
      · intro t p
        cases t with
        | zero =>
            show ((rmScanRow fillv ts0 r count idx).1).getD p 0 = _
            rw [hr4 p]
            by_cases hp : p < ts0.length
            · rw [if_pos hp, if_pos ⟨hp, by simp⟩]
              unfold cellPre
              rw [threadStart_zero]
              show count + (ts0.take p).sum + fillv =
                count + (0 + ((ts0.take p).sum)) + fillv
              omega
            · rw [if_neg hp, if_neg (by
                intro hc
                exact hp (by simpa using hc.1))]
        | succ t' =>
            rw [gd_cons_succ]
            rw [ih5 t' p]
            by_cases hc : p < (rest.getD t' []).length ∧ t' < rest.length
            · rw [if_pos hc, if_pos ⟨by simpa [gd_cons_succ] using hc.1,
                by simpa using Nat.succ_lt_succ hc.2⟩]
              unfold cellPre
              rw [threadStart_cons_succ]
              show count + ts0.sum +
                  (threadStart rest t' + ((rest.getD t' []).take p).sum) + fillv =
                count + (ts0.sum + threadStart rest t' +
                  (((ts0 :: rest).getD (t' + 1) []).take p).sum) + fillv
              rw [gd_cons_succ]
              omega
            · rw [if_neg hc, if_neg (by
                intro hc2
                exact hc ⟨by simpa [gd_cons_succ] using hc2.1,
                  by simpa using Nat.lt_of_succ_lt_succ hc2.2⟩)]
      · show (rmScanAll fillv rest _ _ _).2.1.length = _
        rw [ih6, hr5]
      · intro q
        show (rmScanAll fillv rest _ _ _).2.1.getD q 0 = _
        rw [ih7 q, hr6 q]
        by_cases hq : idx ≤ q ∧ q < idx + (ts0 :: rest).flatten.length
        · by_cases hq1 : q < idx + ts0.length
          · rw [if_pos ⟨hq.1, hq1⟩, if_neg (by omega), if_pos hq,
              flatCum_cons_le _ _ _ (by omega)]
            omega
          · rw [if_neg (by omega), if_pos (by constructor <;> omega),
              if_pos hq, flatCum_cons_ge _ _ _ (by omega)]
            have h1 : q - (idx + ts0.length) + 1 = q - idx + 1 - ts0.length := by
              omega
            rw [h1]
            omega
        · rw [if_neg (by omega), if_neg (by omega), if_neg hq]

theorem InitStorage_true_eq {α : Type} [Inhabited α] (bld : Builder α) :
    InitStorage true bld =
      { bld with
          rptr := (rmScanAll (bld.rptr.getLastD 0) bld.thread_rptr
            (resizeFill bld.rptr
              ((bld.thread_rptr.map List.length).sum + bld.base_row_offset + 1)
              (bld.rptr.getLastD 0))
            0 (bld.base_row_offset + 1)).2.1,
          thread_rptr := (rmScanAll (bld.rptr.getLastD 0) bld.thread_rptr
            (resizeFill bld.rptr
              ((bld.thread_rptr.map List.length).sum + bld.base_row_offset + 1)
              (bld.rptr.getLastD 0))
            0 (bld.base_row_offset + 1)).1,
          data := resizeFill bld.data
            ((rmScanAll (bld.rptr.getLastD 0) bld.thread_rptr
              (resizeFill bld.rptr
                ((bld.thread_rptr.map List.length).sum + bld.base_row_offset + 1)
                (bld.rptr.getLastD 0))
              0 (bld.base_row_offset + 1)).2.1.getLastD 0) default } := rfl

theorem flatten_length_eq (ts : List (List Nat)) :
    ts.flatten.length = (ts.map List.length).sum := by
  induction ts with
  | nil => rfl
  | cons t rest ih =>
      rw [List.flatten_cons, List.length_append, List.map_cons, List.sum_cons,
        ih]

theorem InitStorage_rm_char {α : Type} [Inhabited α] (bld : Builder α)
    (hshape : bld.rptr.length ≤ bld.base_row_offset + 1) :
    (InitStorage true bld).rptr.length =
      (bld.thread_rptr.map List.length).sum + bld.base_row_offset + 1 ∧
    (∀ idx, idx < bld.base_row_offset → idx < bld.rptr.length →
      (InitStorage true bld).rptr.getD idx 0 = bld.rptr.getD idx 0) ∧
    (∀ idx, idx < bld.base_row_offset → bld.rptr.length ≤ idx →
      (InitStorage true bld).rptr.getD idx 0 = bld.rptr.getLastD 0) ∧
    (∀ idx, bld.base_row_offset ≤ idx →
      idx < (bld.thread_rptr.map List.length).sum + bld.base_row_offset + 1 →
      (InitStorage true bld).rptr.getD idx 0 =
        bld.rptr.getLastD 0 +
          flatCum bld.thread_rptr (idx - bld.base_row_offset)) ∧
    (InitStorage true bld).thread_rptr.length = bld.thread_rptr.length ∧
    (∀ t, ((InitStorage true bld).thread_rptr.getD t []).length =
      (bld.thread_rptr.getD t []).length) ∧
    (∀ t p, ((InitStorage true bld).thread_rptr.getD t []).getD p 0 =
      if p < (bld.thread_rptr.getD t []).length ∧ t < bld.thread_rptr.length
      then bld.rptr.getLastD 0 + cellPre bld.thread_rptr t p
      else (bld.thread_rptr.getD t []).getD p 0) ∧
    (InitStorage true bld).data =
      resizeFill bld.data ((InitStorage true bld).rptr.getLastD 0) default ∧
    (InitStorage true bld).rptr.getLastD 0 =
      bld.rptr.getLastD 0 +
        flatCum bld.thread_rptr ((bld.thread_rptr.map List.length).sum) ∧
    (InitStorage true bld).base_row_offset = bld.base_row_offset ∧
    (InitStorage true bld).thread_displacement = bld.thread_displacement := by
  have hflat : bld.thread_rptr.flatten.length =
      (bld.thread_rptr.map List.length).sum := flatten_length_eq _
  have hr0len : (resizeFill bld.rptr
      ((bld.thread_rptr.map List.length).sum + bld.base_row_offset + 1)
      (bld.rptr.getLastD 0)).length =
      (bld.thread_rptr.map List.length).sum + bld.base_row_offset + 1 :=
    length_resizeFill _ _ _
  have hr0gd : ∀ idx,
      (resizeFill bld.rptr
        ((bld.thread_rptr.map List.length).sum + bld.base_row_offset + 1)
        (bld.rptr.getLastD 0)).getD idx 0 =
      if idx < bld.rptr.length then bld.rptr.getD idx 0
      else if idx <
          (bld.thread_rptr.map List.length).sum + bld.base_row_offset + 1
      then bld.rptr.getLastD 0 else 0 := by
    intro idx
    rw [gd_resizeFill]
    split_ifs <;> omega
  obtain ⟨hs1, hs2, hs3, hs4, hs5, hs6, hs7⟩ :=
    rmScanAll_spec (bld.rptr.getLastD 0) bld.thread_rptr
      (resizeFill bld.rptr
        ((bld.thread_rptr.map List.length).sum + bld.base_row_offset + 1)
        (bld.rptr.getLastD 0))
      0 (bld.base_row_offset + 1)
      (by rw [hr0len, hflat]; omega)
  have hfr : (InitStorage true bld).rptr =
      (rmScanAll (bld.rptr.getLastD 0) bld.thread_rptr
        (resizeFill bld.rptr
          ((bld.thread_rptr.map List.length).sum + bld.base_row_offset + 1)
          (bld.rptr.getLastD 0))
        0 (bld.base_row_offset + 1)).2.1 := rfl
  have hft : (InitStorage true bld).thread_rptr =
      (rmScanAll (bld.rptr.getLastD 0) bld.thread_rptr
        (resizeFill bld.rptr
          ((bld.thread_rptr.map List.length).sum + bld.base_row_offset + 1)
          (bld.rptr.getLastD 0))
        0 (bld.base_row_offset + 1)).1 := rfl
  have hrfinal : ∀ idx, bld.base_row_offset ≤ idx →
      idx < (bld.thread_rptr.map List.length).sum + bld.base_row_offset + 1 →
      (InitStorage true bld).rptr.getD idx 0 =
        bld.rptr.getLastD 0 +
          flatCum bld.thread_rptr (idx - bld.base_row_offset) := by
    intro idx hbi hiE
    rw [hfr, hs7 idx, hr0gd idx]
    by_cases hib : idx = bld.base_row_offset
    · rw [if_neg (show ¬(bld.base_row_offset + 1 ≤ idx ∧
          idx < bld.base_row_offset + 1 + bld.thread_rptr.flatten.length) by
          omega)]
      have hz : idx - bld.base_row_offset = 0 := by omega
      rw [hz, flatCum_zero]
      by_cases hi0 : idx < bld.rptr.length
      · rw [if_pos hi0, getLastD_eq_gd]
        have h2 : bld.rptr.length - 1 = idx := by omega
        rw [h2]
      · rw [if_neg hi0, if_pos (by omega)]
    · rw [if_neg (show ¬ idx < bld.rptr.length by omega),
        if_pos (by omega),
        if_pos (show bld.base_row_offset + 1 ≤ idx ∧
          idx < bld.base_row_offset + 1 + bld.thread_rptr.flatten.length by
          rw [hflat]; omega)]
      have h1 : idx - (bld.base_row_offset + 1) + 1 =
          idx - bld.base_row_offset := by omega
      rw [h1]
      omega
  refine ⟨?_, ?_, ?_, hrfinal, ?_, ?_, ?_, ?_, ?_, rfl, rfl⟩
  · rw [hfr, hs6, hr0len]
  · intro idx hib hilen
    rw [hfr, hs7 idx, hr0gd idx, if_pos hilen,
      if_neg (show ¬(bld.base_row_offset + 1 ≤ idx ∧
        idx < bld.base_row_offset + 1 + bld.thread_rptr.flatten.length) by
        omega)]
    omega
  · intro idx hib hilen
    rw [hfr, hs7 idx, hr0gd idx, if_neg (by omega), if_pos (by omega),
      if_neg (show ¬(bld.base_row_offset + 1 ≤ idx ∧
        idx < bld.base_row_offset + 1 + bld.thread_rptr.flatten.length) by
        omega)]
    omega
  · rw [hft, hs3]
  · intro t
    rw [hft, hs4 t]
  · intro t p
    rw [hft, hs5 t p]
    by_cases hc : p < (bld.thread_rptr.getD t []).length ∧
        t < bld.thread_rptr.length
    · rw [if_pos hc, if_pos hc]
      omega
    · rw [if_neg hc, if_neg hc]
      by_cases ht : t < bld.thread_rptr.length
      · have hp : (bld.thread_rptr.getD t []).length ≤ p := by
          by_cases h2 : p < (bld.thread_rptr.getD t []).length
          · exact absurd ⟨h2, ht⟩ hc
          · omega
        rw [gd_oob hp]
      · have : bld.thread_rptr.getD t [] = [] := gd_oob (by omega) []
        rw [this]
        rfl
  · rw [InitStorage_true_eq]
  · rw [getLastD_eq_gd, hfr, hs6, hr0len, ← hfr]
    have hlast := hrfinal
      ((bld.thread_rptr.map List.length).sum + bld.base_row_offset)
      (by omega) (by omega)
    have h2 : (bld.thread_rptr.map List.length).sum + bld.base_row_offset + 1 - 1 =
        (bld.thread_rptr.map List.length).sum + bld.base_row_offset := by omega
    rw [h2, hlast]
    have h3 : (bld.thread_rptr.map List.length).sum + bld.base_row_offset -
        bld.base_row_offset = (bld.thread_rptr.map List.length).sum := by omega
    rw [h3]

/-! Glue lemmas for the whole-protocol theorems. -/

theorem take_sum_mono (l : List Nat) :
    ∀ p q, p ≤ q → (l.take p).sum ≤ (l.take q).sum := by
  induction l with
  | nil => intro p q _; simp
  | cons x xs ih =>
      intro p q hpq
      cases p with
      | zero => simp
      | succ p' =>
          cases q with
          | zero => omega
          | succ q' =>
              rw [List.take_succ_cons, List.take_succ_cons, List.sum_cons,
                List.sum_cons]
              exact Nat.add_le_add_left (ih p' q' (by omega)) x

theorem flatCum_mono (ts : List (List Nat)) (p q : Nat) (h : p ≤ q) :
    flatCum ts p ≤ flatCum ts q :=
  take_sum_mono ts.flatten p q h

theorem cumFrom_mono0 (ts : List (List Nat)) (b : Nat) :
    ∀ k m, cumFrom ts b 0 m ≤ cumFrom ts b 0 (m + k) := by
  intro k
  induction k with
  | zero => intro m; exact Nat.le_refl _
  | succ k' ih =>
      intro m
      have h1 : m + (k' + 1) = (m + k') + 1 := by omega
      rw [h1, cumFrom_succ_back]
      exact Nat.le_trans (ih m) (Nat.le_add_right _ _)

theorem cumFrom_mono (ts : List (List Nat)) (b m m' : Nat) (h : m ≤ m') :
    cumFrom ts b 0 m ≤ cumFrom ts b 0 m' := by
  have h1 : m' = m + (m' - m) := by omega
  rw [h1]
  exact cumFrom_mono0 ts b (m' - m) m

theorem sharedR_le (b : Nat) :
    ∀ (ts : List (List Nat)) (a M : Nat), a ≤ M →
      (∀ t, t < ts.length → (ts.getD t []).length + b + 1 ≤ M) →
      sharedR a b ts ≤ M := by
  intro ts
  induction ts with
  | nil => intro a M ha _; exact ha
  | cons tr rest ih =>
      intro a M ha hall
      rw [sharedR_cons]
      apply ih
      · have h0 : tr.length + b + 1 ≤ M := by
          have := hall 0 (by simp)
          simpa using this
        omega
      · intro t ht
        have := hall (t + 1) (by simpa using Nat.succ_lt_succ ht)
        simpa [gd_cons_succ] using this

theorem applyPushes_nil {α : Type} (rm : Bool) (bld : Builder α) :
    applyPushes rm bld [] = bld := rfl

theorem budgetPhase_char {α : Type} (rm : Bool) (rptr0 : List Nat)
    (data0 : List α) (b n T : Nat) (buds : List (List (Nat × Nat)))
    (hbud : buds.length = T) :
    (applyBudgets rm (InitBudget rm (mkBuilder rptr0 data0 b) n T) buds).rptr = rptr0 ∧
    (applyBudgets rm (InitBudget rm (mkBuilder rptr0 data0 b) n T) buds).data = data0 ∧
    (applyBudgets rm (InitBudget rm (mkBuilder rptr0 data0 b) n T) buds).base_row_offset = b ∧
    (applyBudgets rm (InitBudget rm (mkBuilder rptr0 data0 b) n T) buds).thread_displacement =
      dispOf rm b n T ∧
    (applyBudgets rm (InitBudget rm (mkBuilder rptr0 data0 b) n T) buds).thread_rptr.length = T ∧
    (∀ t, t < T →
      (applyBudgets rm (InitBudget rm (mkBuilder rptr0 data0 b) n T) buds).thread_rptr.getD t [] =
        budFold rm b (dispOf rm b n T) t
          (List.replicate (slotSize rm b n T t) 0) (buds.getD t [])) := by
  have hsc := InitBudget_scalars rm (mkBuilder rptr0 data0 b) n T
  have hbf := InitBudget_buffers rm (mkBuilder rptr0 data0 b) n T rfl
  have hbase : (mkBuilder rptr0 data0 b : Builder α).base_row_offset = b := rfl
  rw [hbase] at hsc hbf
  have haux := applyBudgets_aux rm buds (List.range buds.length)
    (InitBudget rm (mkBuilder rptr0 data0 b) n T)
    (List.nodup_range _)
    (by
      intro j hj
      rw [hbf.1]
      rw [List.mem_range] at hj
      omega)
  have hshow : applyBudgets rm (InitBudget rm (mkBuilder rptr0 data0 b) n T) buds =
      (List.range buds.length).foldl
        (fun acc t => applyBudgetList rm t acc (buds.getD t []))
        (InitBudget rm (mkBuilder rptr0 data0 b) n T) := rfl
  rw [hshow]
  have hb0 : (InitBudget rm (mkBuilder rptr0 data0 b) n T).base_row_offset = b :=
    hsc.2.2.1
  have hd0 : (InitBudget rm (mkBuilder rptr0 data0 b) n T).thread_displacement =
      dispOf rm b n T := hsc.2.2.2
  refine ⟨by rw [haux.1, hsc.1]; rfl, by rw [haux.2.1, hsc.2.1]; rfl,
    by rw [haux.2.2.1, hb0], by rw [haux.2.2.2.1, hd0],
    by rw [haux.2.2.2.2.1, hbf.1], ?_⟩
  intro t ht
  rw [haux.2.2.2.2.2 t, if_pos (by rw [List.mem_range]; omega), hb0, hd0,
    hbf.2 t ht]

/-! Lemmas about padTo and maxLen for claim C10. -/

theorem foldlLen_ge_init (l : List (List Nat)) :
    ∀ a, a ≤ l.foldl (fun x tr => max x tr.length) a := by
  induction l with
  | nil => intro a; exact Nat.le_refl a
  | cons tr rest ih =>
      intro a
      exact Nat.le_trans (Nat.le_max_left a tr.length) (ih _)

theorem maxLen_cons (tr : List Nat) (rest : List (List Nat)) :
    maxLen (tr :: rest) = rest.foldl (fun x t2 => max x t2.length) tr.length := by
  unfold maxLen
  show rest.foldl (fun x t2 => max x t2.length) (max 0 tr.length) = _
  rw [Nat.zero_max]

theorem foldlLen_mono_init :
    ∀ (l : List (List Nat)) (a a2 : Nat), a ≤ a2 →
      l.foldl (fun x tr => max x tr.length) a ≤
        l.foldl (fun x tr => max x tr.length) a2 := by
  intro l
  induction l with
  | nil => intro a a2 h; exact h
  | cons u us ih =>
      intro a a2 h
      show us.foldl _ (max a u.length) ≤ us.foldl _ (max a2 u.length)
      exact ih _ _ (by omega)

theorem maxLen_ge_mem : ∀ (ts : List (List Nat)) (t : Nat), t < ts.length →
    (ts.getD t []).length ≤ maxLen ts := by
  intro ts
  induction ts with
  | nil => intro t h; simp at h
  | cons tr rest ih =>
      intro t ht
      rw [maxLen_cons]
      cases t with
      | zero => exact foldlLen_ge_init rest tr.length
      | succ t' =>
          rw [gd_cons_succ]
          have h1 := ih t' (by simpa using Nat.lt_of_succ_lt_succ ht)
          rw [maxLen] at h1
          calc (rest.getD t' []).length
              ≤ rest.foldl (fun x t2 => max x t2.length) 0 := h1
            _ ≤ rest.foldl (fun x t2 => max x t2.length) tr.length :=
                foldlLen_mono_init rest 0 tr.length (Nat.zero_le _)

theorem foldl_len_bound (b : Nat) :
    ∀ (rest : List (List Nat)) (a c : Nat), c + b + 1 ≤ a →
      rest.foldl (fun x tr => max x tr.length) c + b + 1 ≤ sharedR a b rest := by
  intro rest
  induction rest with
  | nil => intro a c h; exact h
  | cons tr us ih =>
      intro a c h
      show us.foldl _ (max c tr.length) + b + 1 ≤
        sharedR (max a (tr.length + b + 1)) b us
      apply ih
      have h1 : c ≤ max a (tr.length + b + 1) - b - 1 := by
        have := Nat.le_max_left a (tr.length + b + 1)
        omega
      have h2 : tr.length + b + 1 ≤ max a (tr.length + b + 1) :=
        Nat.le_max_right _ _
      have h3 : c + b + 1 ≤ max a (tr.length + b + 1) :=
        Nat.le_trans h (Nat.le_max_left _ _)
      omega

theorem maxLen_bound (b : Nat) (ts : List (List Nat)) (a : Nat)
    (hts : 1 ≤ ts.length) : maxLen ts + b + 1 ≤ sharedR a b ts := by
  cases ts with
  | nil => simp at hts
  | cons tr rest =>
      rw [maxLen_cons, sharedR_cons]
      exact foldl_len_bound b rest _ tr.length (Nat.le_max_right _ _)

theorem padTo_length (ts : List (List Nat)) :
    (padTo ts).length = ts.length := by
  unfold padTo
  rw [List.length_map]

theorem gd_map {α β : Type} (f : α → β) :
    ∀ (l : List α) (t : Nat), t < l.length → ∀ (d : α) (d2 : β),
      (l.map f).getD t d2 = f (l.getD t d) := by
  intro l
  induction l with
  | nil => intro t ht; simp at ht
  | cons x xs ih =>
      intro t ht d d2
      cases t with
      | zero => rfl
      | succ t' =>
          rw [List.map_cons, gd_cons_succ, gd_cons_succ]
          exact ih t' (by simpa using Nat.lt_of_succ_lt_succ ht) d d2

theorem padTo_gd (ts : List (List Nat)) (t : Nat) (ht : t < ts.length) :
    (padTo ts).getD t [] =
      ts.getD t [] ++ List.replicate (maxLen ts - (ts.getD t []).length) 0 := by
  unfold padTo
  exact gd_map _ ts t ht [] []

theorem padTo_gd_length (ts : List (List Nat)) (t : Nat) (ht : t < ts.length) :
    ((padTo ts).getD t []).length = maxLen ts := by
  rw [padTo_gd ts t ht, List.length_append, List.length_replicate]
  have := maxLen_ge_mem ts t ht
  omega

theorem rowContrib_eq_of_terms :
    ∀ (ts1 ts2 : List (List Nat)) (b i : Nat), ts1.length = ts2.length →
      (∀ t, t < ts1.length →
        (if i < (ts1.getD t []).length + b then (ts1.getD t []).getD (i - b) 0 else 0) =
        (if i < (ts2.getD t []).length + b then (ts2.getD t []).getD (i - b) 0 else 0)) →
      rowContrib ts1 b i = rowContrib ts2 b i := by
  intro ts1
  induction ts1 with
  | nil =>
      intro ts2 b i hlen _
      cases ts2 with
      | nil => rfl
      | cons u us => simp at hlen
  | cons tr rest ih =>
      intro ts2 b i hlen hterm
      cases ts2 with
      | nil => simp at hlen
      | cons u us =>
          rw [rowContrib_cons, rowContrib_cons]
          have h0 := hterm 0 (by simp)
          rw [gd_cons_zero, gd_cons_zero] at h0
          rw [h0, ih us b i (by simpa using hlen) (fun t ht => by
            have := hterm (t + 1) (by simpa using Nat.succ_lt_succ ht)
            rwa [gd_cons_succ, gd_cons_succ] at this)]

theorem padTo_term_eq (ts : List (List Nat)) (b i t : Nat)
    (ht : t < ts.length) :
    (if i < ((padTo ts).getD t []).length + b
     then ((padTo ts).getD t []).getD (i - b) 0 else 0) =
    (if i < (ts.getD t []).length + b
     then (ts.getD t []).getD (i - b) 0 else 0) := by
  rw [padTo_gd ts t ht]
  rw [List.length_append, List.length_replicate]
  by_cases h1 : i < (ts.getD t []).length + b
  · rw [if_pos (by omega), if_pos h1]
    by_cases h2 : i - b < (ts.getD t []).length
    · rw [gd_append_left h2]
    · push_neg at h2
      rw [gd_append_right h2, gd_oob h2]
      by_cases h3 : i - b - (ts.getD t []).length <
          maxLen ts - (ts.getD t []).length
      · rw [gd_replicate h3]
      · rw [gd_oob (by rw [List.length_replicate]; omega)]
  · rw [if_neg h1]
    by_cases h4 : i < (ts.getD t []).length +
        (maxLen ts - (ts.getD t []).length) + b
    · rw [if_pos h4, gd_append_right (by omega),
        gd_replicate (by omega)]
    · rw [if_neg h4]

theorem rowContrib_padTo (ts : List (List Nat)) (b i : Nat) :
    rowContrib (padTo ts) b i = rowContrib ts b i := by
  apply rowContrib_eq_of_terms _ _ b i (padTo_length ts)
  intro t ht
  rw [padTo_length] at ht
  exact padTo_term_eq ts b i t ht

theorem cumFrom_ext (ts1 ts2 : List (List Nat)) (b : Nat)
    (h : ∀ i, rowContrib ts1 b i = rowContrib ts2 b i) :
    ∀ m d, cumFrom ts1 b d m = cumFrom ts2 b d m := by
  intro m
  induction m with
  | zero => intro d; rfl
  | succ m' ih =>
      intro d
      rw [cumFrom_succ_front, cumFrom_succ_front, h (b + d), ih (d + 1)]

theorem sharedR_padTo (b : Nat) (ts : List (List Nat)) (a : Nat)
    (hts : 1 ≤ ts.length) :
    sharedR a b (padTo ts) = sharedR a b ts := by
  apply Nat.le_antisymm
  · apply sharedR_le
    · exact sharedR_ge_init b ts a
    · intro t ht
      rw [padTo_length] at ht
      rw [padTo_gd_length ts t ht]
      exact maxLen_bound b ts a hts
  · apply sharedR_le
    · exact sharedR_ge_init b (padTo ts) a
    · intro t ht
      have h1 : ((padTo ts).getD t []).length = maxLen ts :=
        padTo_gd_length ts t ht
      have h2 := sharedR_ge_mem b (padTo ts) a t (by rwa [padTo_length])
      rw [h1] at h2
      have h3 := maxLen_ge_mem ts t ht
      omega

/-- Claim C10: in shared mode, when some thread buffers are shorter than
others (a thread never budgeted the higher keys), InitStorage's merge
skips the short buffer at the missing keys and treats its contribution
as zero, so the offset array it builds equals the one built from the
state in which every buffer is zero-padded to the longest buffer
length. -/
theorem C10_shared_merge_zero_pad {α : Type} [Inhabited α]
    (bld : Builder α) (hts : 1 ≤ bld.thread_rptr.length)
    (hshape : bld.rptr.length ≤ bld.base_row_offset + 1) :
    (InitStorage false bld).rptr =
      (InitStorage false
        { bld with thread_rptr := padTo bld.thread_rptr }).rptr := by
  obtain ⟨c1, c2, c3, c4, _, _, _, _, _, _, _⟩ :=
    InitStorage_shared_char bld hts hshape
  obtain ⟨p1, p2, p3, p4, _, _, _, _, _, _, _⟩ :=
    InitStorage_shared_char { bld with thread_rptr := padTo bld.thread_rptr }
      (by
        show 1 ≤ (padTo bld.thread_rptr).length
        rwa [padTo_length])
      hshape
  dsimp only at p1 p2 p3 p4
  have hReq : sharedR bld.rptr.length bld.base_row_offset
      (padTo bld.thread_rptr) =
      sharedR bld.rptr.length bld.base_row_offset bld.thread_rptr :=
    sharedR_padTo _ _ _ hts
  have hcum : ∀ m d,
      cumFrom (padTo bld.thread_rptr) bld.base_row_offset d m =
        cumFrom bld.thread_rptr bld.base_row_offset d m :=
    cumFrom_ext _ _ _ (fun i => rowContrib_padTo bld.thread_rptr _ i)
  apply ext_gd 0
  · rw [c1, p1, hReq]
  · intro i hi
    rw [c1] at hi
    by_cases hib : i < bld.base_row_offset
    · by_cases hil : i < bld.rptr.length
      · rw [c2 i hib hil, p2 i hib hil]
      · rw [c3 i hib (by omega), p3 i hib (by omega)]
    · rw [c4 i (by omega) hi, p4 i (by omega) (by rw [hReq]; omega),
        hcum]

/-- Witness for C10: two threads with buffers of unequal length. -/
theorem C10_witness :
    1 ≤ ([[1], [5, 7]] : List (List Nat)).length ∧
    ([0] : List Nat).length ≤ 0 + 1 ∧
    (InitStorage false (⟨[0], [], [[1], [5, 7]], 0, 0⟩ : Builder Nat)).rptr =
      (InitStorage false
        ({ (⟨[0], [], [[1], [5, 7]], 0, 0⟩ : Builder Nat) with
            thread_rptr := padTo [[1], [5, 7]] })).rptr :=
  ⟨by decide, by decide,
    C10_shared_merge_zero_pad (⟨[0], [], [[1], [5, 7]], 0, 0⟩ : Builder Nat)
      (by decide) (by decide)⟩

/-- Claim C4: after every completed InitStorage call, in either mode, on
a fresh build (empty offset array, base 0) or an incremental one (offset
array of length base+1), the offset array is non-decreasing at every
adjacent pair, its entry at index base_row_offset equals the total from
before this build (its previous last entry, 0 on a fresh build), and its
last entry equals the new length of the data array. -/
theorem C4_offset_array_invariants {α : Type} [Inhabited α] (rm : Bool)
    (bld : Builder α) (hts : 1 ≤ bld.thread_rptr.length)
    (hshape : (bld.base_row_offset = 0 ∧ bld.rptr = []) ∨
      bld.rptr.length = bld.base_row_offset + 1)
    (hmono : NonDecr bld.rptr) :
    NonDecr (InitStorage rm bld).rptr ∧
    (InitStorage rm bld).rptr.getD bld.base_row_offset 0 =
      bld.rptr.getLastD 0 ∧
    (InitStorage rm bld).rptr.getLastD 0 = (InitStorage rm bld).data.length := by
  have hsh2 : bld.rptr.length ≤ bld.base_row_offset + 1 := by
    rcases hshape with ⟨hb, he⟩ | hl
    · rw [he]
      simp
    · omega
  cases rm with
  | true =>
      obtain ⟨c1, c2, c3, c4, _, _, _, cdata, clast, _, _⟩ :=
        InitStorage_rm_char bld hsh2
      have hRb : bld.base_row_offset <
          (bld.thread_rptr.map List.length).sum + bld.base_row_offset + 1 := by
        omega
      refine ⟨?_, ?_, ?_⟩
      · intro i hi
        rw [c1] at hi
        by_cases hc : bld.base_row_offset ≤ i
        · rw [c4 i hc (by omega), c4 (i + 1) (by omega) (by omega)]
          have := flatCum_mono bld.thread_rptr (i - bld.base_row_offset)
            (i + 1 - bld.base_row_offset) (by omega)
          omega
        · push_neg at hc
          rcases hshape with ⟨hb, _⟩ | hl
          · omega
          · by_cases hc2 : i + 1 < bld.base_row_offset
            · rw [c2 i (by omega) (by omega), c2 (i + 1) (by omega) (by omega)]
              exact hmono i (by omega)
            · have hieq : i + 1 = bld.base_row_offset := by omega
              rw [c2 i (by omega) (by omega), c4 (i + 1) (by omega) (by omega),
                hieq]
              have hz : bld.base_row_offset - bld.base_row_offset = 0 := by
                omega
              rw [hz, flatCum_zero, getLastD_eq_gd]
              have hlast2 : bld.rptr.length - 1 = i + 1 := by omega
              rw [hlast2]
              have := hmono i (by omega)
              omega
      · rw [c4 bld.base_row_offset (by omega) hRb]
        have hz : bld.base_row_offset - bld.base_row_offset = 0 := by omega
        rw [hz, flatCum_zero]
        omega
      · rw [cdata, length_resizeFill]
  | false =>
      obtain ⟨c1, c2, c3, c4, _, _, _, cdata, clast, _, _⟩ :=
        InitStorage_shared_char bld hts hsh2
      have hRb : bld.base_row_offset <
          sharedR bld.rptr.length bld.base_row_offset bld.thread_rptr := by
        have := sharedR_ge_mem bld.base_row_offset bld.thread_rptr
          bld.rptr.length 0 hts
        omega
      refine ⟨?_, ?_, ?_⟩
      · intro i hi
        rw [c1] at hi
        by_cases hc : bld.base_row_offset ≤ i
        · rw [c4 i hc (by omega), c4 (i + 1) (by omega) (by omega)]
          have := cumFrom_mono bld.thread_rptr bld.base_row_offset
            (i - bld.base_row_offset) (i + 1 - bld.base_row_offset) (by omega)
          omega
        · push_neg at hc
          rcases hshape with ⟨hb, _⟩ | hl
          · omega
          · by_cases hc2 : i + 1 < bld.base_row_offset
            · rw [c2 i (by omega) (by omega), c2 (i + 1) (by omega) (by omega)]
              exact hmono i (by omega)
            · have hieq : i + 1 = bld.base_row_offset := by omega
              rw [c2 i (by omega) (by omega), c4 (i + 1) (by omega) (by omega),
                hieq]
              have hz : bld.base_row_offset - bld.base_row_offset = 0 := by
                omega
              rw [hz, cumFrom_zero, getLastD_eq_gd]
              have hlast2 : bld.rptr.length - 1 = i + 1 := by omega
              rw [hlast2]
              have := hmono i (by omega)
              omega
      · rw [c4 bld.base_row_offset (by omega) hRb]
        have hz : bld.base_row_offset - bld.base_row_offset = 0 := by omega
        rw [hz, cumFrom_zero]
        omega
      · rw [cdata, length_resizeFill]

/-- Witness for C4: an incremental shared-mode state with base 2. -/
theorem C4_witness :
    1 ≤ ([[3], [1]] : List (List Nat)).length ∧
    ((2 = 0 ∧ ([0, 4, 5] : List Nat) = []) ∨ ([0, 4, 5] : List Nat).length = 2 + 1) ∧
    NonDecr [0, 4, 5] ∧
    (NonDecr (InitStorage false (⟨[0, 4, 5], [10, 11, 12, 13, 14], [[3], [1]], 2, 0⟩ : Builder Nat)).rptr ∧
     (InitStorage false (⟨[0, 4, 5], [10, 11, 12, 13, 14], [[3], [1]], 2, 0⟩ : Builder Nat)).rptr.getD 2 0 = ([0, 4, 5] : List Nat).getLastD 0 ∧
     (InitStorage false (⟨[0, 4, 5], [10, 11, 12, 13, 14], [[3], [1]], 2, 0⟩ : Builder Nat)).rptr.getLastD 0 =
       (InitStorage false (⟨[0, 4, 5], [10, 11, 12, 13, 14], [[3], [1]], 2, 0⟩ : Builder Nat)).data.length) :=
  ⟨by decide, by decide, by
    intro i hi
    simp only [List.length_cons, List.length_nil] at hi
    have hi2 : i < 2 := by omega
    interval_cases i <;> decide,
   C4_offset_array_invariants false
     (⟨[0, 4, 5], [10, 11, 12, 13, 14], [[3], [1]], 2, 0⟩ : Builder Nat)
     (by decide) (by decide) (by
       intro i hi
       simp only [List.length_cons, List.length_nil] at hi
       have hi2 : i < 2 := by omega
       interval_cases i <;> decide)⟩

/-! Buffer lengths after a growth-free budget phase, and claim C5. -/

theorem sum_map_length_of_gd :
    ∀ (ts : List (List Nat)) (g : Nat → Nat),
      (∀ t, t < ts.length → (ts.getD t []).length = g t) →
      (ts.map List.length).sum = ((List.range ts.length).map g).sum := by
  intro ts
  induction ts with
  | nil => intro g _; rfl
  | cons tr rest ih =>
      intro g h
      rw [List.map_cons, List.sum_cons, List.length_cons,
        List.range_succ_eq_map, List.map_cons, List.sum_cons, List.map_map]
      have h0 : tr.length = g 0 := h 0 (by simp)
      have hrest := ih (fun t => g (t + 1)) (fun t ht => by
        have := h (t + 1) (by simpa using Nat.succ_lt_succ ht)
        rwa [gd_cons_succ] at this)
      rw [h0, hrest]
      rfl

theorem sum_map_const_range (v : Nat) :
    ∀ k, ((List.range k).map (fun _ => v)).sum = k * v := by
  intro k
  induction k with
  | zero => simp
  | succ k2 ih =>
      rw [List.range_succ, List.map_append, List.sum_append, ih]
      show k2 * v + (v + 0) = (k2 + 1) * v
      ring

theorem range_sum_slot_rm (b n T : Nat) (hT : 1 ≤ T) :
    ((List.range T).map (fun t => slotSize true b n T t)).sum = n := by
  cases T with
  | zero => omega
  | succ k =>
      rw [List.range_succ, List.map_append, List.sum_append]
      have hlast : ((List.range k).map (fun t => slotSize true b n (k + 1) t)).sum =
          ((List.range k).map (fun _ => dispOf true b n (k + 1))).sum := by
        apply congrArg
        apply List.map_congr_left
        intro t ht
        rw [List.mem_range] at ht
        unfold slotSize
        rw [if_pos rfl, if_neg (by omega)]
      rw [hlast]
      rw [sum_map_const_range (dispOf true b n (k + 1)) k]
      show k * dispOf true b n (k + 1) + (slotSize true b n (k + 1) k + 0) = n
      unfold slotSize dispOf fullSize
      rw [if_pos rfl, if_pos rfl, if_pos rfl, if_pos rfl]
      have h1 : n / (k + 1) * (k + 1) ≤ n := Nat.div_mul_le_self n (k + 1)
      have h2 : (k + 1 - 1) * (n / (k + 1)) = k * (n / (k + 1)) := by
        congr 1
      have h3 : k * (n / (k + 1)) ≤ n := by
        calc k * (n / (k + 1)) ≤ (k + 1) * (n / (k + 1)) :=
              Nat.mul_le_mul_right _ (by omega)
          _ = n / (k + 1) * (k + 1) := Nat.mul_comm _ _
          _ ≤ n := h1
      rw [h2]
      omega

theorem budgetPhase_lengths {α : Type} (rm : Bool) (rptr0 : List Nat)
    (data0 : List α) (b n T : Nat) (buds : List (List (Nat × Nat)))
    (hbud : buds.length = T)
    (hvalid : ∀ t, t < T → ∀ p ∈ buds.getD t [],
      offsetKey rm b (dispOf rm b n T) p.1 t + 1 ≤ slotSize rm b n T t) :
    ∀ t, t < T →
      ((applyBudgets rm (InitBudget rm (mkBuilder rptr0 data0 b) n T)
        buds).thread_rptr.getD t []).length = slotSize rm b n T t := by
  intro t ht
  obtain ⟨_, _, _, _, _, hbuf⟩ :=
    budgetPhase_char rm rptr0 data0 b n T buds hbud
  rw [hbuf t ht]
  rw [budFold_length rm b (dispOf rm b n T) t (buds.getD t [])
    (List.replicate (slotSize rm b n T t) 0)
    (by
      intro p hp
      rw [List.length_replicate]
      have := hvalid t ht p hp
      omega)]
  rw [List.length_replicate]

/-- Counterpart of claim C5 after correction.  For a build over keys that
stay within the InitBudget sizing hint (no on-demand growth), started
fresh or incrementally with the protocol shape, InitStorage leaves the
offset array at length max_key + 1 in shared mode but at length
max_key + base_row_offset + 1 in partitioned (row-major) mode, because
InitBudget sizes the partitioned slices from max_key without subtracting
base_row_offset. -/
theorem C5_amended_offset_length {α : Type} [Inhabited α] (rm : Bool)
    (rptr0 : List Nat) (data0 : List α) (b n T : Nat)
    (buds : List (List (Nat × Nat)))
    (hT : 1 ≤ T) (hbn : b ≤ n)
    (hshape : (b = 0 ∧ rptr0 = []) ∨ rptr0.length = b + 1)
    (hbud : buds.length = T)
    (hvalid : ∀ t, t < T → ∀ p ∈ buds.getD t [],
      offsetKey rm b (dispOf rm b n T) p.1 t + 1 ≤ slotSize rm b n T t) :
    (runProtocol rm b rptr0 data0 n T buds []).rptr.length =
      if rm then n + b + 1 else n + 1 := by
  have hrun : runProtocol rm b rptr0 data0 n T buds [] =
      InitStorage rm
        (applyBudgets rm (InitBudget rm (mkBuilder rptr0 data0 b) n T) buds) :=
    rfl
  obtain ⟨hb1, hb2, hb3, hb4, hb5, hb6⟩ :=
    budgetPhase_char rm rptr0 data0 b n T buds hbud
  have hlens := budgetPhase_lengths rm rptr0 data0 b n T buds hbud hvalid
  have hsh2 : (applyBudgets rm (InitBudget rm (mkBuilder rptr0 data0 b) n T)
      buds).rptr.length ≤
      (applyBudgets rm (InitBudget rm (mkBuilder rptr0 data0 b) n T)
        buds).base_row_offset + 1 := by
    rw [hb1, hb3]
    rcases hshape with ⟨_, he⟩ | hl
    · rw [he]
      simp
    · omega
  rw [hrun]
  cases rm with
  | true =>
      obtain ⟨c1, _⟩ := InitStorage_rm_char
        (applyBudgets true (InitBudget true (mkBuilder rptr0 data0 b) n T) buds)
        hsh2
      rw [c1, hb3]
      have hsum : ((applyBudgets true (InitBudget true (mkBuilder rptr0 data0 b) n T)
          buds).thread_rptr.map List.length).sum = n := by
        rw [sum_map_length_of_gd _ (fun t => slotSize true b n T t)
          (fun t ht => hlens t (by rw [← hb5]; exact ht)), hb5]
        exact range_sum_slot_rm b n T hT
      rw [hsum]
      rfl
  | false =>
      obtain ⟨c1, _⟩ := InitStorage_shared_char
        (applyBudgets false (InitBudget false (mkBuilder rptr0 data0 b) n T) buds)
        (by rw [hb5]; omega)
        hsh2
      rw [c1, hb1, hb3]
      have hslot : ∀ t, t < T → slotSize false b n T t = n - b := by
        intro t _
        unfold slotSize fullSize
        simp only [Bool.false_eq_true, if_false]
        omega
      have hle : sharedR rptr0.length b
          (applyBudgets false (InitBudget false (mkBuilder rptr0 data0 b) n T)
            buds).thread_rptr ≤ n + 1 := by
        apply sharedR_le
        · rcases hshape with ⟨_, he⟩ | hl
          · rw [he]
            simp
          · omega
        · intro t ht
          rw [hb5] at ht
          rw [hlens t ht, hslot t ht]
          omega
      have hge : n + 1 ≤ sharedR rptr0.length b
          (applyBudgets false (InitBudget false (mkBuilder rptr0 data0 b) n T)
            buds).thread_rptr := by
        have h0 := sharedR_ge_mem b
          (applyBudgets false (InitBudget false (mkBuilder rptr0 data0 b) n T)
            buds).thread_rptr rptr0.length 0 (by rw [hb5]; omega)
        rw [hlens 0 (by omega), hslot 0 (by omega)] at h0
        omega
      rw [show (if false = true then n + b + 1 else n + 1) = n + 1 from rfl]
      omega

/-- Witness for claim C5's amended statement: incremental partitioned
build, base 1, max_key 2, one thread, one budgeted key. -/
theorem C5_amended_witness :
    1 ≤ 1 ∧ 1 ≤ 2 ∧
    ((1 = 0 ∧ ([0, 0] : List Nat) = []) ∨ ([0, 0] : List Nat).length = 1 + 1) ∧
    ([[(1, 1)]] : List (List (Nat × Nat))).length = 1 ∧
    (∀ t, t < 1 → ∀ p ∈ ([[(1, 1)]] : List (List (Nat × Nat))).getD t [],
      offsetKey true 1 (dispOf true 1 2 1) p.1 t + 1 ≤ slotSize true 1 2 1 t) ∧
    (runProtocol true 1 [0, 0] ([] : List Nat) 2 1 [[(1, 1)]] []).rptr.length =
      if true then 2 + 1 + 1 else 2 + 1 :=
  ⟨by decide, by decide, by decide, by decide, by decide,
    C5_amended_offset_length true [0, 0] ([] : List Nat) 1 2 1 [[(1, 1)]]
      (by decide) (by decide) (by decide) (by decide) (by decide)⟩

/-! The push phase: single-thread replay characterization. -/

theorem cntKey_cons {α : Type} (k : Nat) (v : α) (rest : List (Nat × α))
    (j : Nat) :
    cntKey ((k, v) :: rest) j = (if k = j then 1 else 0) + cntKey rest j := by
  unfold cntKey
  by_cases h : k = j
  · rw [List.filter_cons_of_pos (by simpa using h), List.length_cons,
      if_pos h]
    omega
  · rw [List.filter_cons_of_neg (by simpa using h), if_neg h]
    omega

theorem valsKey_cons {α : Type} (k : Nat) (v : α) (rest : List (Nat × α))
    (j : Nat) :
    valsKey ((k, v) :: rest) j =
      if k = j then v :: valsKey rest j else valsKey rest j := by
  unfold valsKey
  by_cases h : k = j
  · rw [List.filter_cons_of_pos (by simpa using h), List.map_cons, if_pos h]
  · rw [List.filter_cons_of_neg (by simpa using h), if_neg h]

theorem valsKey_length {α : Type} (rsl : List (Nat × α)) (j : Nat) :
    (valsKey rsl j).length = cntKey rsl j := by
  unfold valsKey cntKey
  rw [List.length_map]

theorem cntKey_pos {α : Type} :
    ∀ (rsl : List (Nat × α)) (j : Nat), 0 < cntKey rsl j →
      ∃ p ∈ rsl, p.1 = j := by
  intro rsl
  induction rsl with
  | nil => intro j h; simp [cntKey] at h
  | cons p rest ih =>
      intro j h
      obtain ⟨k, v⟩ := p
      rw [cntKey_cons] at h
      by_cases hk : k = j
      · exact ⟨(k, v), by simp, hk⟩
      · rw [if_neg hk] at h
        obtain ⟨q, hq, hqj⟩ := ih j (by omega)
        exact ⟨q, by simp [hq], hqj⟩

theorem pushLocRun_cons {α : Type} (d : List α) (tr : List Nat) (j : Nat)
    (v : α) (rest : List (Nat × α)) :
    pushLocRun d tr ((j, v) :: rest) =
      ((pushLocRun (d.set (tr.getD j 0) v) (tr.set j (tr.getD j 0 + 1)) rest).1,
       (pushLocRun (d.set (tr.getD j 0) v) (tr.set j (tr.getD j 0 + 1)) rest).2.1,
       tr.getD j 0 ::
         (pushLocRun (d.set (tr.getD j 0) v) (tr.set j (tr.getD j 0 + 1)) rest).2.2) := by
  conv_lhs => rw [pushLocRun]

theorem pushLocRun_spec {α : Type} (dflt : α) :
    ∀ (rsl : List (Nat × α)) (d : List α) (tr : List Nat),
      (∀ p ∈ rsl, p.1 < tr.length) →
      (∀ j, j < tr.length → tr.getD j 0 + cntKey rsl j ≤ d.length) →
      (∀ j1 j2, j1 < tr.length → j2 < tr.length → j1 ≠ j2 →
        0 < cntKey rsl j1 → 0 < cntKey rsl j2 →
        tr.getD j1 0 + cntKey rsl j1 ≤ tr.getD j2 0 ∨
        tr.getD j2 0 + cntKey rsl j2 ≤ tr.getD j1 0) →
      (pushLocRun d tr rsl).1.length = d.length ∧
      (pushLocRun d tr rsl).2.1.length = tr.length ∧
      (∀ j, (pushLocRun d tr rsl).2.1.getD j 0 =
        tr.getD j 0 + cntKey rsl j) ∧
      (∀ j r, r < cntKey rsl j →
        (pushLocRun d tr rsl).1.getD (tr.getD j 0 + r) dflt =
          (valsKey rsl j).getD r dflt) ∧
      (∀ q, (∀ j, j < tr.length → cntKey rsl j = 0 ∨ q < tr.getD j 0 ∨
          tr.getD j 0 + cntKey rsl j ≤ q) →
        (pushLocRun d tr rsl).1.getD q dflt = d.getD q dflt) := by
  intro rsl
  induction rsl with
  | nil =>
      intro d tr _ _ _
      refine ⟨rfl, rfl, ?_, ?_, ?_⟩
      · intro j
        show tr.getD j 0 = tr.getD j 0 + cntKey ([] : List (Nat × α)) j
        unfold cntKey
        simp
      · intro j r hr
        unfold cntKey at hr
        simp at hr
      · intro q _
        rfl
  | cons p rest ih =>
      intro d tr hkeys hbound hdisj
      obtain ⟨j0, v⟩ := p
      have hj0 : j0 < tr.length := hkeys (j0, v) (by simp)
      have hcnt0 : 0 < cntKey ((j0, v) :: rest) j0 := by
        rw [cntKey_cons, if_pos rfl]
        omega
      rw [pushLocRun_cons]
      have hlen_set : (tr.set j0 (tr.getD j0 0 + 1)).length = tr.length :=
        List.length_set _ _ _
      have hdlen_set : (d.set (tr.getD j0 0) v).length = d.length :=
        List.length_set _ _ _
      have hcur0 : (tr.set j0 (tr.getD j0 0 + 1)).getD j0 0 =
          tr.getD j0 0 + 1 :=
        gd_set_eq hj0 _ _
      have hcur1 : ∀ j, j0 ≠ j →
          (tr.set j0 (tr.getD j0 0 + 1)).getD j 0 = tr.getD j 0 :=
        fun j h => gd_set_ne h _ _
      have hcnt0e : cntKey ((j0, v) :: rest) j0 = 1 + cntKey rest j0 := by
        rw [cntKey_cons, if_pos rfl]
      have hcnt1 : ∀ j, j0 ≠ j →
          cntKey ((j0, v) :: rest) j = cntKey rest j := by
        intro j h
        rw [cntKey_cons, if_neg h]
        omega
      obtain ⟨ih1, ih2, ih3, ih4, ih5⟩ :=
        ih (d.set (tr.getD j0 0) v) (tr.set j0 (tr.getD j0 0 + 1))
          (by
            intro q hq
            rw [hlen_set]
            exact hkeys q (by simp [hq]))
          (by
            intro j hj
            rw [hlen_set] at hj
            rw [hdlen_set]
            have hb := hbound j hj
            by_cases h : j0 = j
            · subst h
              rw [hcur0]
              rw [hcnt0e] at hb
              omega
            · rw [hcur1 j h]
              rw [hcnt1 j h] at hb
              omega)
          (by
            intro j1 j2 hj1 hj2 hne hc1 hc2
            rw [hlen_set] at hj1 hj2
            by_cases h1 : j0 = j1
            · subst h1
              have h2 : j0 ≠ j2 := hne
              have hd := hdisj j0 j2 hj1 hj2 hne
                (by rw [hcnt0e]; omega) (by rw [hcnt1 j2 h2]; omega)
              rw [hcnt0e, hcnt1 j2 h2] at hd
              rw [hcur0, hcur1 j2 h2]
              omega
            · by_cases h2 : j0 = j2
              · subst h2
                have hd := hdisj j1 j0 hj1 hj2 hne
                  (by rw [hcnt1 j1 h1]; omega) (by rw [hcnt0e]; omega)
                rw [hcnt1 j1 h1, hcnt0e] at hd
                rw [hcur1 j1 h1, hcur0]
                omega
              · have hd := hdisj j1 j2 hj1 hj2 hne
                  (by rw [hcnt1 j1 h1]; omega) (by rw [hcnt1 j2 h2]; omega)
                rw [hcnt1 j1 h1, hcnt1 j2 h2] at hd
                rw [hcur1 j1 h1, hcur1 j2 h2]
                omega)
      refine ⟨?_, ?_, ?_, ?_, ?_⟩
      · rw [ih1, hdlen_set]
      · rw [ih2, hlen_set]
      · intro j
        rw [ih3 j]
        by_cases h : j0 = j
        · subst h
          rw [hcur0, hcnt0e]
          omega
        · rw [hcur1 j h, hcnt1 j h]
      · intro j r hr
        by_cases hjj : j0 = j
        · subst hjj
          rw [valsKey_cons, if_pos rfl]
          cases r with
          | zero =>
              show (pushLocRun (d.set (tr.getD j0 0) v)
                  (tr.set j0 (tr.getD j0 0 + 1)) rest).1.getD
                  (tr.getD j0 0) dflt = (v :: valsKey rest j0).getD 0 dflt
              rw [ih5 (tr.getD j0 0) (by
                intro j hj
                rw [hlen_set] at hj
                by_cases hje : j0 = j
                · subst hje
                  rw [hcur0]
                  omega
                · rw [hcur1 j hje]
                  by_cases hc : 0 < cntKey rest j
                  · have hd := hdisj j0 j hj0 hj hje hcnt0
                      (by rw [hcnt1 j hje]; omega)
                    rw [hcnt0e, hcnt1 j hje] at hd
                    omega
                  · left
                    omega)]
              rw [gd_set_eq (by
                have hb := hbound j0 hj0
                rw [hcnt0e] at hb
                omega) v dflt]
              rfl
          | succ r2 =>
              rw [hcnt0e] at hr
              have hstep := ih4 j0 r2 (by omega)
              rw [hcur0] at hstep
              have harith : tr.getD j0 0 + (r2 + 1) =
                  tr.getD j0 0 + 1 + r2 := by omega
              rw [harith, hstep]
              rfl
        · have hr2 : r < cntKey rest j := by
            rw [hcnt1 j hjj] at hr
            exact hr
          have hstep := ih4 j r hr2
          rw [hcur1 j hjj] at hstep
          rw [hstep, valsKey_cons, if_neg hjj]
      · intro q hq
        have hq0 := hq j0 hj0
        rw [hcnt0e] at hq0
        have hstep : (pushLocRun (d.set (tr.getD j0 0) v)
            (tr.set j0 (tr.getD j0 0 + 1)) rest).1.getD q dflt =
            (d.set (tr.getD j0 0) v).getD q dflt := by
          apply ih5
          intro j hj
          rw [hlen_set] at hj
          have hqj := hq j hj
          by_cases hje : j0 = j
          · subst hje
            rw [hcur0]
            rw [hcnt0e] at hqj
            omega
          · rw [hcur1 j hje]
            rw [hcnt1 j hje] at hqj
            omega
        rw [hstep, gd_set_ne (by omega) v dflt]

theorem recsLoc_cons {α : Type} (rm : Bool) (base disp t k : Nat) (v : α)
    (rest : List (Nat × α)) :
    recsLoc rm base disp t ((k, v) :: rest) =
      (offsetKey rm base disp k t, v) :: recsLoc rm base disp t rest := rfl

theorem applyPushList_eq {α : Type} (rm : Bool) (t : Nat) :
    ∀ (rs : List (Nat × α)) (bld : Builder α),
      applyPushList rm t bld rs = { bld with
        data := (pushLocRun bld.data (bld.thread_rptr.getD t [])
          (recsLoc rm bld.base_row_offset bld.thread_displacement t rs)).1,
        thread_rptr := bld.thread_rptr.set t
          (pushLocRun bld.data (bld.thread_rptr.getD t [])
            (recsLoc rm bld.base_row_offset bld.thread_displacement t rs)).2.1 } := by
  intro rs
  induction rs with
  | nil =>
      intro bld
      show bld = _
      have h1 : (pushLocRun bld.data (bld.thread_rptr.getD t [])
          (recsLoc rm bld.base_row_offset bld.thread_displacement t
            ([] : List (Nat × α)))).1 = bld.data := rfl
      have h2 : (pushLocRun bld.data (bld.thread_rptr.getD t [])
          (recsLoc rm bld.base_row_offset bld.thread_displacement t
            ([] : List (Nat × α)))).2.1 = bld.thread_rptr.getD t [] := rfl
      rw [h1, h2]
      by_cases ht : t < bld.thread_rptr.length
      · rw [set_getD_self _ _ _ ht]
      · rw [set_oob (by omega)]
  | cons p rest ih =>
      intro bld
      obtain ⟨k, v⟩ := p
      have hstep : applyPushList rm t bld ((k, v) :: rest) =
          applyPushList rm t (Push rm bld k v t) rest := rfl
      have hPush : Push rm bld k v t = { bld with
          data := bld.data.set
            ((bld.thread_rptr.getD t []).getD
              (offsetKey rm bld.base_row_offset bld.thread_displacement k t) 0) v,
          thread_rptr := bld.thread_rptr.set t
            ((bld.thread_rptr.getD t []).set
              (offsetKey rm bld.base_row_offset bld.thread_displacement k t)
              ((bld.thread_rptr.getD t []).getD
                (offsetKey rm bld.base_row_offset bld.thread_displacement k t) 0 + 1)) } := rfl
      rw [hstep, ih, hPush]
      rw [recsLoc_cons, pushLocRun_cons]
      dsimp only
      by_cases ht : t < bld.thread_rptr.length
      · rw [gd_set_eq ht, List.set_set]
      · have hset : ∀ w : List Nat, bld.thread_rptr.set t w = bld.thread_rptr :=
          fun w => set_oob (by omega) w
        have htr : bld.thread_rptr.getD t [] = ([] : List Nat) :=
          gd_oob (by omega) _
        simp only [hset, htr, List.set_nil]

theorem applyPushesAux_spec {α : Type} (dflt : α) (rm : Bool)
    (recs : List (List (Nat × α))) :
    ∀ (idxs : List Nat) (bld : Builder α), idxs.Nodup →
      (∀ i ∈ idxs, i < bld.thread_rptr.length) →
      (∀ t ∈ idxs, ∀ p ∈ locRecs rm bld recs t,
        p.1 < (bld.thread_rptr.getD t []).length) →
      (∀ t ∈ idxs, ∀ j, j < (bld.thread_rptr.getD t []).length →
        cellVal bld t j + cntKey (locRecs rm bld recs t) j ≤
          bld.data.length) →
      (∀ t1 ∈ idxs, ∀ t2 ∈ idxs,
        ∀ j1, j1 < (bld.thread_rptr.getD t1 []).length →
        ∀ j2, j2 < (bld.thread_rptr.getD t2 []).length →
        t1 ≠ t2 ∨ j1 ≠ j2 →
        0 < cntKey (locRecs rm bld recs t1) j1 →
        0 < cntKey (locRecs rm bld recs t2) j2 →
        cellVal bld t1 j1 + cntKey (locRecs rm bld recs t1) j1 ≤
          cellVal bld t2 j2 ∨
        cellVal bld t2 j2 + cntKey (locRecs rm bld recs t2) j2 ≤
          cellVal bld t1 j1) →
      (idxs.foldl (fun acc u => applyPushList rm u acc (recs.getD u [])) bld).rptr = bld.rptr ∧
      (idxs.foldl (fun acc u => applyPushList rm u acc (recs.getD u [])) bld).base_row_offset = bld.base_row_offset ∧
      (idxs.foldl (fun acc u => applyPushList rm u acc (recs.getD u [])) bld).thread_displacement = bld.thread_displacement ∧
      (idxs.foldl (fun acc u => applyPushList rm u acc (recs.getD u [])) bld).data.length = bld.data.length ∧
      (idxs.foldl (fun acc u => applyPushList rm u acc (recs.getD u [])) bld).thread_rptr.length = bld.thread_rptr.length ∧
      (∀ t, t ∉ idxs →
        (idxs.foldl (fun acc u => applyPushList rm u acc (recs.getD u [])) bld).thread_rptr.getD t [] =
          bld.thread_rptr.getD t []) ∧
      (∀ t ∈ idxs,
        ((idxs.foldl (fun acc u => applyPushList rm u acc (recs.getD u [])) bld).thread_rptr.getD t []).length =
          (bld.thread_rptr.getD t []).length) ∧
      (∀ t ∈ idxs, ∀ j,
        cellVal (idxs.foldl (fun acc u => applyPushList rm u acc (recs.getD u [])) bld) t j =
          cellVal bld t j + cntKey (locRecs rm bld recs t) j) ∧
      (∀ t ∈ idxs, ∀ j r, r < cntKey (locRecs rm bld recs t) j →
        (idxs.foldl (fun acc u => applyPushList rm u acc (recs.getD u [])) bld).data.getD
            (cellVal bld t j + r) dflt =
          (valsKey (locRecs rm bld recs t) j).getD r dflt) ∧
      (∀ q, (∀ t ∈ idxs, ∀ j, j < (bld.thread_rptr.getD t []).length →
          cntKey (locRecs rm bld recs t) j = 0 ∨ q < cellVal bld t j ∨
          cellVal bld t j + cntKey (locRecs rm bld recs t) j ≤ q) →
        (idxs.foldl (fun acc u => applyPushList rm u acc (recs.getD u [])) bld).data.getD q dflt =
          bld.data.getD q dflt) := by
  intro idxs
  induction idxs with
  | nil =>
      intro bld _ _ _ _ _
      refine ⟨rfl, rfl, rfl, rfl, rfl, fun t _ => rfl, ?_, ?_, ?_,
        fun q _ => rfl⟩
      · intro t ht
        simp at ht
      · intro t ht
        simp at ht
      · intro t ht
        simp at ht
  | cons i rest ih =>
      intro bld hnd hlt hk hb hd
      obtain ⟨hnotin, hndr⟩ := List.nodup_cons.mp hnd
      have hi : i < bld.thread_rptr.length := hlt i (List.mem_cons_self i rest)
      obtain ⟨p1, p2, p3, p4, p5⟩ :=
        pushLocRun_spec dflt (locRecs rm bld recs i) bld.data
          (bld.thread_rptr.getD i [])
          (hk i (List.mem_cons_self i rest))
          (fun j hj => hb i (List.mem_cons_self i rest) j hj)
          (fun j1 j2 hj1 hj2 hne hc1 hc2 =>
            hd i (List.mem_cons_self i rest) i (List.mem_cons_self i rest)
              j1 hj1 j2 hj2 (Or.inr hne) hc1 hc2)
      have hfold : (i :: rest).foldl
          (fun acc u => applyPushList rm u acc (recs.getD u [])) bld =
          rest.foldl (fun acc u => applyPushList rm u acc (recs.getD u []))
            { bld with
              data := (pushLocRun bld.data (bld.thread_rptr.getD i [])
                (locRecs rm bld recs i)).1,
              thread_rptr := bld.thread_rptr.set i
                (pushLocRun bld.data (bld.thread_rptr.getD i [])
                  (locRecs rm bld recs i)).2.1 } := by
        rw [List.foldl_cons]
        congr 1
        exact applyPushList_eq rm i (recs.getD i []) bld
      rw [hfold]
      set B1 : Builder α := { bld with
        data := (pushLocRun bld.data (bld.thread_rptr.getD i [])
          (locRecs rm bld recs i)).1,
        thread_rptr := bld.thread_rptr.set i
          (pushLocRun bld.data (bld.thread_rptr.getD i [])
            (locRecs rm bld recs i)).2.1 } with hB1
      have hB1tr : B1.thread_rptr = bld.thread_rptr.set i
          (pushLocRun bld.data (bld.thread_rptr.getD i [])
            (locRecs rm bld recs i)).2.1 := by rw [hB1]
      have hB1data : B1.data = (pushLocRun bld.data (bld.thread_rptr.getD i [])
          (locRecs rm bld recs i)).1 := by rw [hB1]
      have hB1base : B1.base_row_offset = bld.base_row_offset := by rw [hB1]
      have hB1disp : B1.thread_displacement = bld.thread_displacement := by
        rw [hB1]
      have hB1rptr : B1.rptr = bld.rptr := by rw [hB1]
      have hloc : ∀ u, locRecs rm B1 recs u = locRecs rm bld recs u := by
        intro u
        unfold locRecs
        rw [hB1base, hB1disp]
      have hB1len : B1.thread_rptr.length = bld.thread_rptr.length := by
        rw [hB1tr, List.length_set]
      have hbufne : ∀ t, i ≠ t →
          B1.thread_rptr.getD t [] = bld.thread_rptr.getD t [] := by
        intro t h
        rw [hB1tr, gd_set_ne h]
      have hbufi : B1.thread_rptr.getD i [] =
          (pushLocRun bld.data (bld.thread_rptr.getD i [])
            (locRecs rm bld recs i)).2.1 := by
        rw [hB1tr, gd_set_eq hi]
      have hcvne : ∀ t j, i ≠ t → cellVal B1 t j = cellVal bld t j := by
        intro t j h
        unfold cellVal
        rw [hbufne t h]
      have hdlen : B1.data.length = bld.data.length := by
        rw [hB1data, p1]
      have hmemne : ∀ t ∈ rest, i ≠ t :=
        fun t ht h => hnotin (by rw [h]; exact ht)
      obtain ⟨q1, q2, q3, q4, q5, q6, q7, q8, q9, q10⟩ :=
        ih B1 hndr
          (by
            intro u hu
            rw [hB1len]
            exact hlt u (List.mem_cons_of_mem i hu))
          (by
            intro t ht p hp
            rw [hbufne t (hmemne t ht)]
            rw [hloc t] at hp
            exact hk t (List.mem_cons_of_mem i ht) p hp)
          (by
            intro t ht j hj
            rw [hbufne t (hmemne t ht)] at hj
            rw [hloc t, hcvne t j (hmemne t ht), hdlen]
            exact hb t (List.mem_cons_of_mem i ht) j hj)
          (by
            intro t1 ht1 t2 ht2 j1 hj1 j2 hj2 hne hc1 hc2
            rw [hbufne t1 (hmemne t1 ht1)] at hj1
            rw [hbufne t2 (hmemne t2 ht2)] at hj2
            rw [hloc t1] at hc1
            rw [hloc t2] at hc2
            rw [hloc t1, hloc t2, hcvne t1 j1 (hmemne t1 ht1),
              hcvne t2 j2 (hmemne t2 ht2)]
            exact hd t1 (List.mem_cons_of_mem i ht1)
              t2 (List.mem_cons_of_mem i ht2) j1 hj1 j2 hj2 hne hc1 hc2)
      refine ⟨?_, ?_, ?_, ?_, ?_, ?_, ?_, ?_, ?_, ?_⟩
      · rw [q1, hB1rptr]
      · rw [q2, hB1base]
      · rw [q3, hB1disp]
      · rw [q4, hdlen]
      · rw [q5, hB1len]
      · intro t ht
        have h1 : t ∉ rest := fun h => ht (List.mem_cons_of_mem i h)
        have h2 : i ≠ t := fun h => ht (by rw [← h]; exact List.mem_cons_self i rest)
        rw [q6 t h1, hbufne t h2]
      · intro t ht
        by_cases hti : t = i
        · subst hti
          rw [q6 t hnotin, hbufi, p2]
        · have ht2 : t ∈ rest := (List.mem_cons.mp ht).resolve_left hti
          rw [q7 t ht2, hbufne t (fun h => hti h.symm)]
      · intro t ht j
        by_cases hti : t = i
        · subst hti
          unfold cellVal
          rw [q6 t hnotin, hbufi]
          exact p3 j
        · have ht2 : t ∈ rest := (List.mem_cons.mp ht).resolve_left hti
          have hq := q8 t ht2 j
          rw [hcvne t j (fun h => hti h.symm), hloc t] at hq
          exact hq
      · intro t ht j r hr
        by_cases hti : t = i
        · subst hti
          have hcpos : 0 < cntKey (locRecs rm bld recs t) j := by omega
          obtain ⟨p, hpmem, hpj⟩ := cntKey_pos _ j hcpos
          have hjlen : j < (bld.thread_rptr.getD t []).length :=
            hpj ▸ hk t (List.mem_cons_self t rest) p hpmem
          have hcond : ∀ t2 ∈ rest, ∀ j2,
              j2 < (B1.thread_rptr.getD t2 []).length →
              cntKey (locRecs rm B1 recs t2) j2 = 0 ∨
              cellVal bld t j + r < cellVal B1 t2 j2 ∨
              cellVal B1 t2 j2 + cntKey (locRecs rm B1 recs t2) j2 ≤
                cellVal bld t j + r := by
            intro t2 ht2 j2 hj2
            rw [hbufne t2 (hmemne t2 ht2)] at hj2
            rw [hloc t2, hcvne t2 j2 (hmemne t2 ht2)]
            by_cases hc2 : 0 < cntKey (locRecs rm bld recs t2) j2
            · have hdd := hd t (List.mem_cons_self t rest)
                t2 (List.mem_cons_of_mem t ht2) j hjlen j2 hj2
                (Or.inl (hmemne t2 ht2)) hcpos hc2
              omega
            · left
              omega
          rw [q10 (cellVal bld t j + r) hcond, hB1data]
          exact p4 j r hr
        · have ht2 : t ∈ rest := (List.mem_cons.mp ht).resolve_left hti
          have hq := q9 t ht2 j r (by rw [hloc t]; exact hr)
          rw [hcvne t j (fun h => hti h.symm), hloc t] at hq
          exact hq
      · intro q hq
        have hcond : ∀ t2 ∈ rest, ∀ j2,
            j2 < (B1.thread_rptr.getD t2 []).length →
            cntKey (locRecs rm B1 recs t2) j2 = 0 ∨ q < cellVal B1 t2 j2 ∨
            cellVal B1 t2 j2 + cntKey (locRecs rm B1 recs t2) j2 ≤ q := by
          intro t2 ht2 j2 hj2
          rw [hbufne t2 (hmemne t2 ht2)] at hj2
          rw [hloc t2, hcvne t2 j2 (hmemne t2 ht2)]
          exact hq t2 (List.mem_cons_of_mem i ht2) j2 hj2
        rw [q10 q hcond, hB1data]
        exact p5 q (fun j hj => hq i (List.mem_cons_self i rest) j hj)

/-! Ordering of the post-InitStorage cursors: in shared mode the (key,
thread) regions are laid out lexicographically key-major, in row-major
mode thread-major.  These lemmas give the block inequalities used both
for region disjointness and for the in-bounds side conditions of the
push phase. -/

theorem take_succ_sum (l : List Nat) :
    ∀ p, p < l.length → (l.take (p + 1)).sum = (l.take p).sum + l.getD p 0 := by
  induction l with
  | nil =>
      intro p hp
      simp at hp
  | cons x xs ih =>
      intro p hp
      cases p with
      | zero => simp
      | succ q =>
          rw [List.take_succ_cons, List.take_succ_cons, List.sum_cons,
            List.sum_cons, gd_cons_succ, ih q (by simpa using hp)]
          omega

theorem take_sum_le (l : List Nat) (p : Nat) : (l.take p).sum ≤ l.sum := by
  by_cases h : p ≤ l.length
  · have h2 := take_sum_mono l p l.length h
    rwa [List.take_length] at h2
  · rw [List.take_of_length_le (by omega)]

theorem takeContrib_succ_eq :
    ∀ (ts : List (List Nat)) (b i t : Nat),
      takeContrib ts b i (t + 1) =
        takeContrib ts b i t +
          (if t < ts.length then
            (if i < (ts.getD t []).length + b then (ts.getD t []).getD (i - b) 0
             else 0)
           else 0) := by
  intro ts
  induction ts with
  | nil =>
      intro b i t
      show rowContrib (List.take (t + 1) []) b i =
        rowContrib (List.take t []) b i + _
      rw [List.take_nil, List.take_nil]
      simp
  | cons tr rest ih =>
      intro b i t
      cases t with
      | zero =>
          rw [takeContrib_cons_succ, takeContrib_zero, takeContrib_zero]
          rw [if_pos (show 0 < (tr :: rest).length by simp), gd_cons_zero]
          omega
      | succ s =>
          rw [takeContrib_cons_succ, takeContrib_cons_succ, ih b i s,
            List.length_cons, gd_cons_succ]
          by_cases hs : s < rest.length
          · rw [if_pos hs, if_pos (show s + 1 < rest.length + 1 by omega)]
            omega
          · rw [if_neg hs, if_neg (show ¬(s + 1 < rest.length + 1) by omega)]
            omega

theorem takeContrib_mono (ts : List (List Nat)) (b i : Nat) :
    ∀ k t, takeContrib ts b i t ≤ takeContrib ts b i (t + k) := by
  intro k
  induction k with
  | zero => intro t; exact Nat.le_refl _
  | succ s ih =>
      intro t
      have h1 := ih t
      have h2 := takeContrib_succ_eq ts b i (t + s)
      have h3 : t + (s + 1) = (t + s) + 1 := by omega
      rw [h3, h2]
      omega

theorem takeContrib_le (ts : List (List Nat)) (b i t1 t2 : Nat) (h : t1 ≤ t2) :
    takeContrib ts b i t1 ≤ takeContrib ts b i t2 := by
  have h2 : t2 = t1 + (t2 - t1) := by omega
  rw [h2]
  exact takeContrib_mono ts b i (t2 - t1) t1

theorem takeContrib_full (ts : List (List Nat)) (b i t : Nat)
    (h : ts.length ≤ t) : takeContrib ts b i t = rowContrib ts b i := by
  unfold takeContrib
  rw [List.take_of_length_le h]

theorem takeContrib_le_row (ts : List (List Nat)) (b i t : Nat) :
    takeContrib ts b i t ≤ rowContrib ts b i := by
  by_cases h : ts.length ≤ t
  · rw [takeContrib_full ts b i t h]
  · rw [← takeContrib_full ts b i ts.length (Nat.le_refl _)]
    exact takeContrib_le ts b i t ts.length (by omega)

theorem sharedCur_block_le (ts : List (List Nat)) (b fill t j : Nat)
    (ht : t < ts.length) (hj : j < (ts.getD t []).length) :
    fill + cumFrom ts b 0 j + takeContrib ts b (b + j) t +
      (ts.getD t []).getD j 0 ≤
    fill + cumFrom ts b 0 j + takeContrib ts b (b + j) (t + 1) := by
  rw [takeContrib_succ_eq]
  rw [if_pos ht, if_pos (show b + j < (ts.getD t []).length + b by omega)]
  have hbj : b + j - b = j := by omega
  rw [hbj]
  omega

theorem sharedCur_lt (ts : List (List Nat)) (b fill t1 j1 t2 j2 : Nat)
    (ht1 : t1 < ts.length) (hj1 : j1 < (ts.getD t1 []).length)
    (hlex : j1 < j2 ∨ (j1 = j2 ∧ t1 < t2)) :
    fill + cumFrom ts b 0 j1 + takeContrib ts b (b + j1) t1 +
      (ts.getD t1 []).getD j1 0 ≤
    fill + cumFrom ts b 0 j2 + takeContrib ts b (b + j2) t2 := by
  have h1 := sharedCur_block_le ts b fill t1 j1 ht1 hj1
  rcases hlex with h | ⟨he, hlt⟩
  · have h2 : takeContrib ts b (b + j1) (t1 + 1) ≤ rowContrib ts b (b + j1) :=
      takeContrib_le_row ts b (b + j1) (t1 + 1)
    have h3 := cumFrom_succ_back ts b j1 0
    have h3b : b + 0 + j1 = b + j1 := by omega
    rw [h3b] at h3
    have h4 : cumFrom ts b 0 (j1 + 1) ≤ cumFrom ts b 0 j2 :=
      cumFrom_mono ts b _ _ (by omega)
    omega
  · subst he
    have h2 : takeContrib ts b (b + j1) (t1 + 1) ≤ takeContrib ts b (b + j1) t2 :=
      takeContrib_le ts b (b + j1) _ _ (by omega)
    omega

theorem sharedCur_bound (ts : List (List Nat)) (b fill t j L : Nat)
    (ht : t < ts.length) (hj : j < (ts.getD t []).length) (hjL : j < L) :
    fill + cumFrom ts b 0 j + takeContrib ts b (b + j) t +
      (ts.getD t []).getD j 0 ≤ fill + cumFrom ts b 0 L := by
  have h1 := sharedCur_block_le ts b fill t j ht hj
  have h2 : takeContrib ts b (b + j) (t + 1) ≤ rowContrib ts b (b + j) :=
    takeContrib_le_row ts b (b + j) (t + 1)
  have h3 := cumFrom_succ_back ts b j 0
  have h3b : b + 0 + j = b + j := by omega
  rw [h3b] at h3
  have h4 : cumFrom ts b 0 (j + 1) ≤ cumFrom ts b 0 L :=
    cumFrom_mono ts b _ _ (by omega)
  omega

theorem threadStart_succ_eq :
    ∀ (ts : List (List Nat)) (t : Nat),
      threadStart ts (t + 1) =
        threadStart ts t + (if t < ts.length then (ts.getD t []).sum else 0) := by
  intro ts
  induction ts with
  | nil =>
      intro t
      unfold threadStart
      rw [List.take_nil, List.take_nil]
      simp
  | cons tr rest ih =>
      intro t
      cases t with
      | zero =>
          rw [threadStart_cons_succ, threadStart_zero, threadStart_zero]
          rw [if_pos (show 0 < (tr :: rest).length by simp), gd_cons_zero]
          omega
      | succ s =>
          rw [threadStart_cons_succ, threadStart_cons_succ, ih s,
            List.length_cons, gd_cons_succ]
          by_cases hs : s < rest.length
          · rw [if_pos hs, if_pos (show s + 1 < rest.length + 1 by omega)]
            omega
          · rw [if_neg hs, if_neg (show ¬(s + 1 < rest.length + 1) by omega)]
            omega

theorem threadStart_mono (ts : List (List Nat)) :
    ∀ k t, threadStart ts t ≤ threadStart ts (t + k) := by
  intro k
  induction k with
  | zero => intro t; exact Nat.le_refl _
  | succ s ih =>
      intro t
      have h1 := ih t
      have h2 := threadStart_succ_eq ts (t + s)
      have h3 : t + (s + 1) = (t + s) + 1 := by omega
      rw [h3, h2]
      by_cases hs : t + s < ts.length
      · rw [if_pos hs]
        omega
      · rw [if_neg hs]
        omega

theorem threadStart_le (ts : List (List Nat)) (t1 t2 : Nat) (h : t1 ≤ t2) :
    threadStart ts t1 ≤ threadStart ts t2 := by
  have h2 : t2 = t1 + (t2 - t1) := by omega
  rw [h2]
  exact threadStart_mono ts (t2 - t1) t1

theorem threadStart_full (ts : List (List Nat)) (t : Nat)
    (h : ts.length ≤ t) : threadStart ts t = (ts.map List.sum).sum := by
  unfold threadStart
  rw [List.take_of_length_le h]

theorem cellPre_block_le (ts : List (List Nat)) (t p : Nat)
    (hp : p < (ts.getD t []).length) :
    cellPre ts t p + (ts.getD t []).getD p 0 = cellPre ts t (p + 1) := by
  unfold cellPre
  rw [take_succ_sum _ p hp]
  omega

theorem cellPre_le_sum (ts : List (List Nat)) (t p : Nat) :
    cellPre ts t p ≤ threadStart ts t + (ts.getD t []).sum := by
  unfold cellPre
  have h := take_sum_le (ts.getD t []) p
  omega

theorem rmCur_lt (ts : List (List Nat)) (fill t1 p1 t2 p2 : Nat)
    (ht1 : t1 < ts.length) (hp1 : p1 < (ts.getD t1 []).length)
    (hlex : t1 < t2 ∨ (t1 = t2 ∧ p1 < p2)) :
    fill + cellPre ts t1 p1 + (ts.getD t1 []).getD p1 0 ≤
      fill + cellPre ts t2 p2 := by
  rcases hlex with h | ⟨he, hlt⟩
  · have h1 := cellPre_block_le ts t1 p1 hp1
    have h2 := cellPre_le_sum ts t1 (p1 + 1)
    have h3 := threadStart_succ_eq ts t1
    rw [if_pos ht1] at h3
    have h4 : threadStart ts (t1 + 1) ≤ threadStart ts t2 :=
      threadStart_le ts _ _ (by omega)
    have h5 : threadStart ts t2 ≤ cellPre ts t2 p2 := by
      unfold cellPre
      omega
    omega
  · subst he
    have h1 := cellPre_block_le ts t1 p1 hp1
    have h2 : cellPre ts t1 (p1 + 1) ≤ cellPre ts t1 p2 := by
      unfold cellPre
      have h3 := take_sum_mono (ts.getD t1 []) (p1 + 1) p2 (by omega)
      omega
    omega

theorem sum_flatten_eq (ts : List (List Nat)) :
    ts.flatten.sum = (ts.map List.sum).sum := by
  induction ts with
  | nil => rfl
  | cons tr rest ih =>
      rw [List.flatten_cons, List.sum_append, List.map_cons, List.sum_cons, ih]

theorem rmCur_bound (ts : List (List Nat)) (fill t p : Nat)
    (ht : t < ts.length) (hp : p < (ts.getD t []).length) :
    fill + cellPre ts t p + (ts.getD t []).getD p 0 ≤
      fill + (ts.map List.sum).sum := by
  have h1 := cellPre_block_le ts t p hp
  have h2 := cellPre_le_sum ts t (p + 1)
  have h3 := threadStart_succ_eq ts t
  rw [if_pos ht] at h3
  have h4 : threadStart ts (t + 1) ≤ threadStart ts ts.length :=
    threadStart_le ts _ _ (by omega)
  have h5 := threadStart_full ts ts.length (Nat.le_refl _)
  omega

theorem flatCum_full (ts : List (List Nat)) (p : Nat)
    (h : ts.flatten.length ≤ p) : flatCum ts p = (ts.map List.sum).sum := by
  unfold flatCum
  rw [List.take_of_length_le h, sum_flatten_eq]

theorem flatCum_decomp :
    ∀ (ts : List (List Nat)) (t p : Nat), t < ts.length →
      p ≤ (ts.getD t []).length →
      flatCum ts (((ts.take t).map List.length).sum + p) = cellPre ts t p := by
  intro ts
  induction ts with
  | nil =>
      intro t p ht
      simp at ht
  | cons tr rest ih =>
      intro t p ht hp
      cases t with
      | zero =>
          rw [List.take_zero, List.map_nil, List.sum_nil, Nat.zero_add]
          rw [gd_cons_zero] at hp
          rw [flatCum_cons_le tr rest p hp]
          unfold cellPre
          rw [threadStart_zero, gd_cons_zero, Nat.zero_add]
      | succ s =>
          rw [List.take_succ_cons, List.map_cons, List.sum_cons]
          rw [gd_cons_succ] at hp
          have harith : tr.length + ((rest.take s).map List.length).sum + p =
              tr.length + (((rest.take s).map List.length).sum + p) := by omega
          rw [harith, flatCum_cons_ge tr rest _ (by omega)]
          have hsub : tr.length + (((rest.take s).map List.length).sum + p) -
              tr.length = ((rest.take s).map List.length).sum + p := by omega
          rw [hsub, ih s p (by simpa using ht) hp]
          unfold cellPre
          rw [threadStart_cons_succ, gd_cons_succ]
          omega

/-! Key translation: a thread's records with keys shifted down by a
constant have the same per-key counts, values and budget sums as the
original records at the shifted key. -/

theorem filter_map_shift {α : Type} (c : Nat) :
    ∀ (rs : List (Nat × α)) (j : Nat), (∀ p ∈ rs, c ≤ p.1) →
      (rs.map (fun p => (p.1 - c, p.2))).filter (fun p => p.1 = j) =
        (rs.filter (fun p => p.1 = c + j)).map (fun p => (p.1 - c, p.2)) := by
  intro rs
  induction rs with
  | nil => intro j _; rfl
  | cons p rest ih =>
      intro j hkeys
      obtain ⟨k, v⟩ := p
      have hck : c ≤ k := hkeys (k, v) (by simp)
      rw [List.map_cons]
      by_cases h : k - c = j
      · rw [List.filter_cons_of_pos (by simpa using h),
          List.filter_cons_of_pos (by simp; omega), List.map_cons,
          ih j (fun q hq => hkeys q (by simp [hq]))]
      · rw [List.filter_cons_of_neg (by simpa using h),
          List.filter_cons_of_neg (by simp; omega),
          ih j (fun q hq => hkeys q (by simp [hq]))]

theorem cntKey_shift {α : Type} (c : Nat) (rs : List (Nat × α)) (j : Nat)
    (h : ∀ p ∈ rs, c ≤ p.1) :
    cntKey (rs.map (fun p => (p.1 - c, p.2))) j = cntKey rs (c + j) := by
  unfold cntKey
  rw [filter_map_shift c rs j h, List.length_map]

theorem valsKey_shift {α : Type} (c : Nat) (rs : List (Nat × α)) (j : Nat)
    (h : ∀ p ∈ rs, c ≤ p.1) :
    valsKey (rs.map (fun p => (p.1 - c, p.2))) j = valsKey rs (c + j) := by
  unfold valsKey
  rw [filter_map_shift c rs j h, List.map_map]
  rfl

theorem budSum_shift (c : Nat) (bs : List (Nat × Nat)) (j : Nat)
    (h : ∀ p ∈ bs, c ≤ p.1) :
    budSum (bs.map (fun p => (p.1 - c, p.2))) j = budSum bs (c + j) := by
  unfold budSum
  rw [filter_map_shift c bs j h, List.map_map]
  rfl

theorem recsLoc_false_eq {α : Type} (b disp t : Nat) (rs : List (Nat × α)) :
    recsLoc false b disp t rs = rs.map (fun p => (p.1 - b, p.2)) := rfl

theorem recsLoc_true_eq {α : Type} (b disp t : Nat) (rs : List (Nat × α)) :
    recsLoc true b disp t rs =
      rs.map (fun p => (p.1 - (b + t * disp), p.2)) := by
  unfold recsLoc
  apply List.map_congr_left
  intro p _
  show (offsetKey true b disp p.1 t, p.2) = (p.1 - (b + t * disp), p.2)
  unfold offsetKey
  rw [if_pos rfl, Nat.sub_sub]

theorem gd_replicate_zero (m j : Nat) :
    (List.replicate m (0 : Nat)).getD j 0 = 0 := by
  by_cases h : j < m
  · exact gd_replicate h 0
  · exact gd_oob (by rw [List.length_replicate]; omega) 0

/-! Bridging the buffer-based merge quantities (rowContrib, takeContrib,
cumFrom over the post-budget thread buffers) to record counts, under the
compliance hypothesis that every buffer cell equals the number of values
its thread pushes for that key. -/

theorem rowContrib_eq_sum_range :
    ∀ (ts : List (List Nat)) (b i : Nat),
      rowContrib ts b i = ((List.range ts.length).map
        (fun t => if i < (ts.getD t []).length + b
                  then (ts.getD t []).getD (i - b) 0 else 0)).sum := by
  intro ts
  induction ts with
  | nil => intro b i; rfl
  | cons tr rest ih =>
      intro b i
      rw [rowContrib_cons, ih b i, List.length_cons, List.range_succ_eq_map,
        List.map_cons, List.sum_cons, List.map_map]
      rfl

theorem rowContrib_counts {α : Type} (recs : List (List (Nat × α)))
    (ts : List (List Nat)) (b T L m : Nat) (hTlen : ts.length = T)
    (hlen : ∀ t, t < T → (ts.getD t []).length = L)
    (hcell : ∀ t, t < T → ∀ j, j < L →
      (ts.getD t []).getD j 0 = cntKey (recs.getD t []) (b + j))
    (hm : m < L) :
    rowContrib ts b (b + m) = sumCnt recs T (b + m) := by
  rw [rowContrib_eq_sum_range, hTlen]
  unfold sumCnt
  apply congrArg List.sum
  apply List.map_congr_left
  intro t ht
  rw [List.mem_range] at ht
  rw [if_pos (by rw [hlen t ht]; omega)]
  have hsub : b + m - b = m := by omega
  rw [hsub]
  exact hcell t ht m hm

theorem takeContrib_counts {α : Type} (recs : List (List (Nat × α)))
    (ts : List (List Nat)) (b T L m : Nat) (hTlen : ts.length = T)
    (hlen : ∀ t, t < T → (ts.getD t []).length = L)
    (hcell : ∀ t, t < T → ∀ j, j < L →
      (ts.getD t []).getD j 0 = cntKey (recs.getD t []) (b + j))
    (hm : m < L) :
    ∀ t, t ≤ T → takeContrib ts b (b + m) t = sumCnt recs t (b + m) := by
  intro t
  induction t with
  | zero =>
      intro _
      rw [takeContrib_zero]
      rfl
  | succ s ih =>
      intro hs
      rw [takeContrib_succ_eq, ih (by omega)]
      rw [if_pos (show s < ts.length by omega),
        if_pos (by rw [hlen s (by omega)]; omega)]
      have hsub : b + m - b = m := by omega
      rw [hsub, hcell s (by omega) m hm]
      unfold sumCnt
      rw [List.range_succ, List.map_append, List.sum_append]
      simp

theorem cumFrom_counts {α : Type} (recs : List (List (Nat × α)))
    (ts : List (List Nat)) (b T L : Nat) (hTlen : ts.length = T)
    (hlen : ∀ t, t < T → (ts.getD t []).length = L)
    (hcell : ∀ t, t < T → ∀ j, j < L →
      (ts.getD t []).getD j 0 = cntKey (recs.getD t []) (b + j)) :
    ∀ m, m ≤ L → cumFrom ts b 0 m = cumCnt recs T b m := by
  intro m
  induction m with
  | zero =>
      intro _
      rw [cumFrom_zero]
      rfl
  | succ s ih =>
      intro hs
      have h1 := cumFrom_succ_back ts b s 0
      have h1b : b + 0 + s = b + s := by omega
      rw [h1b] at h1
      rw [h1, ih (by omega),
        rowContrib_counts recs ts b T L s hTlen hlen hcell (by omega)]
      unfold cumCnt
      rw [List.range_succ, List.map_append, List.sum_append]
      simp

theorem cntKey_zero_of_notmem {α : Type} :
    ∀ (rs : List (Nat × α)) (k : Nat), (∀ p ∈ rs, p.1 ≠ k) →
      cntKey rs k = 0 := by
  intro rs
  induction rs with
  | nil => intro k _; rfl
  | cons p rest ih =>
      intro k h
      obtain ⟨k0, v⟩ := p
      rw [cntKey_cons, if_neg (h (k0, v) (by simp)),
        ih k (fun q hq => h q (by simp [hq]))]

theorem sum_map_range_single (f : Nat → Nat) :
    ∀ T t, t < T → (∀ u, u < T → u ≠ t → f u = 0) →
      ((List.range T).map f).sum = f t := by
  intro T
  induction T with
  | zero => intro t ht _; omega
  | succ S ih =>
      intro t ht h0
      rw [List.range_succ, List.map_append, List.sum_append]
      by_cases he : t = S
      · subst he
        have hz : ((List.range t).map f).sum = 0 := by
          apply List.sum_eq_zero
          intro x hx
          obtain ⟨u, hu, he2⟩ := List.mem_map.mp hx
          rw [List.mem_range] at hu
          rw [← he2]
          exact h0 u (by omega) (by omega)
        rw [hz]
        simp
      · rw [ih t (by omega) (fun u hu hut => h0 u (by omega) hut)]
        have hfS : f S = 0 := h0 S (by omega) (fun h => he h.symm)
        simp [hfS]

theorem take_map_sum_succ {β : Type} (d : β) (f : β → Nat) :
    ∀ (l : List β) (t : Nat), t < l.length →
      ((l.take (t + 1)).map f).sum = ((l.take t).map f).sum + f (l.getD t d) := by
  intro l
  induction l with
  | nil => intro t ht; simp at ht
  | cons x xs ih =>
      intro t ht
      cases t with
      | zero => simp
      | succ s =>
          rw [List.take_succ_cons, List.take_succ_cons, List.map_cons,
            List.map_cons, List.sum_cons, List.sum_cons, gd_cons_succ,
            ih s (by simpa using ht)]
          omega

theorem flat_decomp :
    ∀ (ts : List (List Nat)) (c : Nat), c < ts.flatten.length →
      ∃ t p, t < ts.length ∧ p < (ts.getD t []).length ∧
        c = ((ts.take t).map List.length).sum + p := by
  intro ts
  induction ts with
  | nil =>
      intro c hc
      simp at hc
  | cons tr rest ih =>
      intro c hc
      rw [List.flatten_cons, List.length_append] at hc
      by_cases h : c < tr.length
      · exact ⟨0, c, by simp, by rw [gd_cons_zero]; exact h, by simp⟩
      · obtain ⟨t, p, h1, h2, h3⟩ := ih (c - tr.length) (by omega)
        refine ⟨t + 1, p, by simp; omega, by rw [gd_cons_succ]; exact h2, ?_⟩
        rw [List.take_succ_cons, List.map_cons, List.sum_cons]
        omega

theorem flatten_getD_decomp :
    ∀ (ts : List (List Nat)) (t p : Nat), t < ts.length →
      p < (ts.getD t []).length →
      ts.flatten.getD (((ts.take t).map List.length).sum + p) 0 =
        (ts.getD t []).getD p 0 := by
  intro ts
  induction ts with
  | nil =>
      intro t p ht
      simp at ht
  | cons tr rest ih =>
      intro t p ht hp
      cases t with
      | zero =>
          rw [List.take_zero, List.map_nil, List.sum_nil, Nat.zero_add,
            List.flatten_cons, gd_cons_zero] at *
          exact gd_append_left hp 0
      | succ s =>
          rw [List.take_succ_cons, List.map_cons, List.sum_cons,
            List.flatten_cons, gd_cons_succ] at *
          have harith : tr.length + ((rest.take s).map List.length).sum + p =
              tr.length + (((rest.take s).map List.length).sum + p) := by omega
          rw [harith, gd_append_right (by omega)]
          have hsub : tr.length + (((rest.take s).map List.length).sum + p) -
              tr.length = ((rest.take s).map List.length).sum + p := by omega
          rw [hsub]
          exact ih s p (by simpa using ht) hp

/-! Shared-mode protocol master theorem: a compliant four-phase build in
shared mode produces the CSR layout, with every quantity expressed by
record counts. -/

theorem sharedProtocol_spec {α : Type} [Inhabited α]
    (rptr0 : List Nat) (data0 : List α) (b n T : Nat)
    (buds : List (List (Nat × Nat))) (recs : List (List (Nat × α)))
    (hT : 1 ≤ T) (hbn : b ≤ n)
    (hbud : buds.length = T) (hrec : recs.length = T)
    (hshape : (b = 0 ∧ rptr0 = []) ∨ rptr0.length = b + 1)
    (hbkeys : ∀ t, t < T → ∀ p ∈ buds.getD t [], b ≤ p.1 ∧ p.1 < n)
    (hpkeys : ∀ t, t < T → ∀ p ∈ recs.getD t [], b ≤ p.1 ∧ p.1 < n)
    (hcompl : ∀ t, t < T → ∀ k, k < n →
      cntKey (recs.getD t []) k = budSum (buds.getD t []) k) :
    (runProtocol false b rptr0 data0 n T buds recs).rptr.length = n + 1 ∧
    (∀ idx, idx < b →
      (runProtocol false b rptr0 data0 n T buds recs).rptr.getD idx 0 =
        (if idx < rptr0.length then rptr0.getD idx 0 else rptr0.getLastD 0)) ∧
    (∀ idx, b ≤ idx → idx ≤ n →
      (runProtocol false b rptr0 data0 n T buds recs).rptr.getD idx 0 =
        rptr0.getLastD 0 + cumCnt recs T b (idx - b)) ∧
    (runProtocol false b rptr0 data0 n T buds recs).data.length =
      rptr0.getLastD 0 + cumCnt recs T b (n - b) ∧
    (∀ q, q < rptr0.getLastD 0 →
      (runProtocol false b rptr0 data0 n T buds recs).data.getD q default =
        (resizeFill data0 (rptr0.getLastD 0) default).getD q default) ∧
    (∀ t, t < T → ∀ j, j < n - b →
      ∀ r, r < cntKey (recs.getD t []) (b + j) →
      (runProtocol false b rptr0 data0 n T buds recs).data.getD
          (rptr0.getLastD 0 + cumCnt recs T b j + sumCnt recs t (b + j) + r)
          default =
        (valsKey (recs.getD t []) (b + j)).getD r default) := by
  have hdisp0 : dispOf false b n T = 0 := rfl
  have hslot : ∀ t, slotSize false b n T t = n - b := by
    intro t
    unfold slotSize fullSize
    simp [Nat.min_eq_left hbn]
  obtain ⟨c1, c2, c3, c4, c5, c6⟩ :=
    budgetPhase_char (α := α) false rptr0 data0 b n T buds hbud
  have hvalid : ∀ t, t < T → ∀ p ∈ buds.getD t [],
      offsetKey false b (dispOf false b n T) p.1 t + 1 ≤
        slotSize false b n T t := by
    intro t ht p hp
    have hkp := hbkeys t ht p hp
    rw [hslot t]
    show p.1 - b + 1 ≤ n - b
    omega
  have hlenB := budgetPhase_lengths (α := α) false rptr0 data0 b n T buds
    hbud hvalid
  have hcellB : ∀ t, t < T → ∀ j, j < n - b →
      ((applyBudgets false (InitBudget false (mkBuilder rptr0 data0 b) n T)
        buds).thread_rptr.getD t []).getD j 0 =
      cntKey (recs.getD t []) (b + j) := by
    intro t ht j hj
    rw [c6 t ht, budFold_gd, gd_replicate_zero, Nat.zero_add]
    rw [recsLoc_false_eq, budSum_shift b (buds.getD t []) j
      (fun p hp => (hbkeys t ht p hp).1)]
    rw [hcompl t ht (b + j) (by omega)]
  have hts1 : 1 ≤ (applyBudgets false (InitBudget false
      (mkBuilder rptr0 data0 b) n T) buds).thread_rptr.length := by
    rw [c5]
    omega
  have hshape2 : (applyBudgets false (InitBudget false
      (mkBuilder rptr0 data0 b) n T) buds).rptr.length ≤
      (applyBudgets false (InitBudget false
        (mkBuilder rptr0 data0 b) n T) buds).base_row_offset + 1 := by
    rw [c1, c3]
    rcases hshape with ⟨_, h2⟩ | h
    · rw [h2]
      simp
    · omega
  obtain ⟨s1, s2, s3, s4, s5, s6, s7, s8, s9, s10, s11⟩ :=
    InitStorage_shared_char (applyBudgets false (InitBudget false
      (mkBuilder rptr0 data0 b) n T) buds) hts1 hshape2
  simp only [c1, c2, c3, c4] at s1 s2 s3 s4 s5 s6 s7 s8 s9 s10 s11
  set ts := (applyBudgets false (InitBudget false
    (mkBuilder rptr0 data0 b) n T) buds).thread_rptr with hts0
  set fill := rptr0.getLastD 0 with hfill
  have hR : sharedR rptr0.length b ts = n + 1 := by
    have hge := sharedR_ge_mem b ts rptr0.length 0 (by rw [c5]; omega)
    rw [hlenB 0 (by omega)] at hge
    rw [hslot 0] at hge
    have hle := sharedR_le b ts rptr0.length (n + 1)
      (by
        rcases hshape with ⟨_, h2⟩ | h
        · rw [h2]
          simp
        · omega)
      (by
        intro t ht
        rw [c5] at ht
        rw [hlenB t ht, hslot t]
        omega)
    omega
  have hlenB2 : ∀ t, t < T → (ts.getD t []).length = n - b := by
    intro t ht
    rw [hlenB t ht, hslot t]
  have hlast3 : (InitStorage false (applyBudgets false (InitBudget false
      (mkBuilder rptr0 data0 b) n T) buds)).rptr.getLastD 0 =
      fill + cumFrom ts b 0 (n - b) := by
    rw [s9, hR]
    have h2 : n + 1 - 1 - b = n - b := by omega
    rw [h2]
  have hcum := cumFrom_counts recs ts b T (n - b) c5 hlenB2 hcellB
  have hdlen3 : (InitStorage false (applyBudgets false (InitBudget false
      (mkBuilder rptr0 data0 b) n T) buds)).data.length =
      fill + cumFrom ts b 0 (n - b) := by
    rw [s8, length_resizeFill, hlast3]
  have hcur : ∀ t, t < T → ∀ j, j < n - b →
      ((InitStorage false (applyBudgets false (InitBudget false
        (mkBuilder rptr0 data0 b) n T) buds)).thread_rptr.getD t []).getD j 0 =
      fill + cumFrom ts b 0 j + takeContrib ts b (b + j) t := by
    intro t ht j hj
    rw [s7 t j, if_pos ⟨by rw [hlenB2 t ht]; omega, by rw [c5]; omega⟩]
  have hloceq : ∀ t, locRecs false (InitStorage false (applyBudgets false
      (InitBudget false (mkBuilder rptr0 data0 b) n T) buds)) recs t =
      (recs.getD t []).map (fun p => (p.1 - b, p.2)) := by
    intro t
    unfold locRecs
    rw [s10, s11]
    exact recsLoc_false_eq b _ t _
  have hcntloc : ∀ t, t < T → ∀ j,
      cntKey (locRecs false (InitStorage false (applyBudgets false
        (InitBudget false (mkBuilder rptr0 data0 b) n T) buds)) recs t) j =
      cntKey (recs.getD t []) (b + j) := by
    intro t ht j
    rw [hloceq t]
    exact cntKey_shift b _ j (fun p hp => (hpkeys t ht p hp).1)
  have hvalsloc : ∀ t, t < T → ∀ j,
      valsKey (locRecs false (InitStorage false (applyBudgets false
        (InitBudget false (mkBuilder rptr0 data0 b) n T) buds)) recs t) j =
      valsKey (recs.getD t []) (b + j) := by
    intro t ht j
    rw [hloceq t]
    exact valsKey_shift b _ j (fun p hp => (hpkeys t ht p hp).1)
  have hlen3 : ∀ t, t < T →
      ((InitStorage false (applyBudgets false (InitBudget false
        (mkBuilder rptr0 data0 b) n T) buds)).thread_rptr.getD t []).length =
      n - b := by
    intro t ht
    rw [s6 t, hlenB2 t ht]
  obtain ⟨q1, q2, q3, q4, q5, q6, q7, q8, q9, q10⟩ :=
    applyPushesAux_spec (default : α) false recs (List.range T)
      (InitStorage false (applyBudgets false (InitBudget false
        (mkBuilder rptr0 data0 b) n T) buds))
      (List.nodup_range T)
      (by
        intro i hi
        rw [List.mem_range] at hi
        rw [s5, c5]
        exact hi)
      (by
        intro t ht p hp
        rw [List.mem_range] at ht
        rw [hloceq t] at hp
        obtain ⟨p0, hp0, hpe⟩ := List.mem_map.mp hp
        have hkp := hpkeys t ht p0 hp0
        rw [hlen3 t ht, ← hpe]
        show p0.1 - b < n - b
        omega)
      (by
        intro t ht j hj
        rw [List.mem_range] at ht
        rw [hlen3 t ht] at hj
        unfold cellVal
        rw [hcur t ht j hj, hcntloc t ht j, ← hcellB t ht j hj, hdlen3]
        exact sharedCur_bound ts b fill t j (n - b) (by rw [c5]; omega)
          (by rw [hlenB2 t ht]; omega) hj)
      (by
        intro t1 ht1 t2 ht2 j1 hj1 j2 hj2 hne hc1 hc2
        rw [List.mem_range] at ht1 ht2
        rw [hlen3 t1 ht1] at hj1
        rw [hlen3 t2 ht2] at hj2
        unfold cellVal
        rw [hcur t1 ht1 j1 hj1, hcur t2 ht2 j2 hj2, hcntloc t1 ht1 j1,
          hcntloc t2 ht2 j2, ← hcellB t1 ht1 j1 hj1, ← hcellB t2 ht2 j2 hj2]
        rcases Nat.lt_trichotomy j1 j2 with hj | hj | hj
        · left
          exact sharedCur_lt ts b fill t1 j1 t2 j2 (by rw [c5]; omega)
            (by rw [hlenB2 t1 ht1]; omega) (Or.inl hj)
        · rcases Nat.lt_trichotomy t1 t2 with htt | htt | htt
          · left
            exact sharedCur_lt ts b fill t1 j1 t2 j2 (by rw [c5]; omega)
              (by rw [hlenB2 t1 ht1]; omega) (Or.inr ⟨hj, htt⟩)
          · exfalso
            rcases hne with h | h
            · exact h htt
            · exact h hj
          · right
            exact sharedCur_lt ts b fill t2 j2 t1 j1 (by rw [c5]; omega)
              (by rw [hlenB2 t2 ht2]; omega) (Or.inr ⟨hj.symm, htt⟩)
        · right
          exact sharedCur_lt ts b fill t2 j2 t1 j1 (by rw [c5]; omega)
            (by rw [hlenB2 t2 ht2]; omega) (Or.inl hj))
  have hfold : runProtocol false b rptr0 data0 n T buds recs =
      (List.range T).foldl
        (fun acc u => applyPushList false u acc (recs.getD u []))
        (InitStorage false (applyBudgets false (InitBudget false
          (mkBuilder rptr0 data0 b) n T) buds)) := by
    unfold runProtocol applyPushes
    rw [hrec]
  rw [hfold]
  refine ⟨?_, ?_, ?_, ?_, ?_, ?_⟩
  · rw [q1, s1, hR]
  · intro idx hidx
    rw [q1]
    by_cases h : idx < rptr0.length
    · rw [if_pos h, s2 idx hidx h]
    · rw [if_neg h, s3 idx hidx (by omega)]
  · intro idx h1 h2
    rw [q1, s4 idx h1 (by rw [hR]; omega), hcum (idx - b) (by omega)]
  · rw [q4, hdlen3, hcum (n - b) (Nat.le_refl _)]
  · intro q hq
    rw [q10 q (by
      intro t ht j hj
      rw [List.mem_range] at ht
      rw [hlen3 t ht] at hj
      right
      left
      unfold cellVal
      rw [hcur t ht j hj]
      omega)]
    rw [s8, gd_resizeFill, gd_resizeFill, if_pos (by rw [hlast3]; omega),
      if_pos hq]
  · intro t ht j hj r hr
    have hq9 := q9 t (by rw [List.mem_range]; omega) j r
      (by rw [hcntloc t ht j]; exact hr)
    unfold cellVal at hq9
    rw [hcur t ht j hj, hvalsloc t ht j] at hq9
    rw [hcum j (by omega)] at hq9
    rw [takeContrib_counts recs ts b T (n - b) j c5 hlenB2 hcellB hj t
      (by omega)] at hq9
    exact hq9

/-! Row-major (partitioned) protocol master theorem.  Each thread owns the
contiguous key block [b + t*disp, b + t*disp + slot t); a compliant build
lays the data out in flat cell order, which coincides with global key
order, so the offset array entries again have the count prefix-sum
form. -/

theorem rmProtocol_spec {α : Type} [Inhabited α]
    (rptr0 : List Nat) (data0 : List α) (b n T : Nat)
    (buds : List (List (Nat × Nat))) (recs : List (List (Nat × α)))
    (hT : 1 ≤ T)
    (hbud : buds.length = T) (hrec : recs.length = T)
    (hshape : (b = 0 ∧ rptr0 = []) ∨ rptr0.length = b + 1)
    (hbkeys : ∀ t, t < T → ∀ p ∈ buds.getD t [],
      b + t * dispOf true b n T ≤ p.1 ∧
      p.1 - (b + t * dispOf true b n T) < slotSize true b n T t)
    (hpkeys : ∀ t, t < T → ∀ p ∈ recs.getD t [],
      b + t * dispOf true b n T ≤ p.1 ∧
      p.1 - (b + t * dispOf true b n T) < slotSize true b n T t)
    (hcompl : ∀ t, t < T → ∀ k, k < b + n →
      cntKey (recs.getD t []) k = budSum (buds.getD t []) k) :
    (runProtocol true b rptr0 data0 n T buds recs).rptr.length = n + b + 1 ∧
    (∀ idx, idx < b →
      (runProtocol true b rptr0 data0 n T buds recs).rptr.getD idx 0 =
        (if idx < rptr0.length then rptr0.getD idx 0 else rptr0.getLastD 0)) ∧
    (∀ idx, b ≤ idx → idx ≤ n + b →
      (runProtocol true b rptr0 data0 n T buds recs).rptr.getD idx 0 =
        rptr0.getLastD 0 + cumCnt recs T b (idx - b)) ∧
    (runProtocol true b rptr0 data0 n T buds recs).data.length =
      rptr0.getLastD 0 + cumCnt recs T b n ∧
    (∀ q, q < rptr0.getLastD 0 →
      (runProtocol true b rptr0 data0 n T buds recs).data.getD q default =
        (resizeFill data0 (rptr0.getLastD 0) default).getD q default) ∧
    (∀ t, t < T → ∀ p, p < slotSize true b n T t →
      ∀ r, r < cntKey (recs.getD t []) (b + t * dispOf true b n T + p) →
      (runProtocol true b rptr0 data0 n T buds recs).data.getD
          (rptr0.getLastD 0 + cumCnt recs T b (t * dispOf true b n T + p) + r)
          default =
        (valsKey (recs.getD t [])
          (b + t * dispOf true b n T + p)).getD r default) ∧
    (∀ t, t < T → ∀ p, p < slotSize true b n T t →
      sumCnt recs T (b + t * dispOf true b n T + p) =
        cntKey (recs.getD t []) (b + t * dispOf true b n T + p)) ∧
    (∀ t, t < T →
      t * dispOf true b n T + slotSize true b n T t ≤ n) := by
  have hTd : (T - 1) * dispOf true b n T ≤ n := by
    have h1 : dispOf true b n T = n / T := rfl
    rw [h1]
    have h2 : (T - 1) * (n / T) ≤ T * (n / T) :=
      Nat.mul_le_mul_right _ (by omega)
    have h3 : T * (n / T) ≤ n := by
      rw [Nat.mul_comm]
      exact Nat.div_mul_le_self n T
    omega
  have hslotd : ∀ t, t + 1 ≠ T → slotSize true b n T t = dispOf true b n T := by
    intro t h
    show (if t + 1 = T then fullSize true b n - (T - 1) * dispOf true b n T
      else dispOf true b n T) = dispOf true b n T
    rw [if_neg h]
  have hslotlast : slotSize true b n T (T - 1) =
      n - (T - 1) * dispOf true b n T := by
    show (if T - 1 + 1 = T then fullSize true b n - (T - 1) * dispOf true b n T
      else dispOf true b n T) = _
    rw [if_pos (by omega)]
    rfl
  have hslot_le : ∀ t, t < T →
      t * dispOf true b n T + slotSize true b n T t ≤ n := by
    intro t ht
    by_cases h : t + 1 = T
    · rw [show t = T - 1 by omega, hslotlast]
      omega
    · rw [hslotd t h]
      have h2 : t * dispOf true b n T + dispOf true b n T =
          (t + 1) * dispOf true b n T := by ring
      have h3 : (t + 1) * dispOf true b n T ≤ (T - 1) * dispOf true b n T :=
        Nat.mul_le_mul_right _ (by omega)
      omega
  have hbd : ∀ u, u < T → ∀ pu, pu < slotSize true b n T u →
      ∀ v, v < T → ∀ pv, pv < slotSize true b n T v →
      u * dispOf true b n T + pu = v * dispOf true b n T + pv → u = v := by
    intro u hu pu hpu v hv pv hpv he
    rcases Nat.lt_trichotomy u v with h | h | h
    · exfalso
      rw [hslotd u (by omega)] at hpu
      have h2 : (u + 1) * dispOf true b n T ≤ v * dispOf true b n T :=
        Nat.mul_le_mul_right _ (by omega)
      have h3 : u * dispOf true b n T + dispOf true b n T =
          (u + 1) * dispOf true b n T := by ring
      omega
    · exact h
    · exfalso
      rw [hslotd v (by omega)] at hpv
      have h2 : (v + 1) * dispOf true b n T ≤ u * dispOf true b n T :=
        Nat.mul_le_mul_right _ (by omega)
      have h3 : v * dispOf true b n T + dispOf true b n T =
          (v + 1) * dispOf true b n T := by ring
      omega
  obtain ⟨c1, c2, c3, c4, c5, c6⟩ :=
    budgetPhase_char (α := α) true rptr0 data0 b n T buds hbud
  have hvalid : ∀ t, t < T → ∀ p ∈ buds.getD t [],
      offsetKey true b (dispOf true b n T) p.1 t + 1 ≤
        slotSize true b n T t := by
    intro t ht p hp
    have hkp := hbkeys t ht p hp
    show p.1 - b - t * dispOf true b n T + 1 ≤ slotSize true b n T t
    rw [Nat.sub_sub]
    omega
  have hlenB := budgetPhase_lengths (α := α) true rptr0 data0 b n T buds
    hbud hvalid
  have hshape2 : (applyBudgets true (InitBudget true
      (mkBuilder rptr0 data0 b) n T) buds).rptr.length ≤
      (applyBudgets true (InitBudget true
        (mkBuilder rptr0 data0 b) n T) buds).base_row_offset + 1 := by
    rw [c1, c3]
    rcases hshape with ⟨_, h2⟩ | h
    · rw [h2]
      simp
    · omega
  obtain ⟨s1, s2, s3, s4, s5, s6, s7, s8, s9, s10, s11⟩ :=
    InitStorage_rm_char (applyBudgets true (InitBudget true
      (mkBuilder rptr0 data0 b) n T) buds) hshape2
  simp only [c1, c2, c3, c4] at s1 s2 s3 s4 s5 s6 s7 s8 s9 s10 s11
  set ts := (applyBudgets true (InitBudget true
    (mkBuilder rptr0 data0 b) n T) buds).thread_rptr with hts0
  set fill := rptr0.getLastD 0 with hfill
  have hcellB : ∀ t, t < T → ∀ p, p < slotSize true b n T t →
      (ts.getD t []).getD p 0 =
        cntKey (recs.getD t []) (b + t * dispOf true b n T + p) := by
    intro t ht p hp
    rw [c6 t ht, budFold_gd, gd_replicate_zero, Nat.zero_add]
    rw [recsLoc_true_eq, budSum_shift (b + t * dispOf true b n T)
      (buds.getD t []) p (fun q hq => (hbkeys t ht q hq).1)]
    have hk : b + t * dispOf true b n T + p < b + n := by
      have h0 := hslot_le t ht
      omega
    rw [hcompl t ht (b + t * dispOf true b n T + p) hk]
  have hE : (ts.map List.length).sum = n := by
    rw [sum_map_length_of_gd ts (fun t => slotSize true b n T t)
      (by intro t ht; rw [c5] at ht; exact hlenB t ht), c5]
    exact range_sum_slot_rm b n T hT
  have hflatlen : ts.flatten.length = n := by
    rw [flatten_length_eq, hE]
  have hblock : ∀ t, t < T →
      ((ts.take t).map List.length).sum = t * dispOf true b n T := by
    intro t
    induction t with
    | zero => intro _; simp
    | succ s ih =>
        intro hs
        rw [take_map_sum_succ ([] : List Nat) List.length ts s
          (by rw [c5]; omega), ih (by omega), hlenB s (by omega),
          hslotd s (by omega)]
        ring
  have hflatgd : ∀ c, c < n →
      ts.flatten.getD c 0 = sumCnt recs T (b + c) := by
    intro c hc
    obtain ⟨t, p, h1, h2, h3⟩ := flat_decomp ts c (by rw [hflatlen]; omega)
    rw [c5] at h1
    have hb3 : c = t * dispOf true b n T + p := by
      rw [h3, hblock t h1]
    have h2s : p < slotSize true b n T t := by
      rw [← hlenB t h1]
      exact h2
    have hsingle := sum_map_range_single
      (fun u => cntKey (recs.getD u []) (b + c)) T t h1 (by
        intro u hu hut
        apply cntKey_zero_of_notmem
        intro q hq hqk
        have hk := hpkeys u hu q hq
        have hueq : u = t := hbd u hu (q.1 - (b + u * dispOf true b n T))
          hk.2 t h1 p h2s (by omega)
        exact hut hueq)
    have hLHS : ts.flatten.getD c 0 =
        cntKey (recs.getD t []) (b + c) := by
      rw [h3, flatten_getD_decomp ts t p (by rw [c5]; omega) h2,
        hcellB t h1 p h2s, hblock t h1]
      have hkeq : b + t * dispOf true b n T + p =
          b + (t * dispOf true b n T + p) := by omega
      rw [hkeq]
    rw [hLHS]
    unfold sumCnt
    rw [hsingle]
  have hfc : ∀ m, m ≤ n → flatCum ts m = cumCnt recs T b m := by
    intro m
    induction m with
    | zero =>
        intro _
        rw [flatCum_zero]
        rfl
    | succ s ih =>
        intro hs
        unfold flatCum
        rw [take_succ_sum ts.flatten s (by rw [hflatlen]; omega)]
        have hfc2 : (ts.flatten.take s).sum = flatCum ts s := rfl
        rw [hfc2, ih (by omega), hflatgd s (by omega)]
        unfold cumCnt
        rw [List.range_succ, List.map_append, List.sum_append]
        simp
  have hfcn : flatCum ts n = (ts.map List.sum).sum :=
    flatCum_full ts n (by rw [hflatlen])
  have hcp : ∀ t, t < T → ∀ p, p ≤ slotSize true b n T t →
      cellPre ts t p = cumCnt recs T b (t * dispOf true b n T + p) := by
    intro t ht p hp
    have h1 := flatCum_decomp ts t p (by rw [c5]; omega)
      (by rw [hlenB t ht]; omega)
    rw [hblock t ht] at h1
    rw [← h1]
    have h2 := hslot_le t ht
    exact hfc _ (by omega)
  have hlast3 : (InitStorage true (applyBudgets true (InitBudget true
      (mkBuilder rptr0 data0 b) n T) buds)).rptr.getLastD 0 =
      fill + flatCum ts n := by
    rw [s9, hE]
  have hdlen3 : (InitStorage true (applyBudgets true (InitBudget true
      (mkBuilder rptr0 data0 b) n T) buds)).data.length =
      fill + flatCum ts n := by
    rw [s8, length_resizeFill, hlast3]
  have hcur : ∀ t, t < T → ∀ p, p < slotSize true b n T t →
      ((InitStorage true (applyBudgets true (InitBudget true
        (mkBuilder rptr0 data0 b) n T) buds)).thread_rptr.getD t []).getD p 0 =
      fill + cellPre ts t p := by
    intro t ht p hp
    rw [s7 t p, if_pos ⟨by rw [hlenB t ht]; omega, by rw [c5]; omega⟩]
  have hloceq : ∀ t, locRecs true (InitStorage true (applyBudgets true
      (InitBudget true (mkBuilder rptr0 data0 b) n T) buds)) recs t =
      (recs.getD t []).map
        (fun p => (p.1 - (b + t * dispOf true b n T), p.2)) := by
    intro t
    unfold locRecs
    rw [s10, s11]
    exact recsLoc_true_eq b _ t _
  have hcntloc : ∀ t, t < T → ∀ p,
      cntKey (locRecs true (InitStorage true (applyBudgets true
        (InitBudget true (mkBuilder rptr0 data0 b) n T) buds)) recs t) p =
      cntKey (recs.getD t []) (b + t * dispOf true b n T + p) := by
    intro t ht p
    rw [hloceq t]
    exact cntKey_shift _ _ p (fun q hq => (hpkeys t ht q hq).1)
  have hvalsloc : ∀ t, t < T → ∀ p,
      valsKey (locRecs true (InitStorage true (applyBudgets true
        (InitBudget true (mkBuilder rptr0 data0 b) n T) buds)) recs t) p =
      valsKey (recs.getD t []) (b + t * dispOf true b n T + p) := by
    intro t ht p
    rw [hloceq t]
    exact valsKey_shift _ _ p (fun q hq => (hpkeys t ht q hq).1)
  have hlen3 : ∀ t, t < T →
      ((InitStorage true (applyBudgets true (InitBudget true
        (mkBuilder rptr0 data0 b) n T) buds)).thread_rptr.getD t []).length =
      slotSize true b n T t := by
    intro t ht
    rw [s6 t, hlenB t ht]
  obtain ⟨q1, q2, q3, q4, q5, q6, q7, q8, q9, q10⟩ :=
    applyPushesAux_spec (default : α) true recs (List.range T)
      (InitStorage true (applyBudgets true (InitBudget true
        (mkBuilder rptr0 data0 b) n T) buds))
      (List.nodup_range T)
      (by
        intro i hi
        rw [List.mem_range] at hi
        rw [s5, c5]
        exact hi)
      (by
        intro t ht p hp
        rw [List.mem_range] at ht
        rw [hloceq t] at hp
        obtain ⟨p0, hp0, hpe⟩ := List.mem_map.mp hp
        have hkp := hpkeys t ht p0 hp0
        rw [hlen3 t ht, ← hpe]
        show p0.1 - (b + t * dispOf true b n T) < slotSize true b n T t
        omega)
      (by
        intro t ht p hp
        rw [List.mem_range] at ht
        rw [hlen3 t ht] at hp
        unfold cellVal
        rw [hcur t ht p hp, hcntloc t ht p, ← hcellB t ht p hp, hdlen3, hfcn]
        exact rmCur_bound ts fill t p (by rw [c5]; omega)
          (by rw [hlenB t ht]; omega))
      (by
        intro t1 ht1 t2 ht2 p1 hp1 p2 hp2 hne hc1 hc2
        rw [List.mem_range] at ht1 ht2
        rw [hlen3 t1 ht1] at hp1
        rw [hlen3 t2 ht2] at hp2
        unfold cellVal
        rw [hcur t1 ht1 p1 hp1, hcur t2 ht2 p2 hp2, hcntloc t1 ht1 p1,
          hcntloc t2 ht2 p2, ← hcellB t1 ht1 p1 hp1, ← hcellB t2 ht2 p2 hp2]
        rcases Nat.lt_trichotomy t1 t2 with ht | ht | ht
        · left
          exact rmCur_lt ts fill t1 p1 t2 p2 (by rw [c5]; omega)
            (by rw [hlenB t1 ht1]; omega) (Or.inl ht)
        · rcases Nat.lt_trichotomy p1 p2 with hp | hp | hp
          · left
            exact rmCur_lt ts fill t1 p1 t2 p2 (by rw [c5]; omega)
              (by rw [hlenB t1 ht1]; omega) (Or.inr ⟨ht, hp⟩)
          · exfalso
            rcases hne with h | h
            · exact h ht
            · exact h hp
          · right
            exact rmCur_lt ts fill t2 p2 t1 p1 (by rw [c5]; omega)
              (by rw [hlenB t2 ht2]; omega) (Or.inr ⟨ht.symm, hp⟩)
        · right
          exact rmCur_lt ts fill t2 p2 t1 p1 (by rw [c5]; omega)
            (by rw [hlenB t2 ht2]; omega) (Or.inl ht))
  have hfold : runProtocol true b rptr0 data0 n T buds recs =
      (List.range T).foldl
        (fun acc u => applyPushList true u acc (recs.getD u []))
        (InitStorage true (applyBudgets true (InitBudget true
          (mkBuilder rptr0 data0 b) n T) buds)) := by
    unfold runProtocol applyPushes
    rw [hrec]
  rw [hfold]
  refine ⟨?_, ?_, ?_, ?_, ?_, ?_, ?_, hslot_le⟩
  · rw [q1, s1, hE]
  · intro idx hidx
    rw [q1]
    by_cases h : idx < rptr0.length
    · rw [if_pos h, s2 idx hidx h]
    · rw [if_neg h, s3 idx hidx (by omega)]
  · intro idx h1 h2
    rw [q1, s4 idx h1 (by rw [hE]; omega), hfc (idx - b) (by omega)]
  · rw [q4, hdlen3, hfc n (Nat.le_refl _)]
  · intro q hq
    rw [q10 q (by
      intro t ht p hp
      rw [List.mem_range] at ht
      rw [hlen3 t ht] at hp
      right
      left
      unfold cellVal
      rw [hcur t ht p hp]
      omega)]
    rw [s8, gd_resizeFill, gd_resizeFill, if_pos (by rw [hlast3]; omega),
      if_pos hq]
  · intro t ht p hp r hr
    have hq9 := q9 t (by rw [List.mem_range]; omega) p r
      (by rw [hcntloc t ht p]; exact hr)
    unfold cellVal at hq9
    rw [hcur t ht p hp, hvalsloc t ht p] at hq9
    rw [hcp t ht p (by omega)] at hq9
    exact hq9
  · intro t ht p hp
    have hc : t * dispOf true b n T + p < n := by
      have h0 := hslot_le t ht
      omega
    have h1 := hflatgd (t * dispOf true b n T + p) hc
    have h2 := flatten_getD_decomp ts t p (by rw [c5]; omega)
      (by rw [hlenB t ht]; omega)
    rw [hblock t ht, hcellB t ht p hp] at h2
    have hassoc : b + (t * dispOf true b n T + p) =
        b + t * dispOf true b n T + p := by omega
    rw [hassoc] at h1
    omega

/-! Slice extraction: data[rptr k : rptr (k+1)] as a list, and its
assembly from the per-thread regions. -/

theorem gd_drop {α : Type} (d : α) :
    ∀ (l : List α) (a i : Nat), (l.drop a).getD i d = l.getD (a + i) d := by
  intro l
  induction l with
  | nil =>
      intro a i
      rw [List.drop_nil, gd_nil, gd_nil]
  | cons x xs ih =>
      intro a i
      cases a with
      | zero => rw [List.drop_zero, Nat.zero_add]
      | succ a2 =>
          rw [List.drop_succ_cons, ih a2 i]
          have h : a2 + 1 + i = (a2 + i) + 1 := by omega
          rw [h, gd_cons_succ]

theorem extract_length_eq {α : Type} (l : List α) (a m : Nat)
    (h : a + m ≤ l.length) : (extract l a m).length = m := by
  unfold extract
  rw [List.length_take, List.length_drop]
  omega

theorem gd_extract {α : Type} (d : α) (l : List α) (a m i : Nat)
    (h : i < m) : (extract l a m).getD i d = l.getD (a + i) d := by
  unfold extract
  rw [gd_take h, gd_drop]

theorem extract_eq_of_pointwise {α : Type} (dflt : α) (l : List α)
    (a m : Nat) (vals : List α) (hlen : a + m ≤ l.length)
    (hv : vals.length = m)
    (hp : ∀ r, r < m → l.getD (a + r) dflt = vals.getD r dflt) :
    extract l a m = vals := by
  apply ext_gd dflt
  · rw [extract_length_eq l a m hlen, hv]
  · intro i hi
    rw [extract_length_eq l a m hlen] at hi
    rw [gd_extract dflt l a m i hi, hp i hi]

theorem extract_split {α : Type} (l : List α) (a m1 m2 : Nat) :
    extract l a (m1 + m2) = extract l a m1 ++ extract l (a + m1) m2 := by
  unfold extract
  rw [List.take_add, List.drop_drop]

theorem catMap_cons {β γ : Type} (x : β) (l : List β) (f : β → List γ) :
    catMap (x :: l) f = f x ++ catMap l f := rfl

theorem sumCnt_succ {α : Type} (recs : List (List (Nat × α))) (s k : Nat) :
    sumCnt recs (s + 1) k = sumCnt recs s k + cntKey (recs.getD s []) k := by
  unfold sumCnt
  rw [List.range_succ, List.map_append, List.sum_append]
  simp

theorem sumCnt_mono {α : Type} (recs : List (List (Nat × α))) (k : Nat) :
    ∀ d s, sumCnt recs s k ≤ sumCnt recs (s + d) k := by
  intro d
  induction d with
  | zero => intro s; exact Nat.le_refl _
  | succ e ih =>
      intro s
      have h1 := ih s
      have h2 : s + (e + 1) = (s + e) + 1 := by omega
      rw [h2, sumCnt_succ]
      omega

theorem sumCnt_le {α : Type} (recs : List (List (Nat × α))) (k s1 s2 : Nat)
    (h : s1 ≤ s2) : sumCnt recs s1 k ≤ sumCnt recs s2 k := by
  have h2 : s2 = s1 + (s2 - s1) := by omega
  rw [h2]
  exact sumCnt_mono recs k (s2 - s1) s1

theorem cumCnt_succ {α : Type} (recs : List (List (Nat × α))) (T b m : Nat) :
    cumCnt recs T b (m + 1) = cumCnt recs T b m + sumCnt recs T (b + m) := by
  unfold cumCnt
  rw [List.range_succ, List.map_append, List.sum_append]
  simp

theorem cumCnt_mono {α : Type} (recs : List (List (Nat × α))) (T b : Nat) :
    ∀ d m, cumCnt recs T b m ≤ cumCnt recs T b (m + d) := by
  intro d
  induction d with
  | zero => intro m; exact Nat.le_refl _
  | succ e ih =>
      intro m
      have h1 := ih m
      have h2 : m + (e + 1) = (m + e) + 1 := by omega
      rw [h2, cumCnt_succ]
      omega

theorem cumCnt_le {α : Type} (recs : List (List (Nat × α))) (T b m1 m2 : Nat)
    (h : m1 ≤ m2) : cumCnt recs T b m1 ≤ cumCnt recs T b m2 := by
  have h2 : m2 = m1 + (m2 - m1) := by omega
  rw [h2]
  exact cumCnt_mono recs T b (m2 - m1) m1

theorem catMap_slice {α : Type} (dflt : α) (recs : List (List (Nat × α)))
    (D : List α) (A k T : Nat)
    (hbound : A + sumCnt recs T k ≤ D.length)
    (hw : ∀ t, t < T → ∀ r, r < cntKey (recs.getD t []) k →
      D.getD (A + sumCnt recs t k + r) dflt =
        (valsKey (recs.getD t []) k).getD r dflt) :
    extract D A (sumCnt recs T k) =
      catMap (List.range T) (fun t => valsKey (recs.getD t []) k) := by
  have haux : ∀ c s, s + c = T →
      extract D (A + sumCnt recs s k) (sumCnt recs T k - sumCnt recs s k) =
        catMap (List.range' s c) (fun t => valsKey (recs.getD t []) k) := by
    intro c
    induction c with
    | zero =>
        intro s hs
        have he : s = T := by omega
        subst he
        rw [Nat.sub_self]
        rfl
    | succ c2 ih =>
        intro s hs
        have hle : sumCnt recs (s + 1) k ≤ sumCnt recs T k :=
          sumCnt_le recs k (s + 1) T (by omega)
        have hsucc := sumCnt_succ recs s k
        have hsplit : sumCnt recs T k - sumCnt recs s k =
            cntKey (recs.getD s []) k +
              (sumCnt recs T k - sumCnt recs (s + 1) k) := by omega
        rw [hsplit, extract_split]
        have hpart1 : extract D (A + sumCnt recs s k)
            (cntKey (recs.getD s []) k) = valsKey (recs.getD s []) k := by
          apply extract_eq_of_pointwise dflt
          · omega
          · exact valsKey_length _ _
          · intro r hr
            exact hw s (by omega) r hr
        have hpos : A + sumCnt recs s k + cntKey (recs.getD s []) k =
            A + sumCnt recs (s + 1) k := by omega
        rw [hpart1, hpos, ih (s + 1) (by omega)]
        rfl
  have h0 := haux T 0 (by omega)
  have hz : sumCnt recs 0 k = 0 := rfl
  rw [hz, Nat.add_zero, Nat.sub_zero] at h0
  rw [h0, List.range_eq_range']

/-- C1: for every set of (key, value) records with a valid thread
assignment (thread ids below thread_count, keys in the build's range, in
partitioned mode each thread pushing only keys of its own block) and a
budget-compliant push phase (per key and thread, pushes = budgeted
total), running InitBudget, the AddBudget calls, InitStorage and the Push
calls leaves data[offset[k] : offset[k+1]] containing exactly the values
pushed for key k — in shared mode the threads' values concatenated in
thread-ascending order, each thread's block in its push order, and in
partitioned mode the single owning thread's values in push order. -/
theorem C1_data_layout {α : Type} [Inhabited α] :
    (∀ (rptr0 : List Nat) (data0 : List α) (b n T : Nat)
      (buds : List (List (Nat × Nat))) (recs : List (List (Nat × α))),
      1 ≤ T → b ≤ n → buds.length = T → recs.length = T →
      ((b = 0 ∧ rptr0 = []) ∨ rptr0.length = b + 1) →
      (∀ t, t < T → ∀ p ∈ buds.getD t [], b ≤ p.1 ∧ p.1 < n) →
      (∀ t, t < T → ∀ p ∈ recs.getD t [], b ≤ p.1 ∧ p.1 < n) →
      (∀ t, t < T → ∀ k, k < n →
        cntKey (recs.getD t []) k = budSum (buds.getD t []) k) →
      ∀ k, b ≤ k → k < n →
        extract (runProtocol false b rptr0 data0 n T buds recs).data
          ((runProtocol false b rptr0 data0 n T buds recs).rptr.getD k 0)
          ((runProtocol false b rptr0 data0 n T buds recs).rptr.getD (k + 1) 0 -
            (runProtocol false b rptr0 data0 n T buds recs).rptr.getD k 0) =
          catMap (List.range T) (fun t => valsKey (recs.getD t []) k)) ∧
    (∀ (rptr0 : List Nat) (data0 : List α) (b n T : Nat)
      (buds : List (List (Nat × Nat))) (recs : List (List (Nat × α))),
      1 ≤ T → buds.length = T → recs.length = T →
      ((b = 0 ∧ rptr0 = []) ∨ rptr0.length = b + 1) →
      (∀ t, t < T → ∀ p ∈ buds.getD t [],
        b + t * dispOf true b n T ≤ p.1 ∧
        p.1 - (b + t * dispOf true b n T) < slotSize true b n T t) →
      (∀ t, t < T → ∀ p ∈ recs.getD t [],
        b + t * dispOf true b n T ≤ p.1 ∧
        p.1 - (b + t * dispOf true b n T) < slotSize true b n T t) →
      (∀ t, t < T → ∀ k, k < b + n →
        cntKey (recs.getD t []) k = budSum (buds.getD t []) k) →
      ∀ t, t < T → ∀ k, b + t * dispOf true b n T ≤ k →
        k - (b + t * dispOf true b n T) < slotSize true b n T t →
        extract (runProtocol true b rptr0 data0 n T buds recs).data
          ((runProtocol true b rptr0 data0 n T buds recs).rptr.getD k 0)
          ((runProtocol true b rptr0 data0 n T buds recs).rptr.getD (k + 1) 0 -
            (runProtocol true b rptr0 data0 n T buds recs).rptr.getD k 0) =
          valsKey (recs.getD t []) k) := by
  constructor
  · intro rptr0 data0 b n T buds recs hT hbn hbud hrec hshape hbk hpk hcompl
      k hk1 hk2
    obtain ⟨m1, m2, m3, m4, m5, m6⟩ :=
      sharedProtocol_spec rptr0 data0 b n T buds recs hT hbn hbud hrec hshape
        hbk hpk hcompl
    rw [m3 k hk1 (by omega), m3 (k + 1) (by omega) (by omega)]
    have hkeq : b + (k - b) = k := by omega
    have hwidth : rptr0.getLastD 0 + cumCnt recs T b (k + 1 - b) -
        (rptr0.getLastD 0 + cumCnt recs T b (k - b)) = sumCnt recs T k := by
      have h1 : k + 1 - b = (k - b) + 1 := by omega
      rw [h1, cumCnt_succ, hkeq]
      omega
    rw [hwidth]
    apply catMap_slice default recs _ _ k T
    · rw [m4]
      have h1 := cumCnt_succ recs T b (k - b)
      rw [hkeq] at h1
      have h2 : cumCnt recs T b (k - b + 1) ≤ cumCnt recs T b (n - b) :=
        cumCnt_le recs T b _ _ (by omega)
      omega
    · intro t ht r hr
      have hm6 := m6 t ht (k - b) (by omega) r (by rw [hkeq]; exact hr)
      rw [hkeq] at hm6
      exact hm6
  · intro rptr0 data0 b n T buds recs hT hbud hrec hshape hbk hpk hcompl
      t ht k hk1 hk2
    obtain ⟨m1, m2, m3, m4, m5, m6, m7, m8⟩ :=
      rmProtocol_spec rptr0 data0 b n T buds recs hT hbud hrec hshape
        hbk hpk hcompl
    have hsl := m8 t ht
    have hkb : k - b =
        t * dispOf true b n T + (k - (b + t * dispOf true b n T)) := by
      omega
    rw [m3 k (by omega) (by omega), m3 (k + 1) (by omega) (by omega)]
    have hm7 := m7 t ht (k - (b + t * dispOf true b n T)) hk2
    have hkeq : b + t * dispOf true b n T +
        (k - (b + t * dispOf true b n T)) = k := by omega
    rw [hkeq] at hm7
    have hwidth : rptr0.getLastD 0 + cumCnt recs T b (k + 1 - b) -
        (rptr0.getLastD 0 + cumCnt recs T b (k - b)) =
        cntKey (recs.getD t []) k := by
      have h1 : k + 1 - b = (k - b) + 1 := by omega
      rw [h1, cumCnt_succ]
      have h2 : b + (k - b) = k := by omega
      rw [h2, hm7]
      omega
    rw [hwidth]
    apply extract_eq_of_pointwise default
    · rw [m4]
      have h1 := cumCnt_succ recs T b (k - b)
      have h2 : b + (k - b) = k := by omega
      rw [h2] at h1
      have h3 : cumCnt recs T b (k - b + 1) ≤ cumCnt recs T b n :=
        cumCnt_le recs T b _ _ (by omega)
      omega
    · exact valsKey_length _ _
    · intro r hr
      have hm6 := m6 t ht (k - (b + t * dispOf true b n T)) hk2 r
        (by rw [hkeq]; exact hr)
      rw [hkeq, ← hkb] at hm6
      exact hm6

/-- Witness for C1: one thread, shared mode, fresh build over one key,
one budgeted and pushed value. -/
theorem C1_witness :
    1 ≤ 1 ∧
    extract (runProtocol false 0 [] ([] : List Nat) 1 1
        [[(0, 1)]] [[(0, 5)]]).data
      ((runProtocol false 0 [] ([] : List Nat) 1 1
        [[(0, 1)]] [[(0, 5)]]).rptr.getD 0 0)
      ((runProtocol false 0 [] ([] : List Nat) 1 1
        [[(0, 1)]] [[(0, 5)]]).rptr.getD (0 + 1) 0 -
        (runProtocol false 0 [] ([] : List Nat) 1 1
          [[(0, 1)]] [[(0, 5)]]).rptr.getD 0 0) =
      catMap (List.range 1)
        (fun t => valsKey (([[(0, 5)]] :
          List (List (Nat × Nat))).getD t []) 0) :=
  ⟨by decide,
    C1_data_layout.1 [] [] 0 1 1 [[(0, 1)]] [[(0, 5)]] (by decide) (by decide)
      rfl rfl (Or.inl ⟨rfl, rfl⟩) (by decide) (by decide) (by decide)
      0 (by decide) (by decide)⟩

/-! Helper algebra for the incremental-vs-one-shot comparison: counts and
values of appended record lists, the two-call key split, and whole-list
decomposition of the final data array. -/

theorem cntKey_append {α : Type} (rs1 rs2 : List (Nat × α)) (k : Nat) :
    cntKey (rs1 ++ rs2) k = cntKey rs1 k + cntKey rs2 k := by
  unfold cntKey
  rw [List.filter_append, List.length_append]

theorem valsKey_append {α : Type} (rs1 rs2 : List (Nat × α)) (k : Nat) :
    valsKey (rs1 ++ rs2) k = valsKey rs1 k ++ valsKey rs2 k := by
  unfold valsKey
  rw [List.filter_append, List.map_append]

theorem budSum_append (bs1 bs2 : List (Nat × Nat)) (k : Nat) :
    budSum (bs1 ++ bs2) k = budSum bs1 k + budSum bs2 k := by
  unfold budSum
  rw [List.filter_append, List.map_append, List.sum_append]

theorem valsKey_nil_of_notmem {α : Type} :
    ∀ (rs : List (Nat × α)) (k : Nat), (∀ p ∈ rs, p.1 ≠ k) →
      valsKey rs k = [] := by
  intro rs
  induction rs with
  | nil => intro k _; rfl
  | cons p rest ih =>
      intro k h
      obtain ⟨k0, v⟩ := p
      rw [valsKey_cons, if_neg (h (k0, v) (by simp)),
        ih k (fun q hq => h q (by simp [hq]))]

theorem budSum_zero_of_notmem :
    ∀ (bs : List (Nat × Nat)) (k : Nat), (∀ p ∈ bs, p.1 ≠ k) →
      budSum bs k = 0 := by
  intro bs
  induction bs with
  | nil => intro k _; rfl
  | cons p rest ih =>
      intro k h
      obtain ⟨k0, v⟩ := p
      unfold budSum
      rw [List.filter_cons_of_neg (by simpa using h (k0, v) (by simp))]
      exact ih k (fun q hq => h q (by simp [hq]))

theorem zipWith_append_getD {β : Type} :
    ∀ (l1 l2 : List (List β)) (t : Nat), t < l1.length → t < l2.length →
      (List.zipWith (fun a c => a ++ c) l1 l2).getD t [] =
        l1.getD t [] ++ l2.getD t [] := by
  intro l1
  induction l1 with
  | nil => intro l2 t ht; simp at ht
  | cons x xs ih =>
      intro l2 t ht1 ht2
      cases l2 with
      | nil => simp at ht2
      | cons y ys =>
          cases t with
          | zero => rfl
          | succ s =>
              rw [List.zipWith_cons_cons, gd_cons_succ, gd_cons_succ,
                gd_cons_succ, ih ys s (by simpa using ht1) (by simpa using ht2)]

theorem catMap_append {β γ : Type} (l1 l2 : List β) (f : β → List γ) :
    catMap (l1 ++ l2) f = catMap l1 f ++ catMap l2 f := by
  unfold catMap
  rw [List.map_append, List.flatten_append]

theorem catMap_congr {β γ : Type} (l : List β) (f g : β → List γ)
    (h : ∀ x ∈ l, f x = g x) : catMap l f = catMap l g := by
  unfold catMap
  rw [List.map_congr_left h]

theorem catMap_map {β β2 γ : Type} (l : List β) (g : β → β2)
    (f : β2 → List γ) : catMap (l.map g) f = catMap l (fun x => f (g x)) := by
  unfold catMap
  rw [List.map_map]
  rfl

theorem sumCnt_ext {α : Type} (A B : List (List (Nat × α))) (k : Nat) :
    ∀ s, (∀ t, t < s → cntKey (A.getD t []) k = cntKey (B.getD t []) k) →
      sumCnt A s k = sumCnt B s k := by
  intro s h
  unfold sumCnt
  apply congrArg List.sum
  apply List.map_congr_left
  intro t ht
  rw [List.mem_range] at ht
  exact h t ht

theorem sumCnt_zero_of {α : Type} (A : List (List (Nat × α))) (k : Nat)
    (s : Nat) (h : ∀ t, t < s → cntKey (A.getD t []) k = 0) :
    sumCnt A s k = 0 := by
  unfold sumCnt
  apply List.sum_eq_zero
  intro x hx
  obtain ⟨t, ht, he⟩ := List.mem_map.mp hx
  rw [List.mem_range] at ht
  rw [← he]
  exact h t ht

theorem cumCnt_ext {α : Type} (A B : List (List (Nat × α))) (T bA bB m : Nat)
    (h : ∀ j, j < m → sumCnt A T (bA + j) = sumCnt B T (bB + j)) :
    cumCnt A T bA m = cumCnt B T bB m := by
  unfold cumCnt
  apply congrArg List.sum
  apply List.map_congr_left
  intro j hj
  rw [List.mem_range] at hj
  exact h j hj

theorem cumCnt_split {α : Type} (recs : List (List (Nat × α))) (T m : Nat) :
    ∀ d, cumCnt recs T 0 (m + d) = cumCnt recs T 0 m + cumCnt recs T m d := by
  intro d
  induction d with
  | zero => rfl
  | succ e ih =>
      have h1 : m + (e + 1) = (m + e) + 1 := by omega
      rw [h1, cumCnt_succ, ih, cumCnt_succ]
      have h2 : 0 + (m + e) = m + e := by omega
      rw [h2]
      omega

theorem resizeFill_self {α : Type} (l : List α) (x : α) :
    resizeFill l l.length x = l := by
  unfold resizeFill
  rw [if_pos (Nat.le_refl _), List.take_length]

theorem extract_all {α : Type} (l : List α) (a : Nat) :
    l = extract l 0 a ++ extract l a (l.length - a) := by
  unfold extract
  rw [List.drop_zero,
    List.take_of_length_le (le_of_eq (List.length_drop a l))]
  exact (List.take_append_drop a l).symm

theorem sharedProtocol_data_closed {α : Type} [Inhabited α]
    (rptr0 : List Nat) (data0 : List α) (b n T : Nat)
    (buds : List (List (Nat × Nat))) (recs : List (List (Nat × α)))
    (hT : 1 ≤ T) (hbn : b ≤ n)
    (hbud : buds.length = T) (hrec : recs.length = T)
    (hshape : (b = 0 ∧ rptr0 = []) ∨ rptr0.length = b + 1)
    (hbkeys : ∀ t, t < T → ∀ p ∈ buds.getD t [], b ≤ p.1 ∧ p.1 < n)
    (hpkeys : ∀ t, t < T → ∀ p ∈ recs.getD t [], b ≤ p.1 ∧ p.1 < n)
    (hcompl : ∀ t, t < T → ∀ k, k < n →
      cntKey (recs.getD t []) k = budSum (buds.getD t []) k) :
    (runProtocol false b rptr0 data0 n T buds recs).data =
      resizeFill data0 (rptr0.getLastD 0) default ++
        catMap (List.range (n - b)) (fun j =>
          catMap (List.range T)
            (fun t => valsKey (recs.getD t []) (b + j))) := by
  obtain ⟨m1, m2, m3, m4, m5, m6⟩ :=
    sharedProtocol_spec rptr0 data0 b n T buds recs hT hbn hbud hrec hshape
      hbkeys hpkeys hcompl
  have hsplit := extract_all
    (runProtocol false b rptr0 data0 n T buds recs).data (rptr0.getLastD 0)
  have hlen2 : (runProtocol false b rptr0 data0 n T buds recs).data.length -
      rptr0.getLastD 0 = cumCnt recs T b (n - b) := by
    rw [m4]
    omega
  rw [hlen2] at hsplit
  have h1 : extract (runProtocol false b rptr0 data0 n T buds recs).data 0
      (rptr0.getLastD 0) = resizeFill data0 (rptr0.getLastD 0) default := by
    apply extract_eq_of_pointwise default
    · rw [m4]
      omega
    · exact length_resizeFill _ _ _
    · intro r hr
      rw [Nat.zero_add]
      exact m5 r hr
  have haux : ∀ c s, s + c = n - b →
      extract (runProtocol false b rptr0 data0 n T buds recs).data
        (rptr0.getLastD 0 + cumCnt recs T b s)
        (cumCnt recs T b (n - b) - cumCnt recs T b s) =
      catMap (List.range' s c) (fun j =>
        catMap (List.range T)
          (fun t => valsKey (recs.getD t []) (b + j))) := by
    intro c
    induction c with
    | zero =>
        intro s hs
        have he : s = n - b := by omega
        subst he
        rw [Nat.sub_self]
        rfl
    | succ c2 ih =>
        intro s hs
        have hcle : cumCnt recs T b (s + 1) ≤ cumCnt recs T b (n - b) :=
          cumCnt_le recs T b _ _ (by omega)
        have hcs := cumCnt_succ recs T b s
        have hsplit2 : cumCnt recs T b (n - b) - cumCnt recs T b s =
            sumCnt recs T (b + s) +
              (cumCnt recs T b (n - b) - cumCnt recs T b (s + 1)) := by omega
        rw [hsplit2, extract_split]
        have hpart1 : extract
            (runProtocol false b rptr0 data0 n T buds recs).data
            (rptr0.getLastD 0 + cumCnt recs T b s) (sumCnt recs T (b + s)) =
            catMap (List.range T)
              (fun t => valsKey (recs.getD t []) (b + s)) := by
          apply catMap_slice default recs
          · rw [m4]
            omega
          · intro t ht r hr
            exact m6 t ht s (by omega) r hr
        rw [hpart1]
        have hpos : rptr0.getLastD 0 + cumCnt recs T b s +
            sumCnt recs T (b + s) =
            rptr0.getLastD 0 + cumCnt recs T b (s + 1) := by omega
        rw [hpos, ih (s + 1) (by omega)]
        rfl
  have h0 := haux (n - b) 0 (by omega)
  have hz : cumCnt recs T b 0 = 0 := rfl
  rw [hz, Nat.add_zero, Nat.sub_zero] at h0
  conv_lhs => rw [hsplit]
  rw [h1, h0, List.range_eq_range' (n - b)]

theorem sumCnt_add_of {α : Type} (A B C : List (List (Nat × α))) (k : Nat) :
    ∀ s, (∀ t, t < s → cntKey (A.getD t []) k =
        cntKey (B.getD t []) k + cntKey (C.getD t []) k) →
      sumCnt A s k = sumCnt B s k + sumCnt C s k := by
  intro s
  induction s with
  | zero => intro _; rfl
  | succ e ih =>
      intro h
      rw [sumCnt_succ, sumCnt_succ, sumCnt_succ,
        ih (fun t ht => h t (by omega)), h e (by omega)]
      omega

/-- C2 as amended (shared mode only): building incrementally in two
calls — first with base 0 over keys below the split point m, then with
base m over keys in [m, n), reusing the arrays the first call produced —
yields an offset array and a data array identical to a single build over
all the records with base 0 and max_key n.  (The original claim asserted
this for both modes; C2_counterexample shows it fails in partitioned
mode.) -/
theorem C2_amended_shared_two_call {α : Type} [Inhabited α]
    (m n T : Nat) (buds1 buds2 : List (List (Nat × Nat)))
    (recs1 recs2 : List (List (Nat × α)))
    (hT : 1 ≤ T) (hmn : m ≤ n)
    (hb1 : buds1.length = T) (hr1 : recs1.length = T)
    (hb2 : buds2.length = T) (hr2 : recs2.length = T)
    (hbk1 : ∀ t, t < T → ∀ p ∈ buds1.getD t [], p.1 < m)
    (hpk1 : ∀ t, t < T → ∀ p ∈ recs1.getD t [], p.1 < m)
    (hbk2 : ∀ t, t < T → ∀ p ∈ buds2.getD t [], m ≤ p.1 ∧ p.1 < n)
    (hpk2 : ∀ t, t < T → ∀ p ∈ recs2.getD t [], m ≤ p.1 ∧ p.1 < n)
    (hcompl1 : ∀ t, t < T → ∀ k, k < m →
      cntKey (recs1.getD t []) k = budSum (buds1.getD t []) k)
    (hcompl2 : ∀ t, t < T → ∀ k, k < n →
      cntKey (recs2.getD t []) k = budSum (buds2.getD t []) k) :
    (runProtocol false m
        (runProtocol false 0 [] ([] : List α) m T buds1 recs1).rptr
        (runProtocol false 0 [] ([] : List α) m T buds1 recs1).data
        n T buds2 recs2).rptr =
      (runProtocol false 0 [] ([] : List α) n T
        (List.zipWith (fun a c => a ++ c) buds1 buds2)
        (List.zipWith (fun a c => a ++ c) recs1 recs2)).rptr ∧
    (runProtocol false m
        (runProtocol false 0 [] ([] : List α) m T buds1 recs1).rptr
        (runProtocol false 0 [] ([] : List α) m T buds1 recs1).data
        n T buds2 recs2).data =
      (runProtocol false 0 [] ([] : List α) n T
        (List.zipWith (fun a c => a ++ c) buds1 buds2)
        (List.zipWith (fun a c => a ++ c) recs1 recs2)).data := by
  have hBAlen : (List.zipWith (fun a c => a ++ c) buds1 buds2).length = T := by
    rw [List.length_zipWith, hb1, hb2, Nat.min_self]
  have hRAlen : (List.zipWith (fun a c => a ++ c) recs1 recs2).length = T := by
    rw [List.length_zipWith, hr1, hr2, Nat.min_self]
  have hBAget : ∀ t, t < T →
      (List.zipWith (fun a c => a ++ c) buds1 buds2).getD t [] =
        buds1.getD t [] ++ buds2.getD t [] := by
    intro t ht
    exact zipWith_append_getD buds1 buds2 t (by omega) (by omega)
  have hRAget : ∀ t, t < T →
      (List.zipWith (fun a c => a ++ c) recs1 recs2).getD t [] =
        recs1.getD t [] ++ recs2.getD t [] := by
    intro t ht
    exact zipWith_append_getD recs1 recs2 t (by omega) (by omega)
  have hbkA : ∀ t, t < T →
      ∀ p ∈ (List.zipWith (fun a c => a ++ c) buds1 buds2).getD t [],
      0 ≤ p.1 ∧ p.1 < n := by
    intro t ht p hp
    rw [hBAget t ht] at hp
    rcases List.mem_append.mp hp with h | h
    · have := hbk1 t ht p h
      omega
    · have := hbk2 t ht p h
      omega
  have hpkA : ∀ t, t < T →
      ∀ p ∈ (List.zipWith (fun a c => a ++ c) recs1 recs2).getD t [],
      0 ≤ p.1 ∧ p.1 < n := by
    intro t ht p hp
    rw [hRAget t ht] at hp
    rcases List.mem_append.mp hp with h | h
    · have := hpk1 t ht p h
      omega
    · have := hpk2 t ht p h
      omega
  have hcomplA : ∀ t, t < T → ∀ k, k < n →
      cntKey ((List.zipWith (fun a c => a ++ c) recs1 recs2).getD t []) k =
      budSum ((List.zipWith (fun a c => a ++ c) buds1 buds2).getD t []) k := by
    intro t ht k hk
    rw [hRAget t ht, hBAget t ht, cntKey_append, budSum_append]
    by_cases hkm : k < m
    · rw [cntKey_zero_of_notmem (recs2.getD t []) k
        (fun p hp => by have := hpk2 t ht p hp; omega),
        budSum_zero_of_notmem (buds2.getD t []) k
        (fun p hp => by have := hbk2 t ht p hp; omega),
        hcompl1 t ht k hkm]
    · rw [cntKey_zero_of_notmem (recs1.getD t []) k
        (fun p hp => by have := hpk1 t ht p hp; omega),
        budSum_zero_of_notmem (buds1.getD t []) k
        (fun p hp => by have := hbk1 t ht p hp; omega),
        hcompl2 t ht k hk]
  obtain ⟨a1, a2, a3, a4, a5, a6⟩ :=
    sharedProtocol_spec [] ([] : List α) 0 m T buds1 recs1 hT (Nat.zero_le m)
      hb1 hr1 (Or.inl ⟨rfl, rfl⟩)
      (fun t ht p hp => ⟨Nat.zero_le _, hbk1 t ht p hp⟩)
      (fun t ht p hp => ⟨Nat.zero_le _, hpk1 t ht p hp⟩) hcompl1
  obtain ⟨c1, c2, c3, c4, c5, c6⟩ :=
    sharedProtocol_spec
      (runProtocol false 0 [] ([] : List α) m T buds1 recs1).rptr
      (runProtocol false 0 [] ([] : List α) m T buds1 recs1).data
      m n T buds2 recs2 hT hmn hb2 hr2 (Or.inr a1) hbk2 hpk2 hcompl2
  obtain ⟨g1, g2, g3, g4, g5, g6⟩ :=
    sharedProtocol_spec [] ([] : List α) 0 n T
      (List.zipWith (fun a c => a ++ c) buds1 buds2)
      (List.zipWith (fun a c => a ++ c) recs1 recs2)
      hT (Nat.zero_le n) hBAlen hRAlen (Or.inl ⟨rfl, rfl⟩) hbkA hpkA hcomplA
  have hz0 : (([] : List Nat)).getLastD 0 = 0 := rfl
  have hs2z : ∀ k, k < m →
      sumCnt recs2 T k = 0 := by
    intro k hk
    apply sumCnt_zero_of
    intro t ht
    exact cntKey_zero_of_notmem _ _
      (fun p hp => by have := hpk2 t ht p hp; omega)
  have hs1z : ∀ k, m ≤ k →
      sumCnt recs1 T k = 0 := by
    intro k hk
    apply sumCnt_zero_of
    intro t ht
    exact cntKey_zero_of_notmem _ _
      (fun p hp => by have := hpk1 t ht p hp; omega)
  have hsA : ∀ k,
      sumCnt (List.zipWith (fun a c => a ++ c) recs1 recs2) T k =
        sumCnt recs1 T k + sumCnt recs2 T k := by
    intro k
    apply sumCnt_add_of
    intro t ht
    rw [hRAget t ht, cntKey_append]
  have hcumA1 : ∀ w, w ≤ m →
      cumCnt (List.zipWith (fun a c => a ++ c) recs1 recs2) T 0 w =
        cumCnt recs1 T 0 w := by
    intro w hw
    apply cumCnt_ext
    intro j hj
    rw [hsA (0 + j), hs2z (0 + j) (by omega)]
    omega
  have hcumA2 : ∀ w, w ≤ n - m →
      cumCnt (List.zipWith (fun a c => a ++ c) recs1 recs2) T m w =
        cumCnt recs2 T m w := by
    intro w hw
    apply cumCnt_ext
    intro j hj
    rw [hsA (m + j), hs1z (m + j) (by omega)]
    omega
  have hfill1 : (runProtocol false 0 [] ([] : List α) m T
      buds1 recs1).rptr.getLastD 0 = cumCnt recs1 T 0 m := by
    rw [getLastD_eq_gd, a1]
    have h1 : m + 1 - 1 = m := by omega
    rw [h1, a3 m (Nat.zero_le m) (Nat.le_refl m), hz0]
    rw [Nat.sub_zero, Nat.zero_add]
  constructor
  · apply ext_gd 0
    · rw [c1, g1]
    · intro idx hidx
      rw [c1] at hidx
      by_cases him : idx < m
      · rw [c2 idx him, if_pos (by rw [a1]; omega)]
        rw [a3 idx (Nat.zero_le idx) (by omega),
          g3 idx (Nat.zero_le idx) (by omega), hz0, Nat.zero_add,
          Nat.zero_add, Nat.sub_zero, hcumA1 idx (by omega)]
      · rw [c3 idx (by omega) (by omega),
          g3 idx (Nat.zero_le idx) (by omega), hz0, Nat.zero_add,
          Nat.sub_zero, hfill1]
        have hsplit : idx = m + (idx - m) := by omega
        have hA : cumCnt (List.zipWith (fun a c => a ++ c) recs1 recs2)
            T 0 idx =
            cumCnt (List.zipWith (fun a c => a ++ c) recs1 recs2) T 0 m +
            cumCnt (List.zipWith (fun a c => a ++ c) recs1 recs2) T m
              (idx - m) := by
          conv_lhs => rw [hsplit]
          exact cumCnt_split _ T m (idx - m)
        rw [hA, hcumA1 m (Nat.le_refl m), hcumA2 (idx - m) (by omega)]
  · have hD1 := sharedProtocol_data_closed [] ([] : List α) 0 m T buds1 recs1
      hT (Nat.zero_le m) hb1 hr1 (Or.inl ⟨rfl, rfl⟩)
      (fun t ht p hp => ⟨Nat.zero_le _, hbk1 t ht p hp⟩)
      (fun t ht p hp => ⟨Nat.zero_le _, hpk1 t ht p hp⟩) hcompl1
    have hD2 := sharedProtocol_data_closed
      (runProtocol false 0 [] ([] : List α) m T buds1 recs1).rptr
      (runProtocol false 0 [] ([] : List α) m T buds1 recs1).data
      m n T buds2 recs2 hT hmn hb2 hr2 (Or.inr a1) hbk2 hpk2 hcompl2
    have hDA := sharedProtocol_data_closed [] ([] : List α) 0 n T
      (List.zipWith (fun a c => a ++ c) buds1 buds2)
      (List.zipWith (fun a c => a ++ c) recs1 recs2)
      hT (Nat.zero_le n) hBAlen hRAlen (Or.inl ⟨rfl, rfl⟩) hbkA hpkA hcomplA
    have hrz : resizeFill ([] : List α) (([] : List Nat).getLastD 0) default =
        [] := rfl
    rw [hrz, List.nil_append, Nat.sub_zero] at hD1 hDA
    have hd1len : (runProtocol false 0 [] ([] : List α) m T
        buds1 recs1).data.length = cumCnt recs1 T 0 m := by
      rw [a4, hz0, Nat.zero_add, Nat.sub_zero]
    have hrsz : resizeFill
        (runProtocol false 0 [] ([] : List α) m T buds1 recs1).data
        ((runProtocol false 0 [] ([] : List α) m T
          buds1 recs1).rptr.getLastD 0) default =
        (runProtocol false 0 [] ([] : List α) m T buds1 recs1).data := by
      rw [hfill1, ← hd1len, resizeFill_self]
    rw [hD2, hrsz, hDA, hD1]
    have hrange : List.range n =
        List.range m ++ (List.range (n - m)).map (fun j => m + j) := by
      have h := List.range_add m (n - m)
      rw [show m + (n - m) = n from by omega] at h
      exact h
    rw [hrange, catMap_append, catMap_map]
    congr 1
    · apply catMap_congr
      intro j hj
      rw [List.mem_range] at hj
      apply catMap_congr
      intro t ht
      rw [List.mem_range] at ht
      rw [hRAget t ht, valsKey_append,
        valsKey_nil_of_notmem (recs2.getD t []) (0 + j)
          (fun p hp => by have := hpk2 t ht p hp; omega),
        List.append_nil]
    · apply catMap_congr
      intro j hj
      rw [List.mem_range] at hj
      apply catMap_congr
      intro t ht
      rw [List.mem_range] at ht
      rw [Nat.zero_add, hRAget t ht, valsKey_append,
        valsKey_nil_of_notmem (recs1.getD t []) (m + j)
          (fun p hp => by have := hpk1 t ht p hp; omega),
        List.nil_append]

/-- Witness for C2 as amended: one thread, split point 1, keys 0 and 1,
one value per key. -/
theorem C2_amended_witness :
    1 ≤ 1 ∧ 1 ≤ 2 ∧
    ((runProtocol false 1
        (runProtocol false 0 [] ([] : List Nat) 1 1 [[(0, 1)]] [[(0, 7)]]).rptr
        (runProtocol false 0 [] ([] : List Nat) 1 1 [[(0, 1)]] [[(0, 7)]]).data
        2 1 [[(1, 1)]] [[(1, 9)]]).rptr =
      (runProtocol false 0 [] ([] : List Nat) 2 1
        (List.zipWith (fun a c => a ++ c) [[(0, 1)]] [[(1, 1)]])
        (List.zipWith (fun a c => a ++ c) [[(0, 7)]] [[(1, 9)]])).rptr ∧
     (runProtocol false 1
        (runProtocol false 0 [] ([] : List Nat) 1 1 [[(0, 1)]] [[(0, 7)]]).rptr
        (runProtocol false 0 [] ([] : List Nat) 1 1 [[(0, 1)]] [[(0, 7)]]).data
        2 1 [[(1, 1)]] [[(1, 9)]]).data =
      (runProtocol false 0 [] ([] : List Nat) 2 1
        (List.zipWith (fun a c => a ++ c) [[(0, 1)]] [[(1, 1)]])
        (List.zipWith (fun a c => a ++ c) [[(0, 7)]] [[(1, 9)]])).data) :=
  ⟨by decide, by decide,
    C2_amended_shared_two_call 1 2 1 [[(0, 1)]] [[(1, 1)]] [[(0, 7)]]
      [[(1, 9)]] (by decide) (by decide) rfl rfl rfl rfl (by decide)
      (by decide) (by decide) (by decide) (by decide) (by decide)⟩

/-! Write-once machinery: the multiset of data positions written by the
push phase tiles the newly reserved interval exactly. -/

theorem intervalM_zero (a : Nat) : intervalM a 0 = 0 := rfl

theorem intervalM_succ_left (a n : Nat) :
    intervalM a (n + 1) = {a} + intervalM (a + 1) n := by
  unfold intervalM
  rw [List.range'_succ]
  rfl

theorem intervalM_add (a p q : Nat) :
    intervalM a (p + q) = intervalM a p + intervalM (a + p) q := by
  unfold intervalM
  have h := List.range'_append_1 a p q
  rw [show p + q = q + p from by omega, ← h]
  rfl

theorem sum_map_add_distrib {β M : Type} [AddCommMonoid M] (l : List β)
    (f g : β → M) :
    (l.map (fun x => f x + g x)).sum = (l.map f).sum + (l.map g).sum := by
  induction l with
  | nil => simp
  | cons x xs ih =>
      rw [List.map_cons, List.map_cons, List.map_cons, List.sum_cons,
        List.sum_cons, List.sum_cons, ih]
      abel

theorem sum_map_range_split {M : Type} [AddCommMonoid M] (f g : Nat → M)
    (x : M) :
    ∀ N j0, j0 < N → f j0 = x + g j0 → (∀ j, j < N → j ≠ j0 → f j = g j) →
      ((List.range N).map f).sum = x + ((List.range N).map g).sum := by
  intro N
  induction N with
  | zero => intro j0 h; omega
  | succ S ih =>
      intro j0 hj0 h0 h
      rw [List.range_succ, List.map_append, List.map_append, List.sum_append,
        List.sum_append]
      by_cases he : j0 = S
      · subst he
        have hmaps : (List.range j0).map f = (List.range j0).map g :=
          List.map_congr_left (fun j hj => h j
            (by rw [List.mem_range] at hj; omega)
            (by rw [List.mem_range] at hj; omega))
        rw [hmaps]
        simp only [List.map_cons, List.map_nil, List.sum_cons, List.sum_nil]
        rw [h0]
        abel
      · have hS : f S = g S := h S (by omega) (fun hh => he hh.symm)
        simp only [List.map_cons, List.map_nil, List.sum_cons, List.sum_nil]
        rw [ih j0 (by omega) h0 (fun j hj hne => h j (by omega) hne), hS]
        abel

theorem sum_map_range_comm {M : Type} [AddCommMonoid M] (f : Nat → Nat → M) :
    ∀ (A B : Nat),
      ((List.range A).map (fun a =>
        ((List.range B).map (fun c => f a c)).sum)).sum =
      ((List.range B).map (fun c =>
        ((List.range A).map (fun a => f a c)).sum)).sum := by
  intro A
  induction A with
  | zero =>
      intro B
      show (0 : M) = _
      rw [eq_comm]
      apply List.sum_eq_zero
      intro y hy
      obtain ⟨c, hc, he⟩ := List.mem_map.mp hy
      rw [← he]
      rfl
  | succ S ih =>
      intro B
      conv_lhs => rw [List.range_succ, List.map_append, List.sum_append]
      simp only [List.map_cons, List.map_nil, List.sum_cons, List.sum_nil]
      rw [ih B]
      have hr : ((List.range B).map (fun c =>
          ((List.range (S + 1)).map (fun a => f a c)).sum)).sum =
          ((List.range B).map (fun c =>
            ((List.range S).map (fun a => f a c)).sum)).sum +
          ((List.range B).map (fun c => f S c)).sum := by
        rw [← sum_map_add_distrib]
        apply congrArg List.sum
        apply List.map_congr_left
        intro c hc
        rw [List.range_succ, List.map_append, List.sum_append]
        simp only [List.map_cons, List.map_nil, List.sum_cons, List.sum_nil]
        abel
      rw [hr]
      abel

theorem pushLocRun_trace {α : Type} :
    ∀ (rsl : List (Nat × α)) (d : List α) (tr : List Nat),
      (∀ p ∈ rsl, p.1 < tr.length) →
      (((pushLocRun d tr rsl).2.2 : List Nat) : Multiset Nat) =
        ((List.range tr.length).map
          (fun j => intervalM (tr.getD j 0) (cntKey rsl j))).sum := by
  intro rsl
  induction rsl with
  | nil =>
      intro d tr _
      show (0 : Multiset Nat) = _
      rw [eq_comm]
      apply List.sum_eq_zero
      intro y hy
      obtain ⟨j, hj, he⟩ := List.mem_map.mp hy
      rw [← he]
      rfl
  | cons q rest ih =>
      intro d tr hkeys
      obtain ⟨j0, v⟩ := q
      have hj0 : j0 < tr.length := hkeys (j0, v) (by simp)
      rw [pushLocRun_cons]
      have hIH := ih (d.set (tr.getD j0 0) v) (tr.set j0 (tr.getD j0 0 + 1))
        (by
          intro p hp
          rw [List.length_set]
          exact hkeys p (by simp [hp]))
      rw [List.length_set] at hIH
      show (((tr.getD j0 0 :: (pushLocRun (d.set (tr.getD j0 0) v)
          (tr.set j0 (tr.getD j0 0 + 1)) rest).2.2) : List Nat) :
          Multiset Nat) = _
      have hcoe : (((tr.getD j0 0 :: (pushLocRun (d.set (tr.getD j0 0) v)
          (tr.set j0 (tr.getD j0 0 + 1)) rest).2.2) : List Nat) :
          Multiset Nat) =
          {tr.getD j0 0} +
          (((pushLocRun (d.set (tr.getD j0 0) v)
            (tr.set j0 (tr.getD j0 0 + 1)) rest).2.2 : List Nat) :
            Multiset Nat) := rfl
      rw [hcoe, hIH]
      rw [sum_map_range_split
        (fun j => intervalM (tr.getD j 0) (cntKey ((j0, v) :: rest) j))
        (fun j => intervalM ((tr.set j0 (tr.getD j0 0 + 1)).getD j 0)
          (cntKey rest j))
        {tr.getD j0 0} tr.length j0 hj0
        (by
          show intervalM (tr.getD j0 0) (cntKey ((j0, v) :: rest) j0) =
            {tr.getD j0 0} +
              intervalM ((tr.set j0 (tr.getD j0 0 + 1)).getD j0 0)
                (cntKey rest j0)
          rw [cntKey_cons, if_pos rfl, gd_set_eq hj0]
          rw [show 1 + cntKey rest j0 = cntKey rest j0 + 1 from by omega]
          exact intervalM_succ_left _ _)
        (by
          intro j hj hne
          show intervalM (tr.getD j 0) (cntKey ((j0, v) :: rest) j) =
            intervalM ((tr.set j0 (tr.getD j0 0 + 1)).getD j 0)
              (cntKey rest j)
          rw [cntKey_cons, if_neg (fun h => hne h.symm),
            gd_set_ne (fun h => hne h.symm), Nat.zero_add])]

theorem catMap_coe_sum {β : Type} (l : List β) (f : β → List Nat) :
    ((catMap l f : List Nat) : Multiset Nat) =
      (l.map (fun x => ((f x : List Nat) : Multiset Nat))).sum := by
  induction l with
  | nil => rfl
  | cons x xs ih =>
      rw [catMap_cons, List.map_cons, List.sum_cons, ← ih]
      rfl

theorem tile_threads (b i : Nat) :
    ∀ (ts : List (List Nat)) (A : Nat),
      (∀ t, t < ts.length → i < (ts.getD t []).length + b) →
      ((List.range ts.length).map (fun t =>
        intervalM (A + takeContrib ts b i t)
          ((ts.getD t []).getD (i - b) 0))).sum =
      intervalM A (rowContrib ts b i) := by
  intro ts
  induction ts with
  | nil => intro A _; rfl
  | cons tr rest ih =>
      intro A hin
      rw [List.length_cons, List.range_succ_eq_map, List.map_cons,
        List.sum_cons, List.map_map]
      have hpt : ∀ t ∈ List.range rest.length,
          ((fun t => intervalM (A + takeContrib (tr :: rest) b i t)
            (((tr :: rest).getD t []).getD (i - b) 0)) ∘ Nat.succ) t =
          intervalM (A + tr.getD (i - b) 0 + takeContrib rest b i t)
            ((rest.getD t []).getD (i - b) 0) := by
        intro t ht
        show intervalM (A + takeContrib (tr :: rest) b i (t + 1))
          (((tr :: rest).getD (t + 1) []).getD (i - b) 0) = _
        rw [takeContrib_cons_succ, gd_cons_succ,
          if_pos (show i < tr.length + b from hin 0 (by simp)),
          ← Nat.add_assoc]
      rw [List.map_congr_left hpt,
        ih (A + tr.getD (i - b) 0) (fun t ht => hin (t + 1) (by simp; omega))]
      show intervalM (A + takeContrib (tr :: rest) b i 0)
        (((tr :: rest).getD 0 []).getD (i - b) 0) + _ = _
      rw [takeContrib_zero, Nat.add_zero, gd_cons_zero, rowContrib_cons,
        if_pos (show i < tr.length + b from hin 0 (by simp))]
      exact (intervalM_add A _ _).symm

theorem tile_keys_shared (ts : List (List Nat)) (b fill : Nat) :
    ∀ L, ((List.range L).map (fun j =>
        intervalM (fill + cumFrom ts b 0 j) (rowContrib ts b (b + j)))).sum =
      intervalM fill (cumFrom ts b 0 L) := by
  intro L
  induction L with
  | zero => rfl
  | succ S ih =>
      rw [List.range_succ, List.map_append, List.sum_append, ih]
      simp only [List.map_cons, List.map_nil, List.sum_cons, List.sum_nil]
      have h1 := cumFrom_succ_back ts b S 0
      have h1b : b + 0 + S = b + S := by omega
      rw [h1b] at h1
      rw [h1, intervalM_add fill (cumFrom ts b 0 S) (rowContrib ts b (b + S))]
      abel

theorem tile_cells_rm :
    ∀ (tr : List Nat) (A : Nat),
      ((List.range tr.length).map (fun p2 =>
        intervalM (A + (tr.take p2).sum) (tr.getD p2 0))).sum =
      intervalM A tr.sum := by
  intro tr
  induction tr with
  | nil => intro A; rfl
  | cons x xs ih =>
      intro A
      rw [List.length_cons, List.range_succ_eq_map, List.map_cons,
        List.sum_cons, List.map_map]
      have hpt : ∀ p2 ∈ List.range xs.length,
          ((fun p2 => intervalM (A + ((x :: xs).take p2).sum)
            ((x :: xs).getD p2 0)) ∘ Nat.succ) p2 =
          intervalM (A + x + (xs.take p2).sum) (xs.getD p2 0) := by
        intro p2 hp2
        show intervalM (A + ((x :: xs).take (p2 + 1)).sum)
          ((x :: xs).getD (p2 + 1) 0) = _
        rw [List.take_succ_cons, List.sum_cons, gd_cons_succ, ← Nat.add_assoc]
      rw [List.map_congr_left hpt, ih (A + x)]
      show intervalM (A + ((x :: xs).take 0).sum) ((x :: xs).getD 0 0) + _ = _
      rw [List.take_zero, List.sum_nil, Nat.add_zero, gd_cons_zero,
        List.sum_cons]
      exact (intervalM_add A x xs.sum).symm

theorem tile_threads_rm :
    ∀ (ts : List (List Nat)) (fill : Nat),
      ((List.range ts.length).map (fun t =>
        intervalM (fill + threadStart ts t) (ts.getD t []).sum)).sum =
      intervalM fill ((ts.map List.sum).sum) := by
  intro ts
  induction ts with
  | nil => intro fill; rfl
  | cons tr rest ih =>
      intro fill
      rw [List.length_cons, List.range_succ_eq_map, List.map_cons,
        List.sum_cons, List.map_map]
      have hpt : ∀ t ∈ List.range rest.length,
          ((fun t => intervalM (fill + threadStart (tr :: rest) t)
            ((tr :: rest).getD t []).sum) ∘ Nat.succ) t =
          intervalM (fill + tr.sum + threadStart rest t)
            (rest.getD t []).sum := by
        intro t ht
        show intervalM (fill + threadStart (tr :: rest) (t + 1))
          ((tr :: rest).getD (t + 1) []).sum = _
        rw [threadStart_cons_succ, gd_cons_succ, ← Nat.add_assoc]
      rw [List.map_congr_left hpt, ih (fill + tr.sum)]
      show intervalM (fill + threadStart (tr :: rest) 0)
        ((tr :: rest).getD 0 []).sum + _ = _
      rw [threadStart_zero, Nat.add_zero, gd_cons_zero, List.map_cons,
        List.sum_cons]
      exact (intervalM_add fill tr.sum ((rest.map List.sum).sum)).symm

theorem pushTrace_eq_locRecs {α : Type} (rm : Bool) (bld : Builder α)
    (recs : List (List (Nat × α))) :
    pushTrace rm bld recs = catMap (List.range recs.length) (fun t =>
      (pushLocRun ([] : List α) (bld.thread_rptr.getD t [])
        (locRecs rm bld recs t)).2.2) := rfl

theorem sharedRegions_spec {α : Type} [Inhabited α]
    (rptr0 : List Nat) (data0 : List α) (b n T : Nat)
    (buds : List (List (Nat × Nat))) (recs : List (List (Nat × α)))
    (hT : 1 ≤ T) (hbn : b ≤ n)
    (hbud : buds.length = T) (hrec : recs.length = T)
    (hshape : (b = 0 ∧ rptr0 = []) ∨ rptr0.length = b + 1)
    (hbkeys : ∀ t, t < T → ∀ p ∈ buds.getD t [], b ≤ p.1 ∧ p.1 < n)
    (hpkeys : ∀ t, t < T → ∀ p ∈ recs.getD t [], b ≤ p.1 ∧ p.1 < n)
    (hcompl : ∀ t, t < T → ∀ k, k < n →
      cntKey (recs.getD t []) k = budSum (buds.getD t []) k) :
    (∀ t1 j1 t2 j2, t1 < T → t2 < T → j1 < n - b → j2 < n - b →
      t1 ≠ t2 ∨ j1 ≠ j2 →
      cellVal (InitStorage false (applyBudgets false (InitBudget false
          (mkBuilder rptr0 data0 b) n T) buds)) t1 j1 +
        cellVal (applyBudgets false (InitBudget false
          (mkBuilder rptr0 data0 b) n T) buds) t1 j1 ≤
      cellVal (InitStorage false (applyBudgets false (InitBudget false
          (mkBuilder rptr0 data0 b) n T) buds)) t2 j2 ∨
      cellVal (InitStorage false (applyBudgets false (InitBudget false
          (mkBuilder rptr0 data0 b) n T) buds)) t2 j2 +
        cellVal (applyBudgets false (InitBudget false
          (mkBuilder rptr0 data0 b) n T) buds) t2 j2 ≤
      cellVal (InitStorage false (applyBudgets false (InitBudget false
          (mkBuilder rptr0 data0 b) n T) buds)) t1 j1) ∧
    ((pushTrace false (InitStorage false (applyBudgets false (InitBudget false
        (mkBuilder rptr0 data0 b) n T) buds)) recs : List Nat) :
        Multiset Nat) =
      intervalM (rptr0.getLastD 0) (cumCnt recs T b (n - b)) := by
  have hslot : ∀ t, slotSize false b n T t = n - b := by
    intro t
    unfold slotSize fullSize
    simp [Nat.min_eq_left hbn]
  obtain ⟨c1, c2, c3, c4, c5, c6⟩ :=
    budgetPhase_char (α := α) false rptr0 data0 b n T buds hbud
  have hvalid : ∀ t, t < T → ∀ p ∈ buds.getD t [],
      offsetKey false b (dispOf false b n T) p.1 t + 1 ≤
        slotSize false b n T t := by
    intro t ht p hp
    have hkp := hbkeys t ht p hp
    rw [hslot t]
    show p.1 - b + 1 ≤ n - b
    omega
  have hlenB := budgetPhase_lengths (α := α) false rptr0 data0 b n T buds
    hbud hvalid
  have hcellB : ∀ t, t < T → ∀ j, j < n - b →
      ((applyBudgets false (InitBudget false (mkBuilder rptr0 data0 b) n T)
        buds).thread_rptr.getD t []).getD j 0 =
      cntKey (recs.getD t []) (b + j) := by
    intro t ht j hj
    rw [c6 t ht, budFold_gd, gd_replicate_zero, Nat.zero_add]
    rw [recsLoc_false_eq, budSum_shift b (buds.getD t []) j
      (fun p hp => (hbkeys t ht p hp).1)]
    rw [hcompl t ht (b + j) (by omega)]
  have hts1 : 1 ≤ (applyBudgets false (InitBudget false
      (mkBuilder rptr0 data0 b) n T) buds).thread_rptr.length := by
    rw [c5]
    omega
  have hshape2 : (applyBudgets false (InitBudget false
      (mkBuilder rptr0 data0 b) n T) buds).rptr.length ≤
      (applyBudgets false (InitBudget false
        (mkBuilder rptr0 data0 b) n T) buds).base_row_offset + 1 := by
    rw [c1, c3]
    rcases hshape with ⟨_, h2⟩ | h
    · rw [h2]
      simp
    · omega
  obtain ⟨s1, s2, s3, s4, s5, s6, s7, s8, s9, s10, s11⟩ :=
    InitStorage_shared_char (applyBudgets false (InitBudget false
      (mkBuilder rptr0 data0 b) n T) buds) hts1 hshape2
  simp only [c1, c2, c3, c4] at s1 s2 s3 s4 s5 s6 s7 s8 s9 s10 s11
  set ts := (applyBudgets false (InitBudget false
    (mkBuilder rptr0 data0 b) n T) buds).thread_rptr with hts0
  set fill := rptr0.getLastD 0 with hfill
  have hlenB2 : ∀ t, t < T → (ts.getD t []).length = n - b := by
    intro t ht
    rw [hlenB t ht, hslot t]
  have hcum := cumFrom_counts recs ts b T (n - b) c5 hlenB2 hcellB
  have hcur : ∀ t, t < T → ∀ j, j < n - b →
      ((InitStorage false (applyBudgets false (InitBudget false
        (mkBuilder rptr0 data0 b) n T) buds)).thread_rptr.getD t []).getD j 0 =
      fill + cumFrom ts b 0 j + takeContrib ts b (b + j) t := by
    intro t ht j hj
    rw [s7 t j, if_pos ⟨by rw [hlenB2 t ht]; omega, by rw [c5]; omega⟩]
  have hloceq : ∀ t, locRecs false (InitStorage false (applyBudgets false
      (InitBudget false (mkBuilder rptr0 data0 b) n T) buds)) recs t =
      (recs.getD t []).map (fun p => (p.1 - b, p.2)) := by
    intro t
    unfold locRecs
    rw [s10, s11]
    exact recsLoc_false_eq b _ t _
  have hcntloc : ∀ t, t < T → ∀ j,
      cntKey (locRecs false (InitStorage false (applyBudgets false
        (InitBudget false (mkBuilder rptr0 data0 b) n T) buds)) recs t) j =
      cntKey (recs.getD t []) (b + j) := by
    intro t ht j
    rw [hloceq t]
    exact cntKey_shift b _ j (fun p hp => (hpkeys t ht p hp).1)
  have hlen3 : ∀ t, t < T →
      ((InitStorage false (applyBudgets false (InitBudget false
        (mkBuilder rptr0 data0 b) n T) buds)).thread_rptr.getD t []).length =
      n - b := by
    intro t ht
    rw [s6 t, hlenB2 t ht]
  constructor
  · intro t1 j1 t2 j2 ht1 ht2 hj1 hj2 hne
    have hw2 : ∀ t j, cellVal (applyBudgets false (InitBudget false
        (mkBuilder rptr0 data0 b) n T) buds) t j =
        (ts.getD t []).getD j 0 := by
      intro t j
      rw [hts0]
      rfl
    have hw3 : ∀ t j, cellVal (InitStorage false (applyBudgets false
        (InitBudget false (mkBuilder rptr0 data0 b) n T) buds)) t j =
        ((InitStorage false (applyBudgets false (InitBudget false
          (mkBuilder rptr0 data0 b) n T) buds)).thread_rptr.getD t
            []).getD j 0 :=
      fun t j => rfl
    rw [hw3 t1 j1, hw3 t2 j2, hw2 t1 j1, hw2 t2 j2,
      hcur t1 ht1 j1 hj1, hcur t2 ht2 j2 hj2]
    rcases Nat.lt_trichotomy j1 j2 with hj | hj | hj
    · left
      exact sharedCur_lt ts b fill t1 j1 t2 j2 (by rw [c5]; omega)
        (by rw [hlenB2 t1 ht1]; omega) (Or.inl hj)
    · rcases Nat.lt_trichotomy t1 t2 with htt | htt | htt
      · left
        exact sharedCur_lt ts b fill t1 j1 t2 j2 (by rw [c5]; omega)
          (by rw [hlenB2 t1 ht1]; omega) (Or.inr ⟨hj, htt⟩)
      · exfalso
        rcases hne with h | h
        · exact h htt
        · exact h hj
      · right
        exact sharedCur_lt ts b fill t2 j2 t1 j1 (by rw [c5]; omega)
          (by rw [hlenB2 t2 ht2]; omega) (Or.inr ⟨hj.symm, htt⟩)
    · right
      exact sharedCur_lt ts b fill t2 j2 t1 j1 (by rw [c5]; omega)
        (by rw [hlenB2 t2 ht2]; omega) (Or.inl hj)
  · have hloc2 : ∀ t, t < T → ∀ p ∈ locRecs false (InitStorage false
        (applyBudgets false (InitBudget false (mkBuilder rptr0 data0 b) n T)
          buds)) recs t,
        p.1 < ((InitStorage false (applyBudgets false (InitBudget false
          (mkBuilder rptr0 data0 b) n T)
            buds)).thread_rptr.getD t []).length := by
      intro t ht p hp
      rw [hloceq t] at hp
      obtain ⟨p0, hp0, hpe⟩ := List.mem_map.mp hp
      have hkp := hpkeys t ht p0 hp0
      rw [hlen3 t ht, ← hpe]
      show p0.1 - b < n - b
      omega
    have hcat : pushTrace false (InitStorage false (applyBudgets false
        (InitBudget false (mkBuilder rptr0 data0 b) n T) buds)) recs =
        catMap (List.range T) (fun t =>
          (pushLocRun ([] : List α) ((InitStorage false (applyBudgets false
            (InitBudget false (mkBuilder rptr0 data0 b) n T)
              buds)).thread_rptr.getD t [])
            (locRecs false (InitStorage false (applyBudgets false
              (InitBudget false (mkBuilder rptr0 data0 b) n T) buds))
              recs t)).2.2) := by
      rw [pushTrace_eq_locRecs, hrec]
    have hptA : ∀ t ∈ List.range T,
        (((pushLocRun ([] : List α) ((InitStorage false (applyBudgets false
          (InitBudget false (mkBuilder rptr0 data0 b) n T)
            buds)).thread_rptr.getD t [])
          (locRecs false (InitStorage false (applyBudgets false
            (InitBudget false (mkBuilder rptr0 data0 b) n T) buds))
            recs t)).2.2 : List Nat) : Multiset Nat) =
        ((List.range (n - b)).map (fun j =>
          intervalM (fill + cumFrom ts b 0 j + takeContrib ts b (b + j) t)
            ((ts.getD t []).getD j 0))).sum := by
      intro t ht
      rw [List.mem_range] at ht
      rw [pushLocRun_trace (locRecs false (InitStorage false (applyBudgets
        false (InitBudget false (mkBuilder rptr0 data0 b) n T) buds)) recs t)
        ([] : List α) ((InitStorage false (applyBudgets false (InitBudget
          false (mkBuilder rptr0 data0 b) n T) buds)).thread_rptr.getD t [])
        (hloc2 t ht)]
      rw [hlen3 t ht]
      apply congrArg List.sum
      apply List.map_congr_left
      intro j hj
      rw [List.mem_range] at hj
      rw [hcur t ht j hj, hcntloc t ht j, ← hcellB t ht j hj]
    calc (((pushTrace false (InitStorage false (applyBudgets false
          (InitBudget false (mkBuilder rptr0 data0 b) n T) buds)) recs) :
            List Nat) : Multiset Nat)
        = ((List.range T).map (fun t =>
            (((pushLocRun ([] : List α) ((InitStorage false (applyBudgets
              false (InitBudget false (mkBuilder rptr0 data0 b) n T)
                buds)).thread_rptr.getD t [])
              (locRecs false (InitStorage false (applyBudgets false
                (InitBudget false (mkBuilder rptr0 data0 b) n T) buds))
                recs t)).2.2 : List Nat) : Multiset Nat))).sum := by
          rw [hcat]
          exact catMap_coe_sum (List.range T) _
      _ = ((List.range T).map (fun t => ((List.range (n - b)).map (fun j =>
            intervalM (fill + cumFrom ts b 0 j + takeContrib ts b (b + j) t)
              ((ts.getD t []).getD j 0))).sum)).sum :=
          congrArg List.sum (List.map_congr_left hptA)
      _ = ((List.range (n - b)).map (fun j => ((List.range T).map (fun t =>
            intervalM (fill + cumFrom ts b 0 j + takeContrib ts b (b + j) t)
              ((ts.getD t []).getD j 0))).sum)).sum :=
          sum_map_range_comm (fun t j =>
            intervalM (fill + cumFrom ts b 0 j + takeContrib ts b (b + j) t)
              ((ts.getD t []).getD j 0)) T (n - b)
      _ = ((List.range (n - b)).map (fun j =>
            intervalM (fill + cumFrom ts b 0 j)
              (rowContrib ts b (b + j)))).sum := by
          apply congrArg List.sum
          apply List.map_congr_left
          intro j hj
          rw [List.mem_range] at hj
          have h0 := tile_threads b (b + j) ts (fill + cumFrom ts b 0 j)
            (by
              intro t ht
              rw [c5] at ht
              rw [hlenB2 t ht]
              omega)
          rw [c5] at h0
          rw [show b + j - b = j from by omega] at h0
          exact h0
      _ = intervalM fill (cumFrom ts b 0 (n - b)) :=
          tile_keys_shared ts b fill (n - b)
      _ = intervalM fill (cumCnt recs T b (n - b)) := by
          rw [hcum (n - b) (Nat.le_refl _)]

theorem rmRegions_spec {α : Type} [Inhabited α]
    (rptr0 : List Nat) (data0 : List α) (b n T : Nat)
    (buds : List (List (Nat × Nat))) (recs : List (List (Nat × α)))
    (hT : 1 ≤ T)
    (hbud : buds.length = T) (hrec : recs.length = T)
    (hshape : (b = 0 ∧ rptr0 = []) ∨ rptr0.length = b + 1)
    (hbkeys : ∀ t, t < T → ∀ p ∈ buds.getD t [],
      b + t * dispOf true b n T ≤ p.1 ∧
      p.1 - (b + t * dispOf true b n T) < slotSize true b n T t)
    (hpkeys : ∀ t, t < T → ∀ p ∈ recs.getD t [],
      b + t * dispOf true b n T ≤ p.1 ∧
      p.1 - (b + t * dispOf true b n T) < slotSize true b n T t)
    (hcompl : ∀ t, t < T → ∀ k, k < b + n →
      cntKey (recs.getD t []) k = budSum (buds.getD t []) k) :
    (∀ t1 p1 t2 p2, t1 < T → t2 < T → p1 < slotSize true b n T t1 →
      p2 < slotSize true b n T t2 → t1 ≠ t2 ∨ p1 ≠ p2 →
      cellVal (InitStorage true (applyBudgets true (InitBudget true
          (mkBuilder rptr0 data0 b) n T) buds)) t1 p1 +
        cellVal (applyBudgets true (InitBudget true
          (mkBuilder rptr0 data0 b) n T) buds) t1 p1 ≤
      cellVal (InitStorage true (applyBudgets true (InitBudget true
          (mkBuilder rptr0 data0 b) n T) buds)) t2 p2 ∨
      cellVal (InitStorage true (applyBudgets true (InitBudget true
          (mkBuilder rptr0 data0 b) n T) buds)) t2 p2 +
        cellVal (applyBudgets true (InitBudget true
          (mkBuilder rptr0 data0 b) n T) buds) t2 p2 ≤
      cellVal (InitStorage true (applyBudgets true (InitBudget true
          (mkBuilder rptr0 data0 b) n T) buds)) t1 p1) ∧
    ((pushTrace true (InitStorage true (applyBudgets true (InitBudget true
        (mkBuilder rptr0 data0 b) n T) buds)) recs : List Nat) :
        Multiset Nat) =
      intervalM (rptr0.getLastD 0) (cumCnt recs T b n) := by
  have hTd : (T - 1) * dispOf true b n T ≤ n := by
    have h1 : dispOf true b n T = n / T := rfl
    rw [h1]
    have h2 : (T - 1) * (n / T) ≤ T * (n / T) :=
      Nat.mul_le_mul_right _ (by omega)
    have h3 : T * (n / T) ≤ n := by
      rw [Nat.mul_comm]
      exact Nat.div_mul_le_self n T
    omega
  have hslotd : ∀ t, t + 1 ≠ T →
      slotSize true b n T t = dispOf true b n T := by
    intro t h
    show (if t + 1 = T then fullSize true b n - (T - 1) * dispOf true b n T
      else dispOf true b n T) = dispOf true b n T
    rw [if_neg h]
  have hslot_le : ∀ t, t < T →
      t * dispOf true b n T + slotSize true b n T t ≤ n := by
    intro t ht
    by_cases h : t + 1 = T
    · have hsl : slotSize true b n T t =
          n - (T - 1) * dispOf true b n T := by
        show (if t + 1 = T then fullSize true b n -
          (T - 1) * dispOf true b n T else dispOf true b n T) = _
        rw [if_pos h]
        rfl
      rw [hsl]
      have ht1 : t = T - 1 := by omega
      rw [ht1]
      omega
    · rw [hslotd t h]
      have h2 : t * dispOf true b n T + dispOf true b n T =
          (t + 1) * dispOf true b n T := by ring
      have h3 : (t + 1) * dispOf true b n T ≤ (T - 1) * dispOf true b n T :=
        Nat.mul_le_mul_right _ (by omega)
      omega
  have hbd : ∀ u, u < T → ∀ pu, pu < slotSize true b n T u →
      ∀ v, v < T → ∀ pv, pv < slotSize true b n T v →
      u * dispOf true b n T + pu = v * dispOf true b n T + pv → u = v := by
    intro u hu pu hpu v hv pv hpv he
    rcases Nat.lt_trichotomy u v with h | h | h
    · exfalso
      rw [hslotd u (by omega)] at hpu
      have h2 : (u + 1) * dispOf true b n T ≤ v * dispOf true b n T :=
        Nat.mul_le_mul_right _ (by omega)
      have h3 : u * dispOf true b n T + dispOf true b n T =
          (u + 1) * dispOf true b n T := by ring
      omega
    · exact h
    · exfalso
      rw [hslotd v (by omega)] at hpv
      have h2 : (v + 1) * dispOf true b n T ≤ u * dispOf true b n T :=
        Nat.mul_le_mul_right _ (by omega)
      have h3 : v * dispOf true b n T + dispOf true b n T =
          (v + 1) * dispOf true b n T := by ring
      omega
  obtain ⟨c1, c2, c3, c4, c5, c6⟩ :=
    budgetPhase_char (α := α) true rptr0 data0 b n T buds hbud
  have hvalid : ∀ t, t < T → ∀ p ∈ buds.getD t [],
      offsetKey true b (dispOf true b n T) p.1 t + 1 ≤
        slotSize true b n T t := by
    intro t ht p hp
    have hkp := hbkeys t ht p hp
    show p.1 - b - t * dispOf true b n T + 1 ≤ slotSize true b n T t
    rw [Nat.sub_sub]
    omega
  have hlenB := budgetPhase_lengths (α := α) true rptr0 data0 b n T buds
    hbud hvalid
  have hshape2 : (applyBudgets true (InitBudget true
      (mkBuilder rptr0 data0 b) n T) buds).rptr.length ≤
      (applyBudgets true (InitBudget true
        (mkBuilder rptr0 data0 b) n T) buds).base_row_offset + 1 := by
    rw [c1, c3]
    rcases hshape with ⟨_, h2⟩ | h
    · rw [h2]
      simp
    · omega
  obtain ⟨s1, s2, s3, s4, s5, s6, s7, s8, s9, s10, s11⟩ :=
    InitStorage_rm_char (applyBudgets true (InitBudget true
      (mkBuilder rptr0 data0 b) n T) buds) hshape2
  simp only [c1, c2, c3, c4] at s1 s2 s3 s4 s5 s6 s7 s8 s9 s10 s11
  set ts := (applyBudgets true (InitBudget true
    (mkBuilder rptr0 data0 b) n T) buds).thread_rptr with hts0
  set fill := rptr0.getLastD 0 with hfill
  have hcellB : ∀ t, t < T → ∀ p, p < slotSize true b n T t →
      (ts.getD t []).getD p 0 =
        cntKey (recs.getD t []) (b + t * dispOf true b n T + p) := by
    intro t ht p hp
    rw [c6 t ht, budFold_gd, gd_replicate_zero, Nat.zero_add]
    rw [recsLoc_true_eq, budSum_shift (b + t * dispOf true b n T)
      (buds.getD t []) p (fun q hq => (hbkeys t ht q hq).1)]
    have hk : b + t * dispOf true b n T + p < b + n := by
      have h0 := hslot_le t ht
      omega
    rw [hcompl t ht (b + t * dispOf true b n T + p) hk]
  have hE : (ts.map List.length).sum = n := by
    rw [sum_map_length_of_gd ts (fun t => slotSize true b n T t)
      (by intro t ht; rw [c5] at ht; exact hlenB t ht), c5]
    exact range_sum_slot_rm b n T hT
  have hflatlen : ts.flatten.length = n := by
    rw [flatten_length_eq, hE]
  have hblock : ∀ t, t < T →
      ((ts.take t).map List.length).sum = t * dispOf true b n T := by
    intro t
    induction t with
    | zero => intro _; simp
    | succ s ih =>
        intro hs
        rw [take_map_sum_succ ([] : List Nat) List.length ts s
          (by rw [c5]; omega), ih (by omega), hlenB s (by omega),
          hslotd s (by omega)]
        ring
  have hflatgd : ∀ c, c < n →
      ts.flatten.getD c 0 = sumCnt recs T (b + c) := by
    intro c hc
    obtain ⟨t, p, h1, h2, h3⟩ := flat_decomp ts c (by rw [hflatlen]; omega)
    rw [c5] at h1
    have hb3 : c = t * dispOf true b n T + p := by
      rw [h3, hblock t h1]
    have h2s : p < slotSize true b n T t := by
      rw [← hlenB t h1]
      exact h2
    have hsingle := sum_map_range_single
      (fun u => cntKey (recs.getD u []) (b + c)) T t h1 (by
        intro u hu hut
        apply cntKey_zero_of_notmem
        intro q hq hqk
        have hk := hpkeys u hu q hq
        have hueq : u = t := hbd u hu (q.1 - (b + u * dispOf true b n T))
          hk.2 t h1 p h2s (by omega)
        exact hut hueq)
    have hLHS : ts.flatten.getD c 0 =
        cntKey (recs.getD t []) (b + c) := by
      rw [h3, flatten_getD_decomp ts t p (by rw [c5]; omega) h2,
        hcellB t h1 p h2s, hblock t h1]
      have hkeq : b + t * dispOf true b n T + p =
          b + (t * dispOf true b n T + p) := by omega
      rw [hkeq]
    rw [hLHS]
    unfold sumCnt
    rw [hsingle]
  have hfc : ∀ m, m ≤ n → flatCum ts m = cumCnt recs T b m := by
    intro m
    induction m with
    | zero =>
        intro _
        rw [flatCum_zero]
        rfl
    | succ s ih =>
        intro hs
        unfold flatCum
        rw [take_succ_sum ts.flatten s (by rw [hflatlen]; omega)]
        have hfc2 : (ts.flatten.take s).sum = flatCum ts s := rfl
        rw [hfc2, ih (by omega), hflatgd s (by omega)]
        unfold cumCnt
        rw [List.range_succ, List.map_append, List.sum_append]
        simp
  have hfcn : flatCum ts n = (ts.map List.sum).sum :=
    flatCum_full ts n (by rw [hflatlen])
  have hcur : ∀ t, t < T → ∀ p, p < slotSize true b n T t →
      ((InitStorage true (applyBudgets true (InitBudget true
        (mkBuilder rptr0 data0 b) n T) buds)).thread_rptr.getD t []).getD p 0 =
      fill + cellPre ts t p := by
    intro t ht p hp
    rw [s7 t p, if_pos ⟨by rw [hlenB t ht]; omega, by rw [c5]; omega⟩]
  have hloceq : ∀ t, locRecs true (InitStorage true (applyBudgets true
      (InitBudget true (mkBuilder rptr0 data0 b) n T) buds)) recs t =
      (recs.getD t []).map
        (fun p => (p.1 - (b + t * dispOf true b n T), p.2)) := by
    intro t
    unfold locRecs
    rw [s10, s11]
    exact recsLoc_true_eq b _ t _
  have hcntloc : ∀ t, t < T → ∀ p,
      cntKey (locRecs true (InitStorage true (applyBudgets true
        (InitBudget true (mkBuilder rptr0 data0 b) n T) buds)) recs t) p =
      cntKey (recs.getD t []) (b + t * dispOf true b n T + p) := by
    intro t ht p
    rw [hloceq t]
    exact cntKey_shift _ _ p (fun q hq => (hpkeys t ht q hq).1)
  have hlen3 : ∀ t, t < T →
      ((InitStorage true (applyBudgets true (InitBudget true
        (mkBuilder rptr0 data0 b) n T) buds)).thread_rptr.getD t []).length =
      slotSize true b n T t := by
    intro t ht
    rw [s6 t, hlenB t ht]
  constructor
  · intro t1 p1 t2 p2 ht1 ht2 hp1 hp2 hne
    have hw2 : ∀ t p, cellVal (applyBudgets true (InitBudget true
        (mkBuilder rptr0 data0 b) n T) buds) t p =
        (ts.getD t []).getD p 0 := by
      intro t p
      rw [hts0]
      rfl
    have hw3 : ∀ t p, cellVal (InitStorage true (applyBudgets true
        (InitBudget true (mkBuilder rptr0 data0 b) n T) buds)) t p =
        ((InitStorage true (applyBudgets true (InitBudget true
          (mkBuilder rptr0 data0 b) n T) buds)).thread_rptr.getD t
            []).getD p 0 :=
      fun t p => rfl
    rw [hw3 t1 p1, hw3 t2 p2, hw2 t1 p1, hw2 t2 p2,
      hcur t1 ht1 p1 hp1, hcur t2 ht2 p2 hp2]
    rcases Nat.lt_trichotomy t1 t2 with ht | ht | ht
    · left
      exact rmCur_lt ts fill t1 p1 t2 p2 (by rw [c5]; omega)
        (by rw [hlenB t1 ht1]; omega) (Or.inl ht)
    · rcases Nat.lt_trichotomy p1 p2 with hp | hp | hp
      · left
        exact rmCur_lt ts fill t1 p1 t2 p2 (by rw [c5]; omega)
          (by rw [hlenB t1 ht1]; omega) (Or.inr ⟨ht, hp⟩)
      · exfalso
        rcases hne with h | h
        · exact h ht
        · exact h hp
      · right
        exact rmCur_lt ts fill t2 p2 t1 p1 (by rw [c5]; omega)
          (by rw [hlenB t2 ht2]; omega) (Or.inr ⟨ht.symm, hp⟩)
    · right
      exact rmCur_lt ts fill t2 p2 t1 p1 (by rw [c5]; omega)
        (by rw [hlenB t2 ht2]; omega) (Or.inl ht)
  · have hloc2 : ∀ t, t < T → ∀ p ∈ locRecs true (InitStorage true
        (applyBudgets true (InitBudget true (mkBuilder rptr0 data0 b) n T)
          buds)) recs t,
        p.1 < ((InitStorage true (applyBudgets true (InitBudget true
          (mkBuilder rptr0 data0 b) n T)
            buds)).thread_rptr.getD t []).length := by
      intro t ht p hp
      rw [hloceq t] at hp
      obtain ⟨p0, hp0, hpe⟩ := List.mem_map.mp hp
      have hkp := hpkeys t ht p0 hp0
      rw [hlen3 t ht, ← hpe]
      show p0.1 - (b + t * dispOf true b n T) < slotSize true b n T t
      omega
    have hcat : pushTrace true (InitStorage true (applyBudgets true
        (InitBudget true (mkBuilder rptr0 data0 b) n T) buds)) recs =
        catMap (List.range T) (fun t =>
          (pushLocRun ([] : List α) ((InitStorage true (applyBudgets true
            (InitBudget true (mkBuilder rptr0 data0 b) n T)
              buds)).thread_rptr.getD t [])
            (locRecs true (InitStorage true (applyBudgets true
              (InitBudget true (mkBuilder rptr0 data0 b) n T) buds))
              recs t)).2.2) := by
      rw [pushTrace_eq_locRecs, hrec]
    have hptA : ∀ t ∈ List.range T,
        (((pushLocRun ([] : List α) ((InitStorage true (applyBudgets true
          (InitBudget true (mkBuilder rptr0 data0 b) n T)
            buds)).thread_rptr.getD t [])
          (locRecs true (InitStorage true (applyBudgets true
            (InitBudget true (mkBuilder rptr0 data0 b) n T) buds))
            recs t)).2.2 : List Nat) : Multiset Nat) =
        intervalM (fill + threadStart ts t) (ts.getD t []).sum := by
      intro t ht
      rw [List.mem_range] at ht
      rw [pushLocRun_trace (locRecs true (InitStorage true (applyBudgets
        true (InitBudget true (mkBuilder rptr0 data0 b) n T) buds)) recs t)
        ([] : List α) ((InitStorage true (applyBudgets true (InitBudget
          true (mkBuilder rptr0 data0 b) n T) buds)).thread_rptr.getD t [])
        (hloc2 t ht)]
      rw [s6 t]
      have hpt2 : ∀ p ∈ List.range (ts.getD t []).length,
          intervalM (((InitStorage true (applyBudgets true (InitBudget
            true (mkBuilder rptr0 data0 b) n T)
              buds)).thread_rptr.getD t []).getD p 0)
            (cntKey (locRecs true (InitStorage true (applyBudgets true
              (InitBudget true (mkBuilder rptr0 data0 b) n T) buds))
              recs t) p) =
          intervalM (fill + threadStart ts t + ((ts.getD t []).take p).sum)
            ((ts.getD t []).getD p 0) := by
        intro p hp
        rw [List.mem_range] at hp
        have hp2 : p < slotSize true b n T t := by
          rw [← hlenB t ht]
          exact hp
        rw [hcur t ht p hp2, hcntloc t ht p, ← hcellB t ht p hp2]
        have he : fill + cellPre ts t p =
            fill + threadStart ts t + ((ts.getD t []).take p).sum := by
          unfold cellPre
          omega
        rw [he]
      rw [List.map_congr_left hpt2]
      exact tile_cells_rm (ts.getD t []) (fill + threadStart ts t)
    calc (((pushTrace true (InitStorage true (applyBudgets true
          (InitBudget true (mkBuilder rptr0 data0 b) n T) buds)) recs) :
            List Nat) : Multiset Nat)
        = ((List.range T).map (fun t =>
            (((pushLocRun ([] : List α) ((InitStorage true (applyBudgets
              true (InitBudget true (mkBuilder rptr0 data0 b) n T)
                buds)).thread_rptr.getD t [])
              (locRecs true (InitStorage true (applyBudgets true
                (InitBudget true (mkBuilder rptr0 data0 b) n T) buds))
                recs t)).2.2 : List Nat) : Multiset Nat))).sum := by
          rw [hcat]
          exact catMap_coe_sum (List.range T) _
      _ = ((List.range T).map (fun t =>
            intervalM (fill + threadStart ts t) (ts.getD t []).sum)).sum :=
          congrArg List.sum (List.map_congr_left hptA)
      _ = intervalM fill ((ts.map List.sum).sum) := by
          have h0 := tile_threads_rm ts fill
          rw [c5] at h0
          exact h0
      _ = intervalM fill (cumCnt recs T b n) := by
          rw [← hfcn, hfc n (Nat.le_refl _)]

/-- C3: after a completed budget phase and InitStorage, in either mode, the
data-array regions reserved for distinct (thread, cell) pairs — starting at
the cursor InitStorage wrote into the cell, with length the budget count the
cell held before InitStorage — are pairwise disjoint, and a compliant push
phase writes each newly reserved data slot exactly once: the multiset of
data positions written by the whole push phase is exactly the interval of
new positions [prior total, prior total + total new count). -/
theorem C3_regions_disjoint_write_once :
    (∀ (α : Type) [Inhabited α] (rptr0 : List Nat) (data0 : List α)
      (b n T : Nat) (buds : List (List (Nat × Nat)))
      (recs : List (List (Nat × α))),
      1 ≤ T → b ≤ n → buds.length = T → recs.length = T →
      ((b = 0 ∧ rptr0 = []) ∨ rptr0.length = b + 1) →
      (∀ t, t < T → ∀ p ∈ buds.getD t [], b ≤ p.1 ∧ p.1 < n) →
      (∀ t, t < T → ∀ p ∈ recs.getD t [], b ≤ p.1 ∧ p.1 < n) →
      (∀ t, t < T → ∀ k, k < n →
        cntKey (recs.getD t []) k = budSum (buds.getD t []) k) →
      (∀ t1 j1 t2 j2, t1 < T → t2 < T → j1 < n - b → j2 < n - b →
        t1 ≠ t2 ∨ j1 ≠ j2 →
        cellVal (InitStorage false (applyBudgets false (InitBudget false
            (mkBuilder rptr0 data0 b) n T) buds)) t1 j1 +
          cellVal (applyBudgets false (InitBudget false
            (mkBuilder rptr0 data0 b) n T) buds) t1 j1 ≤
        cellVal (InitStorage false (applyBudgets false (InitBudget false
            (mkBuilder rptr0 data0 b) n T) buds)) t2 j2 ∨
        cellVal (InitStorage false (applyBudgets false (InitBudget false
            (mkBuilder rptr0 data0 b) n T) buds)) t2 j2 +
          cellVal (applyBudgets false (InitBudget false
            (mkBuilder rptr0 data0 b) n T) buds) t2 j2 ≤
        cellVal (InitStorage false (applyBudgets false (InitBudget false
            (mkBuilder rptr0 data0 b) n T) buds)) t1 j1) ∧
      ((pushTrace false (InitStorage false (applyBudgets false
          (InitBudget false (mkBuilder rptr0 data0 b) n T) buds)) recs :
          List Nat) : Multiset Nat) =
        intervalM (rptr0.getLastD 0) (cumCnt recs T b (n - b))) ∧
    (∀ (α : Type) [Inhabited α] (rptr0 : List Nat) (data0 : List α)
      (b n T : Nat) (buds : List (List (Nat × Nat)))
      (recs : List (List (Nat × α))),
      1 ≤ T → buds.length = T → recs.length = T →
      ((b = 0 ∧ rptr0 = []) ∨ rptr0.length = b + 1) →
      (∀ t, t < T → ∀ p ∈ buds.getD t [],
        b + t * dispOf true b n T ≤ p.1 ∧
        p.1 - (b + t * dispOf true b n T) < slotSize true b n T t) →
      (∀ t, t < T → ∀ p ∈ recs.getD t [],
        b + t * dispOf true b n T ≤ p.1 ∧
        p.1 - (b + t * dispOf true b n T) < slotSize true b n T t) →
      (∀ t, t < T → ∀ k, k < b + n →
        cntKey (recs.getD t []) k = budSum (buds.getD t []) k) →
      (∀ t1 p1 t2 p2, t1 < T → t2 < T → p1 < slotSize true b n T t1 →
        p2 < slotSize true b n T t2 → t1 ≠ t2 ∨ p1 ≠ p2 →
        cellVal (InitStorage true (applyBudgets true (InitBudget true
            (mkBuilder rptr0 data0 b) n T) buds)) t1 p1 +
          cellVal (applyBudgets true (InitBudget true
            (mkBuilder rptr0 data0 b) n T) buds) t1 p1 ≤
        cellVal (InitStorage true (applyBudgets true (InitBudget true
            (mkBuilder rptr0 data0 b) n T) buds)) t2 p2 ∨
        cellVal (InitStorage true (applyBudgets true (InitBudget true
            (mkBuilder rptr0 data0 b) n T) buds)) t2 p2 +
          cellVal (applyBudgets true (InitBudget true
            (mkBuilder rptr0 data0 b) n T) buds) t2 p2 ≤
        cellVal (InitStorage true (applyBudgets true (InitBudget true
            (mkBuilder rptr0 data0 b) n T) buds)) t1 p1) ∧
      ((pushTrace true (InitStorage true (applyBudgets true
          (InitBudget true (mkBuilder rptr0 data0 b) n T) buds)) recs :
          List Nat) : Multiset Nat) =
        intervalM (rptr0.getLastD 0) (cumCnt recs T b n)) := by
  constructor
  · intro α inst rptr0 data0 b n T buds recs hT hbn hbud hrec hshape
      hbk hpk hc
    exact sharedRegions_spec rptr0 data0 b n T buds recs hT hbn hbud hrec
      hshape hbk hpk hc
  · intro α inst rptr0 data0 b n T buds recs hT hbud hrec hshape hbk hpk hc
    exact rmRegions_spec rptr0 data0 b n T buds recs hT hbud hrec hshape
      hbk hpk hc

/-- Witness for C3: a concrete one-thread shared build with one budgeted and
pushed value for key 0; the push phase writes exactly the single new slot. -/
theorem C3_witness :
    ((pushTrace false (InitStorage false (applyBudgets false (InitBudget
        false (mkBuilder [] ([] : List Nat) 0) 1 1) [[(0, 1)]]))
        [[(0, 5)]] : List Nat) : Multiset Nat) =
      intervalM (([] : List Nat).getLastD 0) (cumCnt [[(0, 5)]] 1 0 (1 - 0)) :=
  (C3_regions_disjoint_write_once.1 Nat [] [] 0 1 1 [[(0, 1)]] [[(0, 5)]]
    (by decide) (by decide) rfl rfl (Or.inl ⟨rfl, rfl⟩)
    (by
      intro t ht p hp
      have ht0 : t = 0 := by omega
      subst ht0
      simp at hp
      subst hp
      decide)
    (by
      intro t ht p hp
      have ht0 : t = 0 := by omega
      subst ht0
      simp at hp
      subst hp
      decide)
    (by
      intro t ht k hk
      have ht0 : t = 0 := by omega
      subst ht0
      have hk0 : k = 0 := by omega
      subst hk0
      decide)).2

/-- C8: frame conditions of the protocol.  InitBudget and AddBudget never
touch the offset or data arrays; Push never touches the offset array and
never changes the data array's length; InitStorage never modifies an offset
entry below the base offset and resizes the data array to the final running
total (the offset array's last entry); and over a full compliant incremental
build, in either mode, every offset entry below the base offset and every
data entry below the prior total keeps its pre-existing value verbatim,
while the final data length equals the final offset-array last entry. -/
theorem C8_incremental_frame :
    (∀ (α : Type) (rm : Bool) (bld : Builder α) (n T : Nat),
      (InitBudget rm bld n T).rptr = bld.rptr ∧
      (InitBudget rm bld n T).data = bld.data) ∧
    (∀ (α : Type) (rm : Bool) (bld : Builder α) (k t ne : Nat),
      (AddBudget rm bld k t ne).rptr = bld.rptr ∧
      (AddBudget rm bld k t ne).data = bld.data) ∧
    (∀ (α : Type) (rm : Bool) (bld : Builder α) (k : Nat) (v : α) (t : Nat),
      (Push rm bld k v t).rptr = bld.rptr ∧
      (Push rm bld k v t).data.length = bld.data.length) ∧
    (∀ (α : Type) [Inhabited α] (rm : Bool) (bld : Builder α),
      (rm = false → 1 ≤ bld.thread_rptr.length) →
      bld.rptr.length ≤ bld.base_row_offset + 1 →
      (∀ idx, idx < bld.base_row_offset → idx < bld.rptr.length →
        (InitStorage rm bld).rptr.getD idx 0 = bld.rptr.getD idx 0) ∧
      (InitStorage rm bld).data.length =
        (InitStorage rm bld).rptr.getLastD 0) ∧
    (∀ (α : Type) [Inhabited α] (rptr0 : List Nat) (data0 : List α)
      (b n T : Nat) (buds : List (List (Nat × Nat)))
      (recs : List (List (Nat × α))),
      1 ≤ T → 1 ≤ b → b ≤ n → buds.length = T → recs.length = T →
      rptr0.length = b + 1 →
      (∀ t, t < T → ∀ p ∈ buds.getD t [], b ≤ p.1 ∧ p.1 < n) →
      (∀ t, t < T → ∀ p ∈ recs.getD t [], b ≤ p.1 ∧ p.1 < n) →
      (∀ t, t < T → ∀ k, k < n →
        cntKey (recs.getD t []) k = budSum (buds.getD t []) k) →
      (∀ idx, idx < b →
        (runProtocol false b rptr0 data0 n T buds recs).rptr.getD idx 0 =
          rptr0.getD idx 0) ∧
      (runProtocol false b rptr0 data0 n T buds recs).data.length =
        (runProtocol false b rptr0 data0 n T buds recs).rptr.getLastD 0 ∧
      (∀ q, q < rptr0.getLastD 0 → q < data0.length →
        (runProtocol false b rptr0 data0 n T buds recs).data.getD q default =
          data0.getD q default)) ∧
    (∀ (α : Type) [Inhabited α] (rptr0 : List Nat) (data0 : List α)
      (b n T : Nat) (buds : List (List (Nat × Nat)))
      (recs : List (List (Nat × α))),
      1 ≤ T → 1 ≤ b → buds.length = T → recs.length = T →
      rptr0.length = b + 1 →
      (∀ t, t < T → ∀ p ∈ buds.getD t [],
        b + t * dispOf true b n T ≤ p.1 ∧
        p.1 - (b + t * dispOf true b n T) < slotSize true b n T t) →
      (∀ t, t < T → ∀ p ∈ recs.getD t [],
        b + t * dispOf true b n T ≤ p.1 ∧
        p.1 - (b + t * dispOf true b n T) < slotSize true b n T t) →
      (∀ t, t < T → ∀ k, k < b + n →
        cntKey (recs.getD t []) k = budSum (buds.getD t []) k) →
      (∀ idx, idx < b →
        (runProtocol true b rptr0 data0 n T buds recs).rptr.getD idx 0 =
          rptr0.getD idx 0) ∧
      (runProtocol true b rptr0 data0 n T buds recs).data.length =
        (runProtocol true b rptr0 data0 n T buds recs).rptr.getLastD 0 ∧
      (∀ q, q < rptr0.getLastD 0 → q < data0.length →
        (runProtocol true b rptr0 data0 n T buds recs).data.getD q default =
          data0.getD q default)) := by
  refine ⟨?_, ?_, ?_, ?_, ?_, ?_⟩
  · intro α rm bld n T
    exact ⟨rfl, rfl⟩
  · intro α rm bld k t ne
    exact ⟨rfl, rfl⟩
  · intro α rm bld k v t
    exact ⟨rfl, List.length_set _ _ _⟩
  · intro α inst rm bld hts hsh
    cases rm with
    | false =>
        obtain ⟨s1, s2, s3, s4, s5, s6, s7, s8, s9, s10, s11⟩ :=
          InitStorage_shared_char bld (hts rfl) hsh
        exact ⟨s2, by rw [s8, length_resizeFill]⟩
    | true =>
        obtain ⟨s1, s2, s3, s4, s5, s6, s7, s8, s9, s10, s11⟩ :=
          InitStorage_rm_char bld hsh
        exact ⟨s2, by rw [s8, length_resizeFill]⟩
  · intro α inst rptr0 data0 b n T buds recs hT hb hbn hbud hrec hshape
      hbk hpk hc
    obtain ⟨mA, mB, mC, mD, mE, mF⟩ :=
      sharedProtocol_spec rptr0 data0 b n T buds recs hT hbn hbud hrec
        (Or.inr hshape) hbk hpk hc
    refine ⟨?_, ?_, ?_⟩
    · intro idx hidx
      rw [mB idx hidx, if_pos (by omega)]
    · rw [getLastD_eq_gd, mA]
      have h1 : n + 1 - 1 = n := by omega
      rw [h1, mC n hbn (Nat.le_refl _), mD]
    · intro q hq hq2
      rw [mE q hq, gd_resizeFill, if_pos hq, if_pos hq2]
  · intro α inst rptr0 data0 b n T buds recs hT hb hbud hrec hshape
      hbk hpk hc
    obtain ⟨mA, mB, mC, mD, mE, mF, mG, mH⟩ :=
      rmProtocol_spec rptr0 data0 b n T buds recs hT hbud hrec
        (Or.inr hshape) hbk hpk hc
    refine ⟨?_, ?_, ?_⟩
    · intro idx hidx
      rw [mB idx hidx, if_pos (by omega)]
    · rw [getLastD_eq_gd, mA]
      have h1 : n + b + 1 - 1 = n + b := by omega
      rw [h1, mC (n + b) (by omega) (Nat.le_refl _)]
      have h2 : n + b - b = n := by omega
      rw [h2, mD]
    · intro q hq hq2
      rw [mE q hq, gd_resizeFill, if_pos hq, if_pos hq2]

/-- Witness for C8: a concrete shared incremental build on top of one
pre-existing row ([0, 1] offsets, data [42]) keeps the pre-existing data
entry 42 in place. -/
theorem C8_witness :
    (runProtocol false 1 [0, 1] [42] 2 1 [[(1, 1)]] [[(1, 9)]]).data.getD 0
        default =
      ([42] : List Nat).getD 0 default :=
  (C8_incremental_frame.2.2.2.2.1 Nat [0, 1] [42] 1 2 1 [[(1, 1)]]
    [[(1, 9)]] (by decide) (by decide) (by decide) rfl rfl rfl
    (by
      intro t ht p hp
      have ht0 : t = 0 := by omega
      subst ht0
      simp at hp
      subst hp
      decide)
    (by
      intro t ht p hp
      have ht0 : t = 0 := by omega
      subst ht0
      simp at hp
      subst hp
      decide)
    (by
      intro t ht k hk
      have ht0 : t = 0 := by omega
      subst ht0
      have hk2 : k = 0 ∨ k = 1 := by omega
      rcases hk2 with h | h <;> subst h <;> decide)).2.2 0 (by decide)
    (by decide)

end GroupData
